import Mathlib

/-!
# Multilocker: order registry and composite lock

An embedding of `locker.go` and `opt.go`: first sequential, then with goroutines.

* A `sync.Locker` handle is an identity; the registry only ever compares handles
  for equality (map key), so a handle is a natural number.
* The package-level variables `nextOrderID` and `order` form the `Registry`
  state, threaded explicitly through every function.
* `uint32` fields are natural numbers; every increment and the atomic add of
  `math.MaxUint32` are reduced modulo `2^32`.
* A Go panic is an `Except.error`; the registry is returned next to the outcome,
  because a panic leaves the package-level state as it was when it fired.
* `Lock` and `Unlock` are described by the trace of calls on the handles.
* Histories are lists of calls: `RegOp` for `take` and `put` on the registry,
  `Stmt` for `New` calls, finalizer runs and the caller's slices on a `Heap`
  (registry, backing arrays, live multilockers). `New` keeps the slice it is
  passed and sorts it in place, so the list of a multilocker lives in memory.
  `Op` on a `World` is the lists view of such a program: the lists held by
  value, for `New` calls on slices of their own.
* Concurrency is an interleaving of atomic steps chosen by a schedule: the phases
  of `take` and `put` under `orderLocker` on a registry with item addresses
  (`Machine`), and the `Lock` and `Unlock` calls on mutexes (`LockState`).

The file has three parts: the definitions, the lemmas about them, and the claims
`C1` to `C19`, each with its witness and, where the claim as written fails, a
counterexample.
-/

namespace Multilocker

/-! # Definitions -/

/-! ## The registry (`opt.go`) -/

/-- Identity of a `sync.Locker` handle (the key of the `order` map). -/
abbrev Locker := Nat

/-- Number of values of a `uint32`. -/
def uint32Size : Nat := 4294967296

/-- The constant `math.MaxUint32`. -/
def maxUint32 : Nat := 4294967295

/-- The struct `orderItem`: an id and a reference count, both `uint32`. -/
structure orderItem where
  id : Nat
  refcount : Nat
deriving DecidableEq, Repr

/-- The package-level state: `nextOrderID` and the map `order`.
A handle without an entry maps to `none` (the nil pointer of the Go map). -/
structure Registry where
  nextOrderID : Nat
  order : Locker → Option orderItem

/-- The state at program start: counter zero, empty map. -/
def emptyRegistry : Registry := ⟨0, fun _ => none⟩

/-- Store (or, with `none`, delete) the entry of one handle. -/
def setItem (s : Registry) (l : Locker) (it : Option orderItem) : Registry :=
  { s with order := fun k => if k = l then it else s.order k }

/-- The read-locked phase of `take`: when the handle has an entry its refcount is
incremented (`atomic.AddUint32(&item.refcount, 1)`) and `take` returns;
`none` means the entry was missing and `take` goes on to the write-locked phase. -/
def takeFast (l : Locker) (s : Registry) : Option Registry :=
  match s.order l with
  | some item => some (setItem s l (some { item with refcount := (item.refcount + 1) % uint32Size }))
  | none => none

/-- The write-locked phase of `take`: look the handle up again; create the entry
with `id = nextOrderID`, `refcount = 1` and increment `nextOrderID`, or increment
the refcount of the entry found. -/
def takeSlow (l : Locker) (s : Registry) : Registry :=
  match s.order l with
  | none =>
      { nextOrderID := (s.nextOrderID + 1) % uint32Size,
        order := fun k => if k = l then some ⟨s.nextOrderID, 1⟩ else s.order k }
  | some item => setItem s l (some { item with refcount := (item.refcount + 1) % uint32Size })

/-- The function `take`, both phases run back to back. -/
def take (l : Locker) (s : Registry) : Registry :=
  match takeFast l s with
  | some s1 => s1
  | none => takeSlow l s

/-- The read-locked phase of `put`: `atomic.AddUint32(&item.refcount, math.MaxUint32)`.
A missing entry is a nil pointer and the add faults. The flag tells whether the
new refcount is zero, in which case `put` goes on to the write-locked phase. -/
def putFast (l : Locker) (s : Registry) : Except String (Bool × Registry) :=
  match s.order l with
  | none => .error "invalid memory address or nil pointer dereference"
  | some item =>
      let rc := (item.refcount + maxUint32) % uint32Size
      .ok (decide (rc = 0), setItem s l (some { item with refcount := rc }))

/-- The write-locked phase of `put`: delete the entry when its refcount is
(still) zero. -/
def putSlow (l : Locker) (s : Registry) : Registry :=
  match s.order l with
  | some item => if item.refcount = 0 then setItem s l none else s
  | none => s

/-- The function `put`, both phases run back to back. On a fault the registry is
the one before the call. -/
def put (l : Locker) (s : Registry) : Except String Unit × Registry :=
  match putFast l s with
  | .error e => (.error e, s)
  | .ok (true, s1) => (.ok (), putSlow l s1)
  | .ok (false, s1) => (.ok (), s1)

/-- The first loop of `optimizeSequence`: `take` on every argument, in order. -/
def takeAll : List Locker → Registry → Registry
  | [], s => s
  | l :: ls, s => takeAll ls (take l s)

/-- The comparator handed to `sort.Slice`: `order[a].id < order[b].id`.
A handle without an entry is a nil pointer and the comparison faults. -/
def less (s : Registry) (a b : Locker) : Except String Bool :=
  match s.order a, s.order b with
  | some x, some y => .ok (decide (x.id < y.id))
  | _, _ => .error "invalid memory address or nil pointer dereference"

/-- Inner loop of the insertion sort, `for j := i; j > a && less(j, j-1); j--`
with a swap per round: the element `x` at position `i` moves left as long as it
is less than its left neighbour. The part `data[a:i]` already sorted is given
back to front, so its head is the left neighbour of `x`. -/
def insertBack {α : Type} (lt : α → α → Except String Bool) (x : α) :
    List α → Except String (List α)
  | [] => .ok [x]
  | y :: ys =>
      match lt x y with
      | .error e => .error e
      | .ok false => .ok (x :: y :: ys)
      | .ok true =>
          match insertBack lt x ys with
          | .error e => .error e
          | .ok r => .ok (y :: r)

/-- Outer loop of the insertion sort, `for i := a + 1; i < b; i++`;
`done` is the sorted part so far, back to front. -/
def insertionSortLoop {α : Type} (lt : α → α → Except String Bool) :
    List α → List α → Except String (List α)
  | [], done => .ok done.reverse
  | x :: xs, done =>
      match insertBack lt x done with
      | .error e => .error e
      | .ok done1 => insertionSortLoop lt xs done1

/-- The library call `sort.Slice(data, less)`. On short slices the library runs
exactly this insertion sort; on longer slices it runs other algorithms (a shell
pass, quicksort variants), whose result is again a permutation of the input that
is sorted by `less`, and the same list whenever `less` tells the elements apart
(`sorted_perm_unique`). -/
def sortSlice {α : Type} (lt : α → α → Except String Bool) (data : List α) :
    Except String (List α) :=
  insertionSortLoop lt data []

/-- The function `optimizeSequence`: register every argument, then sort the
arguments by the id of their entries. -/
def optimizeSequence (lockers : List Locker) (s : Registry) :
    Except String (List Locker) × Registry :=
  let s1 := takeAll lockers s
  (sortSlice (less s1) lockers, s1)

/-! ## The multilocker (`locker.go`) -/

/-- The struct `T`, a multilocker. -/
structure T where
  list : List Locker
deriving DecidableEq, Repr

/-- The function `New`. An empty argument list panics before anything else
happens. (`setFinalizer` only registers `T.finalizer` with the runtime.) -/
def New (lockers : List Locker) (s : Registry) : Except String T × Registry :=
  if lockers.length = 0 then
    (.error "need at least one argument", s)
  else
    match optimizeSequence lockers s with
    | (.ok list, s1) => (.ok ⟨list⟩, s1)
    | (.error e, s1) => (.error e, s1)

/-- The loop of the finalizer set by `setFinalizer`: `put` on every element of
the list, in order. The third component logs the handles `put` was called on. -/
def finalizerLoop : List Locker → Registry → Except String Unit × Registry × List Locker
  | [], s => (.ok (), s, [])
  | l :: ls, s =>
      match put l s with
      | (.error e, s1) => (.error e, s1, [l])
      | (.ok _, s1) =>
          let r := finalizerLoop ls s1
          (r.1, r.2.1, l :: r.2.2)

/-- The finalizer of a multilocker. -/
def T.finalizer (t : T) (s : Registry) : Except String Unit × Registry × List Locker :=
  finalizerLoop t.list s

/-- A call made on an underlying handle. -/
inductive Event where
  | lock (l : Locker)
  | unlock (l : Locker)
deriving DecidableEq, Repr

/-- The loop of `Lock`: `for _, l := range t.list { l.Lock() }`. -/
def lockLoop : List Locker → List Event
  | [] => []
  | l :: ls => Event.lock l :: lockLoop ls

/-- The method `Lock`, as the trace of calls it makes. -/
def T.Lock (t : T) : List Event := lockLoop t.list

/-- The loop of `Unlock`: `for i := len(t.list) - 1; i >= 0; i-- { t.list[i].Unlock() }`.
The argument is `i + 1`, so the loop ends at `0`; started at `len(t.list)`, it
only ever reads indices that are in range. -/
def unlockLoop (list : List Locker) : Nat → List Event
  | 0 => []
  | i + 1 =>
      match list[i]? with
      | some l => Event.unlock l :: unlockLoop list i
      | none => []

/-- The method `Unlock`, as the trace of calls it makes. -/
def T.Unlock (t : T) : List Event := unlockLoop t.list t.list.length

/-- The handle a call is made on. -/
def Event.handle : Event → Locker
  | .lock l => l
  | .unlock l => l

/-! ## Reading the registry -/

deriving instance DecidableEq for Except

/-- The id stored for a handle (`0` for a handle without an entry). -/
def idOf (s : Registry) (l : Locker) : Nat :=
  match s.order l with
  | some item => item.id
  | none => 0

/-- The refcount stored for a handle (`0` for a handle without an entry). -/
def refcountOf (s : Registry) (l : Locker) : Nat :=
  match s.order l with
  | some item => item.refcount
  | none => 0

/-! ## Histories of registry calls -/

/-- A call on the registry. -/
inductive RegOp where
  | take (l : Locker)
  | put (l : Locker)
deriving DecidableEq, Repr

/-- One registry call; `none` when the call faults (`put` on a handle without
an entry), which ends the program. -/
def Registry.step (s : Registry) : RegOp → Option Registry
  | .take l => some (take l s)
  | .put l =>
      match put l s with
      | (.ok _, s1) => some s1
      | (.error _, _) => none

/-- A sequence of registry calls, run from left to right. -/
def Registry.run : Registry → List RegOp → Option Registry
  | s, [] => some s
  | s, op :: ops =>
      match s.step op with
      | some s1 => s1.run ops
      | none => none

/-- Number of `take` calls in a sequence of registry calls. -/
def takeCount : List RegOp → Nat
  | [] => 0
  | .take _ :: ops => takeCount ops + 1
  | .put _ :: ops => takeCount ops

/-- The calls `take c; put c`, repeated `n` times: what constructing a multilocker
over the single handle `c` and finalizing it does to the registry, `n` times over. -/
def takePutCycles (c : Locker) : Nat → List RegOp
  | 0 => []
  | n + 1 => RegOp.take c :: RegOp.put c :: takePutCycles c n

/-- The entries created by the `take` calls of a sequence of registry calls, in
the order of creation: the handle, and the id found in its entry right after the
`take` call that created the entry. -/
def createdEntries : Registry → List RegOp → List (Locker × Nat)
  | _, [] => []
  | s, .take l :: ops =>
      match s.order l with
      | none => (l, idOf (take l s) l) :: createdEntries (take l s) ops
      | some _ => createdEntries (take l s) ops
  | s, .put l :: ops =>
      match put l s with
      | (.ok _, s1) => createdEntries s1 ops
      | (.error _, _) => []

/-! ## Constructions and disposals on lists held by value

The lists view of the program: every live multilocker is shown with the elements
its list holds, as a value. `World.step` is what `New` and the finalizer do in
this view when the slice passed to `New` shares its backing array with no live
multilocker. The program with its memory is `Heap` below; the lemmas relate the
two. -/

/-- The registry together with the multilockers that were constructed and not
yet finalized, each with the elements of its list. -/
structure World where
  reg : Registry
  live : List T

/-- The world at program start. -/
def World.init : World := ⟨emptyRegistry, []⟩

/-- What a program does with the package: construct a multilocker from a list of
handles, or have the finalizer of the live multilocker number `i` run. -/
inductive Op where
  | construct (lockers : List Locker)
  | dispose (i : Nat)
deriving DecidableEq, Repr

/-- One step in the lists view, for a `New` call on a slice of its own. A `New`
that panics gives no multilocker and leaves the registry as the panic found it.
A finalizer runs once, on a multilocker that is live, and the multilocker is
gone afterwards; a finalizer that faults ends the program (`none`). -/
def World.step (w : World) : Op → Option World
  | .construct lockers =>
      match New lockers w.reg with
      | (.ok t, r) => some ⟨r, t :: w.live⟩
      | (.error _, r) => some ⟨r, w.live⟩
  | .dispose i =>
      match w.live[i]? with
      | none => none
      | some t =>
          match t.finalizer w.reg with
          | (.ok _, r, _) => some ⟨r, w.live.eraseIdx i⟩
          | (.error _, _, _) => none

/-- A program, run from left to right. -/
def World.run : World → List Op → Option World
  | w, [] => some w
  | w, op :: ops =>
      match w.step op with
      | some w1 => w1.run ops
      | none => none

/-- The steps "construct a multilocker over `lockers`, then have its finalizer
run", repeated `n` times. -/
def constructDisposeCycles (lockers : List Locker) : Nat → List Op
  | 0 => []
  | n + 1 => Op.construct lockers :: Op.dispose 0 :: constructDisposeCycles lockers n

/-- Number of handle registrations (`take` calls) made by a program: the sum of
the lengths of the argument lists of its `New` calls. -/
def registrations : List Op → Nat
  | [] => 0
  | .construct lockers :: ops => lockers.length + registrations ops
  | .dispose _ :: ops => registrations ops

/-- Number of occurrences of a handle over the lists of the live multilockers. -/
def World.occurrences (w : World) (l : Locker) : Nat :=
  (w.live.map (fun t => t.list.count l)).sum

/-- Handle `a` comes before handle `b` in a list: some occurrence of `a` is
followed, not necessarily directly, by an occurrence of `b`. -/
def precedes (a b : Locker) (list : List Locker) : Prop := [a, b].Sublist list

instance (a b : Locker) (list : List Locker) : Decidable (precedes a b list) := by
  unfold precedes
  infer_instance

/-- The distinct handles of an argument list that have no entry in the registry. -/
def newHandles (s : Registry) (lockers : List Locker) : Finset Locker :=
  (lockers.filter (fun l => (s.order l).isNone)).toFinset

/-! ## Slices and backing arrays: the program with its memory

`New` is variadic. `New(a, b, c)` builds a new backing array for its arguments;
`New(buf[lo:hi]...)` passes the caller's slice as it is. `optimizeSequence`
sorts the slice it is given in place (`sort.Slice`) and returns it, and `New`
stores it in `t.list` without copying: the list of the multilocker lies in the
backing array of the argument slice, and `Lock`, `Unlock` and the finalizer read
it from there. A later `New` on a slice of the same array, or a store by the
caller, changes what the multilocker walks. -/

/-- A slice `buf[lo:hi]` of backing array number `array`. -/
structure Slice where
  array : Nat
  lo : Nat
  hi : Nat
deriving DecidableEq, Repr

/-- The program state with its memory: the registry, the backing arrays
(`allocated` is the number of arrays made so far), and the slices in the `list`
fields of the multilockers that were constructed and not yet finalized. -/
structure Heap where
  reg : Registry
  arrays : Nat → List Locker
  allocated : Nat
  live : List Slice

/-- The state at program start. -/
def Heap.init : Heap := ⟨emptyRegistry, fun _ => [], 0, []⟩

/-- The elements a slice holds now. -/
def Heap.read (h : Heap) (sl : Slice) : List Locker :=
  ((h.arrays sl.array).drop sl.lo).take (sl.hi - sl.lo)

/-- An array with the elements from index `lo` on overwritten by `xs`. -/
def writeAt (arr : List Locker) (lo : Nat) (xs : List Locker) : List Locker :=
  arr.take lo ++ xs ++ arr.drop (lo + xs.length)

/-- A new backing array holding `lockers`. -/
def Heap.alloc (h : Heap) (lockers : List Locker) : Heap :=
  { h with arrays := fun a => if a = h.allocated then lockers else h.arrays a,
           allocated := h.allocated + 1 }

/-- The call of `New` on the slice `sl`: the registry calls and the sort are
those of `New` on the elements the slice holds; the sorted elements are written
back into the slice, and the slice itself is the list of the new multilocker.
(A panic leaves no multilocker behind. The panic on an empty argument list comes
before anything is written.) -/
def Heap.callNew (h : Heap) (sl : Slice) : Heap :=
  match New (h.read sl) h.reg with
  | (.ok t, r) =>
      { h with reg := r,
               arrays := fun a =>
                 if a = sl.array then writeAt (h.arrays a) sl.lo t.list else h.arrays a,
               live := sl :: h.live }
  | (.error _, r) => { h with reg := r }

/-- What a program does with the package and with the slices it passes to it. -/
inductive Stmt where
  | make (lockers : List Locker)
  | store (array i : Nat) (l : Locker)
  | newOf (lockers : List Locker)
  | newSlice (sl : Slice)
  | finalize (i : Nat)
deriving DecidableEq, Repr

/-- One statement of a program.
* `make lockers`: `buf := []sync.Locker{...}`, a new backing array.
* `store array i l`: `buf[i] = l`; an index out of range ends the program.
* `newOf lockers`: `New(a, b, c)`, the arguments given one by one: the call
  builds a new array for them and passes the slice of all of it.
* `newSlice sl`: `New(buf[lo:hi]...)`; bounds out of range end the program.
* `finalize i`: the finalizer of the live multilocker number `i` runs, on the
  elements its list holds at that time; a finalizer that faults ends the program. -/
def Heap.step (h : Heap) : Stmt → Option Heap
  | .make lockers => some (h.alloc lockers)
  | .store array i l =>
      if array < h.allocated ∧ i < (h.arrays array).length then
        some { h with arrays := fun a => if a = array then (h.arrays a).set i l else h.arrays a }
      else none
  | .newOf lockers => some ((h.alloc lockers).callNew ⟨h.allocated, 0, lockers.length⟩)
  | .newSlice sl =>
      if sl.array < h.allocated ∧ sl.lo ≤ sl.hi ∧ sl.hi ≤ (h.arrays sl.array).length then
        some (h.callNew sl)
      else none
  | .finalize i =>
      match h.live[i]? with
      | none => none
      | some sl =>
          match T.finalizer ⟨h.read sl⟩ h.reg with
          | (.ok _, r, _) => some { h with reg := r, live := h.live.eraseIdx i }
          | (.error _, _, _) => none

/-- A program, run from left to right. -/
def Heap.run : Heap → List Stmt → Option Heap
  | h, [] => some h
  | h, st :: prog =>
      match h.step st with
      | some h1 => h1.run prog
      | none => none

/-- Number of handle registrations (`take` calls) a statement makes: the length
of the slice passed to `New`. -/
def Stmt.registrations : Stmt → Nat
  | .newOf lockers => lockers.length
  | .newSlice sl => sl.hi - sl.lo
  | _ => 0

/-- Number of handle registrations a program makes. -/
def stmtRegistrations (prog : List Stmt) : Nat := (prog.map Stmt.registrations).sum

/-- The statement leaves the lists of the live multilockers alone: it does not
pass `New` a slice of, and does not store into, a backing array in which the
list of a live multilocker lies. -/
def Stmt.ownArray (h : Heap) : Stmt → Bool
  | .store array _ _ => h.live.all (fun sl => decide (sl.array ≠ array))
  | .newSlice sl => h.live.all (fun sl1 => decide (sl1.array ≠ sl.array))
  | _ => true

/-- Every statement of the program, in the state in which it runs, leaves the
lists of the live multilockers alone. -/
def Heap.unshared : Heap → List Stmt → Bool
  | _, [] => true
  | h, st :: prog =>
      st.ownArray h &&
        match h.step st with
        | some h1 => h1.unshared prog
        | none => true

/-- The lists view of a state: every live multilocker with the elements its list
holds now. -/
def Heap.view (h : Heap) : World := ⟨h.reg, h.live.map (fun sl => ⟨h.read sl⟩)⟩

/-- A construction or disposal as a statement: the arguments of `New` are given
one by one. -/
def Op.toStmt : Op → Stmt
  | .construct lockers => .newOf lockers
  | .dispose i => .finalize i

/-- No backing array in which the list of a live multilocker lies is yet to be
made. -/
def Heap.Fresh (h : Heap) : Prop := ∀ sl ∈ h.live, sl.array < h.allocated

/-! ## Invariants -/

/-- The invariant behind the registry invariant, for a registry on which at most
`n` `take` calls were made: the counter is at most `n`, every entry has a
refcount between `1` and `n` and an id below the counter, and ids are distinct. -/
def TakesInvariant (n : Nat) (s : Registry) : Prop :=
  s.nextOrderID ≤ n ∧
  (∀ l item, s.order l = some item →
    1 ≤ item.refcount ∧ item.refcount ≤ n ∧ item.id < s.nextOrderID) ∧
  (∀ l1 l2 i1 i2, s.order l1 = some i1 → s.order l2 = some i2 → i1.id = i2.id → l1 = l2)

/-- The invariant of a world in which at most `n` handle registrations were
made: the registry satisfies `TakesInvariant n`; the refcount of a handle is the
number of its occurrences over the live lists, which is at most `n`, and a handle
has no entry exactly when it occurs in no live list; every live list is sorted
by the ids the registry holds now. -/
def WorldInvariant (n : Nat) (w : World) : Prop :=
  TakesInvariant n w.reg ∧
  (∀ l, refcountOf w.reg l = w.occurrences l ∧ w.occurrences l ≤ n ∧
    (w.reg.order l = none ↔ w.occurrences l = 0)) ∧
  (∀ t ∈ w.live, t.list.Pairwise (fun a b => idOf w.reg a ≤ idOf w.reg b))

/-! ## Registries reached after `2^32 - 1` and more calls -/

/-- A registry with one entry, handle `0` with id `0` and refcount `1`, whose
counter has come back to `0`. -/
def wrappedRegistry : Registry :=
  ⟨0, fun k => if k = 0 then some ⟨0, 1⟩ else none⟩

/-- An empty registry whose counter stands at the last `uint32` value. -/
def lastIdRegistry : Registry :=
  ⟨4294967295, fun _ => none⟩

/-- A registry with one entry, handle `0` with id `0`, whose refcount stands at
the last `uint32` value. -/
def saturatedRegistry : Registry :=
  ⟨1, fun k => if k = 0 then some ⟨0, 4294967295⟩ else none⟩

/-! ## The construction algorithm in the words of the specification -/

/-- The sorting step of `construct` as the specification words it: "stable-sort
the handles by returned rank ascending". The insertion sort of the library is
stable: an element is inserted in front of the first element of the sorted rest
whose rank is not smaller, hence in front of the elements of equal rank that
followed it in the input. -/
def stableSortByRank (rank : Locker → Nat) (handles : List Locker) : List Locker :=
  handles.insertionSort (fun a b => rank a ≤ rank b)

/-! ## Observing the puts of a finalizer -/

/-- No `put` of the finalizer loop, run on the list `ls` from the registry `s`,
wraps a refcount around: every entry a `put` of the loop finds has refcount at
least `1`, so the atomic add of `math.MaxUint32` takes it down by one and not
from `0` to `2^32 - 1`. (The loop ends at the first `put` that faults.) -/
def putsNeverWrap : List Locker → Registry → Prop
  | [], _ => True
  | l :: ls, s =>
      (∀ item, s.order l = some item → 1 ≤ item.refcount) ∧
      ((put l s).1 = .ok () → putsNeverWrap ls (put l s).2)

/-! ## The registry under concurrent calls

`take` and `put` each run a phase under `orderLocker.RLock()` and, when that
phase does not finish the call, a phase under `orderLocker.Lock()`. A phase under
the write lock excludes every other phase; the phases under the read lock only
read the map and perform one atomic add on an item, so they are steps of their
own as well. Between the two phases of a call other goroutines run, and the
local variable `item` of `put` keeps the address it read in the first phase:
the `orderItem` structs are therefore kept behind addresses here. -/

/-- Address of an `orderItem` struct. -/
abbrev Ptr := Nat

/-- The package-level state with the items behind their addresses: `order` maps
a handle to the address of its item, `items` is the memory holding the structs,
`allocated` is the number of structs allocated so far and the address of the
next one (an address is not used again while something refers to it). -/
structure PtrRegistry where
  nextOrderID : Nat
  order : Locker → Option Ptr
  items : Ptr → orderItem
  allocated : Nat

/-- The state at program start. -/
def emptyPtrRegistry : PtrRegistry := ⟨0, fun _ => none, fun _ => ⟨0, 0⟩, 0⟩

/-- The registry as the sequential functions see it: every handle with the
struct its address points to. -/
def PtrRegistry.view (r : PtrRegistry) : Registry :=
  ⟨r.nextOrderID, fun l => (r.order l).map r.items⟩

/-- Write the refcount of the item at an address. -/
def PtrRegistry.setRefcount (r : PtrRegistry) (p : Ptr) (rc : Nat) : PtrRegistry :=
  { r with items := fun q => if q = p then { r.items p with refcount := rc } else r.items q }

/-- The read-locked phase of `take`: `item := order[l]`; when the item is there,
`atomic.AddUint32(&item.refcount, 1)` and the call returns (`true`); otherwise
the call goes on to the write-locked phase (`false`). -/
def takeRead (l : Locker) (r : PtrRegistry) : PtrRegistry × Bool :=
  match r.order l with
  | some p => (r.setRefcount p (((r.items p).refcount + 1) % uint32Size), true)
  | none => (r, false)

/-- The write-locked phase of `take`: `item = order[l]` is read again; a missing
item is allocated with `id = nextOrderID`, `refcount = 1`, stored in the map, and
`nextOrderID` is incremented; an item found gets `item.refcount++`. -/
def takeWrite (l : Locker) (r : PtrRegistry) : PtrRegistry :=
  match r.order l with
  | none =>
      { nextOrderID := (r.nextOrderID + 1) % uint32Size,
        order := fun k => if k = l then some r.allocated else r.order k,
        items := fun q => if q = r.allocated then ⟨r.nextOrderID, 1⟩ else r.items q,
        allocated := r.allocated + 1 }
  | some p => r.setRefcount p (((r.items p).refcount + 1) % uint32Size)

/-- The read-locked phase of `put`: `item := order[l]` and
`atomic.AddUint32(&item.refcount, math.MaxUint32)`; a missing item is a nil
pointer and the add faults. When the new refcount is not zero the call returns
(`none`); otherwise it goes on to the write-locked phase with the address in
`item` (`some item`). -/
def putRead (l : Locker) (r : PtrRegistry) : Except String (PtrRegistry × Option Ptr) :=
  match r.order l with
  | none => .error "invalid memory address or nil pointer dereference"
  | some p =>
      let rc := ((r.items p).refcount + maxUint32) % uint32Size
      if rc = 0 then .ok (r.setRefcount p rc, some p) else .ok (r.setRefcount p rc, none)

/-- The write-locked phase of `put`: `if item.refcount == 0 { delete(order, l) }`,
where `item` is the address read in the first phase. -/
def putWrite (l : Locker) (item : Ptr) (r : PtrRegistry) : PtrRegistry :=
  if (r.items item).refcount = 0 then
    { r with order := fun k => if k = l then none else r.order k }
  else r

/-- Where a goroutine stands: between two calls, between the two phases of a
`take`, between the two phases of a `put` (with its local variable `item`), or
stopped by a fault. -/
inductive Pc where
  | idle
  | takeLocked (l : Locker)
  | putLocked (l : Locker) (item : Ptr)
  | faulted
deriving DecidableEq, Repr

/-- A goroutine: where it stands, and the registry calls it still has to make. -/
structure Goroutine where
  pc : Pc
  todo : List RegOp
deriving DecidableEq, Repr

/-- One phase of a goroutine; `none` when it has nothing left to do or has
faulted. (A fault ends the program; the machine lets the other goroutines go on,
which only adds interleavings.) -/
def Goroutine.step (g : Goroutine) (r : PtrRegistry) : Option (Goroutine × PtrRegistry) :=
  match g.pc with
  | .faulted => none
  | .takeLocked l => some (⟨.idle, g.todo⟩, takeWrite l r)
  | .putLocked l item => some (⟨.idle, g.todo⟩, putWrite l item r)
  | .idle =>
      match g.todo with
      | [] => none
      | .take l :: rest =>
          match takeRead l r with
          | (r1, true) => some (⟨.idle, rest⟩, r1)
          | (r1, false) => some (⟨.takeLocked l, rest⟩, r1)
      | .put l :: rest =>
          match putRead l r with
          | .error _ => some (⟨.faulted, rest⟩, r)
          | .ok (r1, none) => some (⟨.idle, rest⟩, r1)
          | .ok (r1, some item) => some (⟨.putLocked l item, rest⟩, r1)

/-- The registry and the goroutines working on it. -/
structure Machine where
  reg : PtrRegistry
  goroutines : List Goroutine

/-- Goroutine number `i` runs its next phase. -/
def Machine.step (m : Machine) (i : Nat) : Option Machine :=
  match m.goroutines[i]? with
  | none => none
  | some g =>
      match g.step m.reg with
      | none => none
      | some (g1, r1) => some ⟨r1, m.goroutines.set i g1⟩

/-- An interleaving: the goroutines run their phases in the order the schedule
names them. -/
def Machine.run : Machine → List Nat → Option Machine
  | m, [] => some m
  | m, i :: sched =>
      match m.step i with
      | some m1 => m1.run sched
      | none => none

/-- A goroutine has returned from all its calls. -/
def Goroutine.finished (g : Goroutine) : Prop := g.pc = Pc.idle ∧ g.todo = []

instance (g : Goroutine) : Decidable g.finished := by
  unfold Goroutine.finished
  infer_instance

/-- The goroutines at the start of their programs. -/
def Machine.start (r : PtrRegistry) (programs : List (List RegOp)) : Machine :=
  ⟨r, programs.map (fun todo => ⟨Pc.idle, todo⟩)⟩

/-- The calls of the first loop of `optimizeSequence`. -/
def registerCalls (lockers : List Locker) : List RegOp := lockers.map RegOp.take

/-- Every address stored in the map is allocated, and two handles never share an
item. -/
def PtrRegistry.WellFormed (r : PtrRegistry) : Prop :=
  (∀ l p, r.order l = some p → p < r.allocated) ∧
  (∀ l1 l2 p, r.order l1 = some p → r.order l2 = some p → l1 = l2)

/-- A goroutine that makes `take` calls only. -/
def Goroutine.TakeOnly (g : Goroutine) : Prop :=
  (g.pc = Pc.idle ∨ ∃ l, g.pc = Pc.takeLocked l) ∧ ∀ op ∈ g.todo, ∃ l, op = RegOp.take l

/-- Number of `take k` calls a goroutine has not completed yet. -/
def Goroutine.pendingTakes (g : Goroutine) (k : Locker) : Nat :=
  (match g.pc with
    | .takeLocked l => if l = k then 1 else 0
    | _ => 0) + g.todo.count (RegOp.take k)

/-- Number of `take k` calls the goroutines have not completed yet. -/
def Machine.pendingTakes (m : Machine) (k : Locker) : Nat :=
  (m.goroutines.map (fun g => g.pendingTakes k)).sum

/-- The invariant of a machine in which only goroutine `f` makes `put` calls:
the registry is well formed, the other goroutines only make `take` calls, and
while goroutine `f` stands between the two phases of a `put`, the address in its
local variable `item` is still the one the map holds for the handle. -/
def Machine.OnePutter (f : Nat) (m : Machine) : Prop :=
  m.reg.WellFormed ∧
  (∀ i g, m.goroutines[i]? = some g → i ≠ f → g.TakeOnly) ∧
  (∀ g l item, m.goroutines[f]? = some g → g.pc = Pc.putLocked l item →
    m.reg.order l = some item)

/-! ## Goroutines that lock and unlock

The handles are mutexes (`sync.Mutex`, as in the tests): `Lock` on a mutex that
a goroutine holds blocks the caller until the mutex is unlocked. A goroutine
goes through a list of cycles; in a cycle it calls `Lock` on a multilocker or on
a plain locker, and then `Unlock` on the same. -/

/-- What a goroutine locks and unlocks in one cycle. -/
inductive Job where
  | multi (t : T)
  | plain (l : Locker)
deriving DecidableEq, Repr

/-- The handles a cycle walks: `t.list` for a multilocker, the locker itself for
a plain locker. -/
def Job.list : Job → List Locker
  | .multi t => t.list
  | .plain l => [l]

/-- A goroutine inside its cycles. `list` is the list of the current cycle.
While `releasing` is `false` the goroutine is in the loop of `Lock`,
`for _, l := range t.list { l.Lock() }`, and `pc` is the index of the handle it
locks next. While `releasing` is `true` it is in the loop of `Unlock`,
`for i := len(t.list) - 1; i >= 0; i-- { t.list[i].Unlock() }`, and `pc` is
`i + 1`; at `pc = 0` the loop has ended and the next cycle can begin. -/
structure Worker where
  list : List Locker
  pc : Nat
  releasing : Bool
  later : List Job
deriving DecidableEq, Repr

/-- A goroutine before its first cycle. -/
def Worker.start (jobs : List Job) : Worker := ⟨[], 0, true, jobs⟩

/-- The goroutine has completed all its cycles. -/
def Worker.finished (w : Worker) : Bool := w.releasing && (w.pc == 0 && w.later.isEmpty)

/-- The handle the goroutine is about to call `Lock` on, if that is its next
step. -/
def Worker.wants (w : Worker) : Option Locker :=
  if w.releasing then none else w.list[w.pc]?

/-- The handles the goroutine has locked and not yet unlocked. -/
def Worker.held (w : Worker) : List Locker := w.list.take w.pc

/-- One step of goroutine number `i`, given who holds which mutex. In the loop
of `Lock`: `l.Lock()` on the next handle goes through when nobody holds `l`, and
is not enabled otherwise (the goroutine is blocked); past the last handle `Lock`
returns and `Unlock` starts at the last index. In the loop of `Unlock`:
`l.Unlock()` frees the mutex (unlocking a mutex that nobody holds is a fatal
error, the goroutine gets no further); when the loop has ended the next cycle
starts, if there is one. -/
def Worker.step (w : Worker) (i : Nat) (owner : Locker → Option Nat) :
    Option (Worker × (Locker → Option Nat)) :=
  if w.releasing then
    match w.pc with
    | 0 =>
        match w.later with
        | [] => none
        | job :: later => some (⟨job.list, 0, false, later⟩, owner)
    | n + 1 =>
        match w.list[n]? with
        | none => none
        | some l =>
            match owner l with
            | none => none
            | some _ => some ({ w with pc := n }, fun k => if k = l then none else owner k)
  else
    match w.list[w.pc]? with
    | none => some ({ w with releasing := true, pc := w.list.length }, owner)
    | some l =>
        match owner l with
        | none => some ({ w with pc := w.pc + 1 }, fun k => if k = l then some i else owner k)
        | some _ => none

/-- The mutexes and the goroutines. `owner l` is the number of the goroutine that
holds mutex `l`, if one does. -/
structure LockState where
  owner : Locker → Option Nat
  workers : List Worker

/-- The scheduler lets goroutine number `i` take its next step. -/
def LockState.step (s : LockState) (i : Nat) : Option LockState :=
  match s.workers[i]? with
  | none => none
  | some w =>
      match w.step i s.owner with
      | none => none
      | some (w1, owner1) => some ⟨owner1, s.workers.set i w1⟩

/-- A schedule, run from left to right. -/
def LockState.run : LockState → List Nat → Option LockState
  | s, [] => some s
  | s, i :: sched =>
      match s.step i with
      | some s1 => s1.run sched
      | none => none

/-- All mutexes free, every goroutine before its first cycle. -/
def LockState.start (jobs : List (List Job)) : LockState :=
  ⟨fun _ => none, jobs.map Worker.start⟩

/-- The goroutine is inside a `Lock()` call on a mutex that is held. -/
def LockState.blocked (s : LockState) (w : Worker) : Bool :=
  match w.wants with
  | some l => (s.owner l).isSome
  | none => false

/-- A deadlock: some goroutine has not completed its cycles, and every goroutine
that has not is blocked. -/
def LockState.Deadlocked (s : LockState) : Prop :=
  (∃ w ∈ s.workers, w.finished = false) ∧
  ∀ w ∈ s.workers, w.finished = false → s.blocked w = true

instance (s : LockState) : Decidable s.Deadlocked := by
  unfold LockState.Deadlocked
  infer_instance

/-- The multilocker of a cycle is live in the world `w`. -/
def Job.liveIn (w : World) : Job → Prop
  | .multi t => t ∈ w.live
  | .plain _ => True

instance (w : World) (job : Job) : Decidable (job.liveIn w) := by
  cases job <;> unfold Job.liveIn <;> infer_instance

/-- The invariant behind deadlock freedom, for a ranking of the handles: every
list a goroutine walks, now or later, is strictly increasing in rank, no loop
index is out of range, and a mutex is held by goroutine `j` exactly when it is
among the handles goroutine `j` has locked and not yet unlocked. -/
def LockState.Ordered (rank : Locker → Nat) (s : LockState) : Prop :=
  (∀ (i : Nat) (w : Worker), s.workers[i]? = some w →
    w.pc ≤ w.list.length ∧ w.list.Pairwise (fun a b => rank a < rank b) ∧
    ∀ job ∈ w.later, job.list.Pairwise (fun a b => rank a < rank b)) ∧
  (∀ (l : Locker) (j : Nat), s.owner l = some j ↔
    ∃ w : Worker, s.workers[j]? = some w ∧ l ∈ w.held)

/-- Number of steps a goroutine still has to take to complete its cycles: per
later cycle one step to start it, one per `Lock` on a handle, one for the return
of `Lock` and one per `Unlock` on a handle. -/
def Worker.work (w : Worker) : Nat :=
  (w.later.map (fun job => 2 * job.list.length + 2)).sum +
    (if w.releasing then w.pc else (w.list.length - w.pc) + 1 + w.list.length)

/-- Number of steps all goroutines together still have to take. -/
def LockState.work (s : LockState) : Nat := (s.workers.map Worker.work).sum

/-! # Lemmas -/

/-! ## The loops of Lock and Unlock -/

theorem lockLoop_eq_map (ls : List Locker) : lockLoop ls = ls.map Event.lock := by
  induction ls with
  | nil => rfl
  | cons l ls ih => simp [lockLoop, ih]

theorem unlockLoop_eq (list : List Locker) (n : Nat) (hn : n ≤ list.length) :
    unlockLoop list n = ((list.take n).reverse).map Event.unlock := by
  induction n with
  | zero => simp [unlockLoop]
  | succ i ih =>
    have hi : i < list.length := hn
    rw [unlockLoop, List.take_succ, ih (Nat.le_of_lt hi), List.getElem?_eq_getElem hi]
    simp only [Option.toList, List.reverse_append, List.reverse_cons, List.reverse_nil,
      List.nil_append, List.singleton_append, List.map_cons]

/-! ## The insertion sort -/

section sorting

variable {α : Type} (lt : α → α → Except String Bool) (f : α → Nat) (P : α → Prop)

theorem insertBack_spec (hlt : ∀ a b, P a → P b → lt a b = .ok (decide (f a < f b)))
    (x : α) (hx : P x) (done : List α) (hP : ∀ a ∈ done, P a)
    (hs : done.Pairwise (fun a b => f b ≤ f a)) :
    ∃ r, insertBack lt x done = .ok r ∧ r.Perm (x :: done) ∧
      r.Pairwise (fun a b => f b ≤ f a) := by
  induction done with
  | nil => exact ⟨[x], rfl, List.Perm.refl _, List.pairwise_singleton _ _⟩
  | cons y ys ih =>
    have hy : P y := hP y (List.mem_cons_self _ _)
    have hys : ∀ a ∈ ys, P a := fun a ha => hP a (List.mem_cons_of_mem _ ha)
    rw [List.pairwise_cons] at hs
    by_cases hxy : f x < f y
    · obtain ⟨r, hr, hperm, hsorted⟩ := ih hys hs.2
      refine ⟨y :: r, ?_, ?_, ?_⟩
      · simp [insertBack, hlt x y hx hy, hxy, hr]
      · exact (List.Perm.cons y hperm).trans (List.Perm.swap x y ys)
      · rw [List.pairwise_cons]
        refine ⟨fun a ha => ?_, hsorted⟩
        rcases List.mem_cons.1 (hperm.subset ha) with h | h
        · subst h; exact Nat.le_of_lt hxy
        · exact hs.1 a h
    · refine ⟨x :: y :: ys, ?_, List.Perm.refl _, ?_⟩
      · simp [insertBack, hlt x y hx hy, hxy]
      · rw [List.pairwise_cons]
        refine ⟨fun a ha => ?_, List.pairwise_cons.2 hs⟩
        rcases List.mem_cons.1 ha with h | h
        · subst h; exact Nat.le_of_not_lt hxy
        · exact Nat.le_trans (hs.1 a h) (Nat.le_of_not_lt hxy)

theorem insertionSortLoop_spec (hlt : ∀ a b, P a → P b → lt a b = .ok (decide (f a < f b)))
    (xs : List α) (hxs : ∀ a ∈ xs, P a) (done : List α) (hP : ∀ a ∈ done, P a)
    (hs : done.Pairwise (fun a b => f b ≤ f a)) :
    ∃ r, insertionSortLoop lt xs done = .ok r ∧ r.Perm (done.reverse ++ xs) ∧
      r.Pairwise (fun a b => f a ≤ f b) := by
  induction xs generalizing done with
  | nil =>
    refine ⟨done.reverse, rfl, by simp, ?_⟩
    exact List.pairwise_reverse.2 hs
  | cons x xs ih =>
    obtain ⟨d, hd, hperm, hsorted⟩ :=
      insertBack_spec lt f P hlt x (hxs x (List.mem_cons_self _ _)) done hP hs
    have hPd : ∀ a ∈ d, P a := by
      intro a ha
      rcases List.mem_cons.1 (hperm.subset ha) with h | h
      · subst h; exact hxs _ (List.mem_cons_self _ _)
      · exact hP a h
    obtain ⟨r, hr, hperm2, hsorted2⟩ :=
      ih (fun a ha => hxs a (List.mem_cons_of_mem _ ha)) d hPd hsorted
    refine ⟨r, ?_, ?_, hsorted2⟩
    · simp [insertionSortLoop, hd, hr]
    · refine hperm2.trans ?_
      have h1 : d.reverse.Perm (done.reverse ++ [x]) := by
        refine (List.reverse_perm d).trans (hperm.trans ?_)
        refine (@List.perm_append_comm _ [x] done).trans ?_
        exact List.Perm.append_right _ (List.reverse_perm done).symm
      simpa using List.Perm.append_right xs h1

theorem sortSlice_spec (hlt : ∀ a b, P a → P b → lt a b = .ok (decide (f a < f b)))
    (data : List α) (hdata : ∀ a ∈ data, P a) :
    ∃ r, sortSlice lt data = .ok r ∧ r.Perm data ∧ r.Pairwise (fun a b => f a ≤ f b) := by
  obtain ⟨r, hr, hperm, hsorted⟩ :=
    insertionSortLoop_spec lt f P hlt data hdata [] (by simp) List.Pairwise.nil
  exact ⟨r, hr, by simpa using hperm, hsorted⟩

end sorting

/-! ## Registration -/

theorem take_of_some {l : Locker} {s : Registry} {item : orderItem} (h : s.order l = some item) :
    take l s = setItem s l (some { item with refcount := (item.refcount + 1) % uint32Size }) := by
  simp [take, takeFast, h]

theorem take_of_none {l : Locker} {s : Registry} (h : s.order l = none) :
    take l s = { nextOrderID := (s.nextOrderID + 1) % uint32Size,
                 order := fun k => if k = l then some ⟨s.nextOrderID, 1⟩ else s.order k } := by
  simp [take, takeFast, takeSlow, h]

theorem take_order_ne {l k : Locker} (s : Registry) (h : k ≠ l) :
    (take l s).order k = s.order k := by
  cases hl : s.order l with
  | none => simp [take_of_none hl, h]
  | some item => simp [take_of_some hl, setItem, h]

theorem take_order_self (l : Locker) (s : Registry) :
    (take l s).order l =
      some ⟨(match s.order l with | some item => item.id | none => s.nextOrderID),
            (refcountOf s l + 1) % uint32Size⟩ := by
  cases hl : s.order l with
  | none => simp [take_of_none hl, refcountOf, hl, uint32Size]
  | some item => simp [take_of_some hl, setItem, refcountOf, hl]

theorem take_present {l k : Locker} {s : Registry} {item : orderItem}
    (h : s.order k = some item) :
    ∃ item1, (take l s).order k = some item1 ∧ item1.id = item.id := by
  by_cases hk : k = l
  · subst hk
    exact ⟨_, take_order_self k s, by simp [h]⟩
  · exact ⟨item, by rw [take_order_ne s hk, h], rfl⟩

theorem takeAll_present {k : Locker} (ls : List Locker) {s : Registry} {item : orderItem}
    (h : s.order k = some item) :
    ∃ item1, (takeAll ls s).order k = some item1 ∧ item1.id = item.id := by
  induction ls generalizing s item with
  | nil => exact ⟨item, h, rfl⟩
  | cons l ls ih =>
    obtain ⟨i1, h1, e1⟩ := take_present (l := l) h
    obtain ⟨i2, h2, e2⟩ := ih h1
    exact ⟨i2, h2, e2.trans e1⟩

theorem takeAll_mem_present (ls : List Locker) (s : Registry) {k : Locker} (hk : k ∈ ls) :
    ∃ item, (takeAll ls s).order k = some item := by
  induction ls generalizing s with
  | nil => cases hk
  | cons l ls ih =>
    by_cases hkl : k ∈ ls
    · exact ih (take l s) hkl
    · have : k = l := by
        rcases List.mem_cons.1 hk with h | h
        · exact h
        · exact absurd h hkl
      subst this
      obtain ⟨i1, h1, _⟩ := takeAll_present ls (take_order_self k s)
      exact ⟨i1, h1⟩

theorem less_of_present {s : Registry} {a b : Locker}
    (ha : ∃ item, s.order a = some item) (hb : ∃ item, s.order b = some item) :
    less s a b = .ok (decide (idOf s a < idOf s b)) := by
  obtain ⟨x, hx⟩ := ha
  obtain ⟨y, hy⟩ := hb
  simp [less, idOf, hx, hy]

/-! ## The list stored by New -/

theorem optimizeSequence_spec (lockers : List Locker) (s : Registry) :
    ∃ list, optimizeSequence lockers s = (.ok list, takeAll lockers s) ∧
      list.Perm lockers ∧
      list.Pairwise (fun a b => idOf (takeAll lockers s) a ≤ idOf (takeAll lockers s) b) := by
  obtain ⟨r, hr, hperm, hsorted⟩ :=
    sortSlice_spec (less (takeAll lockers s)) (idOf (takeAll lockers s))
      (fun a => ∃ item, (takeAll lockers s).order a = some item)
      (fun a b ha hb => less_of_present ha hb) lockers
      (fun a ha => takeAll_mem_present lockers s ha)
  exact ⟨r, by simp [optimizeSequence, hr], hperm, hsorted⟩

theorem New_spec (lockers : List Locker) (s : Registry) (h : lockers ≠ []) :
    ∃ list, New lockers s = (.ok ⟨list⟩, takeAll lockers s) ∧
      list.Perm lockers ∧
      list.Pairwise (fun a b => idOf (takeAll lockers s) a ≤ idOf (takeAll lockers s) b) := by
  obtain ⟨list, hl, hperm, hsorted⟩ := optimizeSequence_spec lockers s
  have hlen : lockers.length ≠ 0 := by
    intro h0
    exact h (List.length_eq_zero.1 h0)
  exact ⟨list, by simp [New, hlen, hl], hperm, hsorted⟩

/-! ## Sorting under distinct ids -/

/-- Two lists with the same elements, both sorted by a key that tells the
elements of the list apart, are the same list. -/
theorem sorted_perm_unique (f : Locker → Nat) {l1 l2 : List Locker} (hperm : l1.Perm l2)
    (h1 : l1.Pairwise (fun a b => f a ≤ f b)) (h2 : l2.Pairwise (fun a b => f a ≤ f b))
    (hinj : ∀ a ∈ l1, ∀ b ∈ l1, f a = f b → a = b) : l1 = l2 := by
  haveI : IsAntisymm Locker (fun a b => f a < f b ∨ a = b) :=
    ⟨fun a b hab hba => by
      rcases hab with h | h
      · rcases hba with h' | h'
        · exact absurd h (Nat.lt_asymm h')
        · exact h'.symm
      · exact h⟩
  have key : ∀ l : List Locker, (∀ a ∈ l, a ∈ l1) → l.Pairwise (fun a b => f a ≤ f b) →
      l.Pairwise (fun a b => f a < f b ∨ a = b) := by
    intro l hsub hl
    refine List.Pairwise.imp_of_mem ?_ hl
    intro a b ha hb hab
    rcases Nat.lt_or_eq_of_le hab with h | h
    · exact Or.inl h
    · exact Or.inr (hinj a (hsub a ha) b (hsub b hb) h)
  exact List.eq_of_perm_of_sorted hperm (key l1 (fun a ha => ha) h1)
    (key l2 (fun a ha => hperm.symm.subset ha) h2)

theorem takeAll_idOf_present (ls : List Locker) {s : Registry} {k : Locker}
    (h : (s.order k).isSome = true) :
    ((takeAll ls s).order k).isSome = true ∧ idOf (takeAll ls s) k = idOf s k := by
  obtain ⟨item, hitem⟩ := Option.isSome_iff_exists.1 h
  obtain ⟨i1, h1, e1⟩ := takeAll_present ls hitem
  simp [idOf, h1, hitem, e1]

/-- The sub-sequence law for a registry in which the handles `hs` have entries
with pairwise distinct ids: every duplicate-free list `ts` of handles from `hs`
is sorted by `optimizeSequence` into the sublist of `S` made of its handles. -/
theorem optimizeSequence_of_sublist_ids (hs ts S : List Locker) (s1 s2 : Registry)
    (hS : S.Perm hs) (hsorted : S.Pairwise (fun a b => idOf s1 a ≤ idOf s1 b))
    (hnd : hs.Nodup)
    (hinj : ∀ a ∈ hs, ∀ b ∈ hs, idOf s1 a = idOf s1 b → a = b)
    (hstill : ∀ h ∈ hs, (s2.order h).isSome = true ∧ idOf s2 h = idOf s1 h)
    (htnd : ts.Nodup) (hsub : ∀ h ∈ ts, h ∈ hs) :
    (optimizeSequence ts s2).1 = .ok (S.filter (fun h => decide (h ∈ ts))) := by
  obtain ⟨R, hR, hperm, hRsorted⟩ := optimizeSequence_spec ts s2
  rw [hR]
  have hid : ∀ h ∈ hs, idOf (takeAll ts s2) h = idOf s1 h := by
    intro h hh
    rw [(takeAll_idOf_present ts (hstill h hh).1).2, (hstill h hh).2]
  have hRs : R.Pairwise (fun a b => idOf s1 a ≤ idOf s1 b) := by
    refine List.Pairwise.imp_of_mem ?_ hRsorted
    intro a b ha hb hab
    rw [← hid a (hsub a (hperm.subset ha)), ← hid b (hsub b (hperm.subset hb))]
    exact hab
  have hFs : (S.filter (fun h => decide (h ∈ ts))).Pairwise (fun a b => idOf s1 a ≤ idOf s1 b) :=
    List.Pairwise.sublist (List.filter_sublist S) hsorted
  have hSnd : S.Nodup := hS.nodup_iff.2 hnd
  have hFperm : R.Perm (S.filter (fun h => decide (h ∈ ts))) := by
    refine (List.perm_ext_iff_of_nodup (hperm.nodup_iff.2 htnd) (hSnd.filter _)).2 ?_
    intro a
    simp only [List.mem_filter, decide_eq_true_eq]
    constructor
    · intro ha
      exact ⟨hS.symm.subset (hsub a (hperm.subset ha)), hperm.subset ha⟩
    · intro ha
      exact hperm.symm.subset ha.2
  have := sorted_perm_unique (idOf s1) hFperm hRs hFs
    (fun a ha b hb hab => hinj a (hsub a (hperm.subset ha)) b (hsub b (hperm.subset hb)) hab)
  rw [this]

/-! ## Release, and registries whose counter has wrapped around -/

theorem Registry.eq_of {a b : Registry} (h1 : a.nextOrderID = b.nextOrderID)
    (h2 : ∀ k, a.order k = b.order k) : a = b := by
  cases a; cases b
  simp only [Registry.mk.injEq]
  exact ⟨h1, funext h2⟩

theorem put_of_none {l : Locker} {s : Registry} (h : s.order l = none) :
    put l s = (.error "invalid memory address or nil pointer dereference", s) := by
  unfold put putFast
  simp only [h]

theorem put_of_some_pos {l : Locker} {s : Registry} {item : orderItem}
    (h : s.order l = some item) (hz : ¬ (item.refcount + maxUint32) % uint32Size = 0) :
    put l s = (.ok (),
      setItem s l (some { item with refcount := (item.refcount + maxUint32) % uint32Size })) := by
  unfold put putFast
  simp only [h]
  rw [decide_eq_false hz]

theorem put_of_some_zero {l : Locker} {s : Registry} {item : orderItem}
    (h : s.order l = some item) (hz : (item.refcount + maxUint32) % uint32Size = 0) :
    put l s = (.ok (), setItem s l none) := by
  unfold put putFast
  simp only [h]
  rw [decide_eq_true hz]
  simp only [putSlow, setItem, if_true, hz]
  refine Prod.ext rfl ?_
  refine Registry.eq_of rfl (fun k => ?_)
  by_cases hk : k = l <;> simp [hk]

theorem uint32_one_add_max : (1 + maxUint32) % uint32Size = 0 := by
  unfold maxUint32 uint32Size
  omega

theorem take_put_absent {c : Locker} {s : Registry} (h : s.order c = none) :
    put c (take c s) = (.ok (), ⟨(s.nextOrderID + 1) % uint32Size, s.order⟩) := by
  have h1 : (take c s).order c = some ⟨s.nextOrderID, 1⟩ := by
    rw [take_of_none h]
    simp only [if_true]
  rw [put_of_some_zero h1 uint32_one_add_max]
  refine Prod.ext rfl ?_
  refine Registry.eq_of ?_ (fun k => ?_)
  · simp only [setItem, take_of_none h]
  · by_cases hk : k = c
    · subst hk; simp only [setItem, if_true, h]
    · simp only [setItem, hk, if_false, take_of_none h]

theorem run_append (s : Registry) (a b : List RegOp) :
    s.run (a ++ b) = (s.run a).bind (fun s1 => s1.run b) := by
  induction a generalizing s with
  | nil => rfl
  | cons op a ih =>
    cases hstep : s.step op with
    | none => simp [Registry.run, hstep]
    | some s1 => simp [Registry.run, hstep, ih]

theorem run_takePutCycles (c : Locker) (n : Nat) (s : Registry) (h : s.order c = none)
    (hlt : s.nextOrderID < uint32Size) :
    s.run (takePutCycles c n) = some ⟨(s.nextOrderID + n) % uint32Size, s.order⟩ := by
  induction n generalizing s with
  | zero =>
    simp only [takePutCycles, Registry.run, Nat.add_zero, Nat.mod_eq_of_lt hlt]
  | succ n ih =>
    have h2 := ih ⟨(s.nextOrderID + 1) % uint32Size, s.order⟩ h
      (Nat.mod_lt _ (by unfold uint32Size; omega))
    simp only [takePutCycles, Registry.run, Registry.step, take_put_absent h]
    rw [h2]
    have : ((s.nextOrderID + 1) % uint32Size + n) % uint32Size
        = (s.nextOrderID + (n + 1)) % uint32Size := by
      unfold uint32Size
      omega
    simp only [this]

theorem run_cons (s : Registry) (op : RegOp) (ops : List RegOp) :
    s.run (op :: ops) = (s.step op).bind (fun s1 => s1.run ops) := by
  cases hstep : s.step op with
  | none => simp only [Registry.run, hstep, Option.none_bind]
  | some s1 => simp only [Registry.run, hstep, Option.some_bind]

/-- The registry `wrappedRegistry` is reached from the empty registry by
registering handle `0` and then running `take 1; put 1` `2^32 - 1` times. -/
theorem wrappedRegistry_reachable :
    emptyRegistry.run (RegOp.take 0 :: takePutCycles 1 4294967295) = some wrappedRegistry := by
  have h0 : emptyRegistry.step (RegOp.take 0) =
      some ⟨1, fun k => if k = 0 then some ⟨0, 1⟩ else none⟩ := by
    simp only [Registry.step]
    congr 1
  have h1 := run_takePutCycles 1 4294967295 ⟨1, fun k => if k = 0 then some ⟨0, 1⟩ else none⟩
    rfl (by show 1 < uint32Size; unfold uint32Size; omega)
  rw [run_cons, h0, Option.some_bind, h1]
  rfl

/-! ## Invariant of take and put -/

theorem takesInvariant_empty : TakesInvariant 0 emptyRegistry :=
  ⟨Nat.le_refl _, fun _ _ h => by simp [emptyRegistry] at h,
    fun _ _ _ _ h => by simp [emptyRegistry] at h⟩

theorem takesInvariant_take {n : Nat} {s : Registry} (l : Locker) (h : TakesInvariant n s)
    (hn : n + 1 < uint32Size) : TakesInvariant (n + 1) (take l s) := by
  obtain ⟨hnext, hent, hinj⟩ := h
  cases hl : s.order l with
  | none =>
    have hmod : (s.nextOrderID + 1) % uint32Size = s.nextOrderID + 1 :=
      Nat.mod_eq_of_lt (by omega)
    rw [take_of_none hl, hmod]
    refine ⟨?_, ?_, ?_⟩
    · show s.nextOrderID + 1 ≤ n + 1
      omega
    · intro k item hk
      show 1 ≤ item.refcount ∧ item.refcount ≤ n + 1 ∧ item.id < s.nextOrderID + 1
      by_cases hkl : k = l
      · simp only [hkl, if_true, Option.some.injEq] at hk
        subst hk
        exact ⟨Nat.le_refl _, by show 1 ≤ n + 1; omega, by show s.nextOrderID < _; omega⟩
      · simp only [hkl, if_false] at hk
        obtain ⟨a, b, c⟩ := hent k item hk
        exact ⟨a, by omega, by omega⟩
    · intro l1 l2 i1 i2 h1 h2 hid
      simp only at h1 h2
      by_cases e1 : l1 = l <;> by_cases e2 : l2 = l
      · rw [e1, e2]
      · simp only [e1, if_true, Option.some.injEq] at h1
        simp only [e2, if_false] at h2
        have := (hent l2 i2 h2).2.2
        subst h1
        have hid2 : s.nextOrderID = i2.id := hid
        omega
      · simp only [e2, if_true, Option.some.injEq] at h2
        simp only [e1, if_false] at h1
        have := (hent l1 i1 h1).2.2
        subst h2
        have hid2 : i1.id = s.nextOrderID := hid
        omega
      · simp only [e1, if_false] at h1
        simp only [e2, if_false] at h2
        exact hinj l1 l2 i1 i2 h1 h2 hid
  | some item0 =>
    obtain ⟨a0, b0, c0⟩ := hent l item0 hl
    have hmod : (item0.refcount + 1) % uint32Size = item0.refcount + 1 :=
      Nat.mod_eq_of_lt (by omega)
    rw [take_of_some hl, hmod]
    refine ⟨Nat.le_succ_of_le hnext, ?_, ?_⟩
    · intro k item hk
      simp only [setItem] at hk ⊢
      by_cases hkl : k = l
      · simp only [hkl, if_true, Option.some.injEq] at hk
        subst hk
        exact ⟨by show 1 ≤ item0.refcount + 1; omega,
          by show item0.refcount + 1 ≤ n + 1; omega, c0⟩
      · simp only [hkl, if_false] at hk
        obtain ⟨a, b, c⟩ := hent k item hk
        exact ⟨a, by omega, c⟩
    · intro l1 l2 i1 i2 h1 h2 hid
      simp only [setItem] at h1 h2
      have g1 : ∃ j1, s.order l1 = some j1 ∧ j1.id = i1.id := by
        by_cases e1 : l1 = l
        · simp only [e1, if_true, Option.some.injEq] at h1
          exact ⟨item0, by rw [e1, hl], by rw [← h1]⟩
        · simp only [e1, if_false] at h1
          exact ⟨i1, h1, rfl⟩
      have g2 : ∃ j2, s.order l2 = some j2 ∧ j2.id = i2.id := by
        by_cases e2 : l2 = l
        · simp only [e2, if_true, Option.some.injEq] at h2
          exact ⟨item0, by rw [e2, hl], by rw [← h2]⟩
        · simp only [e2, if_false] at h2
          exact ⟨i2, h2, rfl⟩
      obtain ⟨j1, hj1, e1⟩ := g1
      obtain ⟨j2, hj2, e2⟩ := g2
      exact hinj l1 l2 j1 j2 hj1 hj2 (by rw [e1, e2, hid])

theorem takesInvariant_put {n : Nat} {s s1 : Registry} (l : Locker) (h : TakesInvariant n s)
    (hn : n < uint32Size) (hput : put l s = (.ok (), s1)) : TakesInvariant n s1 := by
  obtain ⟨hnext, hent, hinj⟩ := h
  cases hl : s.order l with
  | none =>
    rw [put_of_none hl] at hput
    simp at hput
  | some item0 =>
    obtain ⟨a0, b0, c0⟩ := hent l item0 hl
    have hmod : (item0.refcount + maxUint32) % uint32Size = item0.refcount - 1 := by
      unfold maxUint32 uint32Size at *
      omega
    by_cases hz : (item0.refcount + maxUint32) % uint32Size = 0
    · rw [put_of_some_zero hl hz] at hput
      have hs1 : s1 = setItem s l none := by
        simpa using hput.symm
      subst hs1
      refine ⟨hnext, ?_, ?_⟩
      · intro k item hk
        simp only [setItem] at hk ⊢
        by_cases hkl : k = l
        · simp [hkl] at hk
        · simp only [hkl, if_false] at hk
          exact hent k item hk
      · intro l1 l2 i1 i2 h1 h2 hid
        simp only [setItem] at h1 h2
        by_cases e1 : l1 = l
        · simp [e1] at h1
        · by_cases e2 : l2 = l
          · simp [e2] at h2
          · simp only [e1, if_false] at h1
            simp only [e2, if_false] at h2
            exact hinj l1 l2 i1 i2 h1 h2 hid
    · rw [put_of_some_pos hl hz] at hput
      have hs1 : s1 = setItem s l (some { item0 with
          refcount := (item0.refcount + maxUint32) % uint32Size }) := by
        simpa using hput.symm
      subst hs1
      rw [hmod] at hz ⊢
      refine ⟨hnext, ?_, ?_⟩
      · intro k item hk
        simp only [setItem] at hk ⊢
        by_cases hkl : k = l
        · simp only [hkl, if_true, Option.some.injEq] at hk
          subst hk
          exact ⟨by show 1 ≤ item0.refcount - 1; omega,
            by show item0.refcount - 1 ≤ n; omega, c0⟩
        · simp only [hkl, if_false] at hk
          exact hent k item hk
      · intro l1 l2 i1 i2 h1 h2 hid
        simp only [setItem] at h1 h2
        have g1 : ∃ j1, s.order l1 = some j1 ∧ j1.id = i1.id := by
          by_cases e1 : l1 = l
          · simp only [e1, if_true, Option.some.injEq] at h1
            exact ⟨item0, by rw [e1, hl], by rw [← h1]⟩
          · simp only [e1, if_false] at h1
            exact ⟨i1, h1, rfl⟩
        have g2 : ∃ j2, s.order l2 = some j2 ∧ j2.id = i2.id := by
          by_cases e2 : l2 = l
          · simp only [e2, if_true, Option.some.injEq] at h2
            exact ⟨item0, by rw [e2, hl], by rw [← h2]⟩
          · simp only [e2, if_false] at h2
            exact ⟨i2, h2, rfl⟩
        obtain ⟨j1, hj1, e1⟩ := g1
        obtain ⟨j2, hj2, e2⟩ := g2
        exact hinj l1 l2 j1 j2 hj1 hj2 (by rw [e1, e2, hid])

theorem takesInvariant_run (ops : List RegOp) (n : Nat) (s s1 : Registry)
    (h : TakesInvariant n s) (hn : n + takeCount ops < uint32Size)
    (hrun : s.run ops = some s1) : TakesInvariant (n + takeCount ops) s1 := by
  induction ops generalizing n s with
  | nil =>
    simp only [Registry.run, Option.some.injEq] at hrun
    subst hrun
    exact h
  | cons op ops ih =>
    cases op with
    | take l =>
      simp only [takeCount] at hn ⊢
      simp only [Registry.run, Registry.step] at hrun
      have h1 := takesInvariant_take l h (by omega)
      have := ih (n + 1) (take l s) h1 (by omega) hrun
      have e : n + 1 + takeCount ops = n + (takeCount ops + 1) := by omega
      rw [← e]
      exact this
    | put l =>
      simp only [takeCount] at hn ⊢
      rw [run_cons] at hrun
      cases hp : put l s with
      | mk r s2 =>
        cases r with
        | error e =>
          simp [Registry.step, hp] at hrun
        | ok u =>
          simp only [Registry.step, hp, Option.some_bind] at hrun
          exact ih n s2 (takesInvariant_put l h (by omega) hp) hn hrun

theorem run_replicate_take (c : Locker) (n : Nat) (s : Registry) (i r : Nat)
    (h : s.order c = some ⟨i, r⟩) (hr : r < uint32Size) :
    s.run (List.replicate n (RegOp.take c)) = some (setItem s c (some ⟨i, (r + n) % uint32Size⟩)) := by
  induction n generalizing s r with
  | zero =>
    simp only [List.replicate, Registry.run, Nat.add_zero, Nat.mod_eq_of_lt hr]
    congr 1
    refine Registry.eq_of rfl (fun k => ?_)
    by_cases hk : k = c
    · simp only [setItem, hk, if_true, h]
    · simp only [setItem, hk, if_false]
  | succ n ih =>
    have h1 : (take c s).order c = some ⟨i, (r + 1) % uint32Size⟩ := by
      rw [take_of_some h]
      simp only [setItem, if_true]
    have h2 := ih (take c s) ((r + 1) % uint32Size) h1
      (Nat.mod_lt _ (by unfold uint32Size; omega))
    rw [List.replicate_succ, run_cons]
    simp only [Registry.step, Option.some_bind]
    rw [h2]
    congr 1
    refine Registry.eq_of ?_ (fun k => ?_)
    · simp only [setItem, take_of_some h]
    · have e : ((r + 1) % uint32Size + n) % uint32Size = (r + (n + 1)) % uint32Size := by
        unfold uint32Size
        omega
      by_cases hk : k = c
      · simp only [setItem, hk, if_true, e]
      · simp only [setItem, hk, if_false, take_of_some h]

/-! ## The counter and the created entries -/

theorem put_nextOrderID {l : Locker} {s s1 : Registry} {r : Except String Unit}
    (h : put l s = (r, s1)) : s1.nextOrderID = s.nextOrderID := by
  cases hl : s.order l with
  | none =>
    rw [put_of_none hl] at h
    rw [← (Prod.mk.inj h).2]
  | some item =>
    by_cases hz : (item.refcount + maxUint32) % uint32Size = 0
    · rw [put_of_some_zero hl hz] at h
      rw [← (Prod.mk.inj h).2]
      rfl
    · rw [put_of_some_pos hl hz] at h
      rw [← (Prod.mk.inj h).2]
      rfl

/-- The id `take` stores in an entry it creates is the value of the counter. -/
theorem idOf_take_created {l : Locker} {s : Registry} (h : s.order l = none) :
    idOf (take l s) l = s.nextOrderID := by
  rw [take_of_none h]
  simp [idOf, setItem]

theorem createdEntries_bounds (ops : List RegOp) (s : Registry)
    (h : s.nextOrderID + (createdEntries s ops).length ≤ uint32Size) :
    (createdEntries s ops).Pairwise (fun a b => a.2 < b.2) ∧
    ∀ a ∈ createdEntries s ops, s.nextOrderID ≤ a.2 := by
  induction ops generalizing s with
  | nil => simp [createdEntries]
  | cons op ops ih =>
    cases op with
    | take l =>
      cases hl : s.order l with
      | none =>
        simp only [createdEntries, hl, List.length_cons, idOf_take_created hl] at h ⊢
        by_cases hrest : createdEntries (take l s) ops = []
        · rw [hrest]
          simp
        · have hpos : 0 < (createdEntries (take l s) ops).length :=
            List.length_pos.2 hrest
          have hnext : (take l s).nextOrderID = s.nextOrderID + 1 := by
            rw [take_of_none hl]
            exact Nat.mod_eq_of_lt (by omega)
          obtain ⟨h1, h2⟩ := ih (take l s) (by rw [hnext]; omega)
          rw [hnext] at h2
          refine ⟨List.pairwise_cons.2 ⟨fun a ha => ?_, h1⟩, fun a ha => ?_⟩
          · have := h2 a ha
            show s.nextOrderID < a.2
            omega
          · rcases List.mem_cons.1 ha with e | e
            · rw [e]
            · have := h2 a e
              omega
      | some item =>
        simp only [createdEntries, hl] at h ⊢
        have hnext : (take l s).nextOrderID = s.nextOrderID := by
          rw [take_of_some hl]
          rfl
        have := ih (take l s) (by rw [hnext]; exact h)
        rw [hnext] at this
        exact this
    | put l =>
      cases hp : put l s with
      | mk r s1 =>
        cases r with
        | error e => simp [createdEntries, hp]
        | ok u =>
          simp only [createdEntries, hp] at h ⊢
          have hnext := put_nextOrderID hp
          have := ih s1 (by rw [hnext]; exact h)
          rw [hnext] at this
          exact this

/-! ## Refcounts over a whole argument list, and the finalizer -/

theorem refcountOf_take (l k : Locker) (s : Registry) :
    refcountOf (take l s) k =
      if k = l then (refcountOf s l + 1) % uint32Size else refcountOf s k := by
  by_cases hk : k = l
  · subst hk
    simp only [refcountOf, take_order_self, if_true]
  · simp only [refcountOf, take_order_ne s hk, hk, if_false]

theorem takeAll_order_not_mem (ls : List Locker) (s : Registry) {k : Locker} (hk : k ∉ ls) :
    (takeAll ls s).order k = s.order k := by
  induction ls generalizing s with
  | nil => rfl
  | cons l ls ih =>
    have h1 : k ≠ l := fun e => hk (e ▸ List.mem_cons_self _ _)
    have h2 : k ∉ ls := fun e => hk (List.mem_cons_of_mem _ e)
    rw [takeAll, ih (take l s) h2, take_order_ne s h1]

theorem takeAll_refcountOf (ls : List Locker) (s : Registry) (k : Locker)
    (hk : refcountOf s k < uint32Size) :
    refcountOf (takeAll ls s) k = (refcountOf s k + ls.count k) % uint32Size := by
  induction ls generalizing s with
  | nil =>
    simp only [takeAll, List.count_nil, Nat.add_zero, Nat.mod_eq_of_lt hk]
  | cons l ls ih =>
    have hlt : refcountOf (take l s) k < uint32Size := by
      rw [refcountOf_take]
      split
      · exact Nat.mod_lt _ (by unfold uint32Size; omega)
      · exact hk
    rw [takeAll, ih (take l s) hlt, refcountOf_take, List.count_cons]
    by_cases hkl : k = l
    · subst hkl
      simp only [if_true, beq_self_eq_true]
      unfold uint32Size
      omega
    · have : (l == k) = false := by
        simp only [beq_eq_false_iff_ne, ne_eq]
        exact fun e => hkl e.symm
      simp only [hkl, if_false, this, Bool.false_eq_true, Nat.add_zero]

theorem count_cons_ne {k l : Locker} (h : k ≠ l) (ls : List Locker) :
    (l :: ls).count k = ls.count k := by
  rw [List.count_cons]
  have : (l == k) = false := by
    simp only [beq_eq_false_iff_ne, ne_eq]
    exact fun e => h e.symm
  simp only [this, Bool.false_eq_true, if_false, Nat.add_zero]

theorem finalizerLoop_spec (ls : List Locker) (s : Registry)
    (hle : ∀ k ∈ ls, ls.count k ≤ refcountOf s k)
    (hlt : ∀ k ∈ ls, refcountOf s k < uint32Size) :
    ∃ s1, finalizerLoop ls s = (.ok (), s1, ls) ∧ s1.nextOrderID = s.nextOrderID ∧
      ∀ k, s1.order k =
        if ls.count k = 0 then s.order k
        else if refcountOf s k = ls.count k then none
        else (s.order k).map (fun item => { item with refcount := item.refcount - ls.count k }) := by
  induction ls generalizing s with
  | nil =>
    exact ⟨s, rfl, rfl, fun k => by simp⟩
  | cons l ls ih =>
    have hl1 := hle l (List.mem_cons_self _ _)
    have hl2 := hlt l (List.mem_cons_self _ _)
    rw [List.count_cons_self] at hl1
    cases hl : s.order l with
    | none =>
      simp only [refcountOf, hl] at hl1
      omega
    | some item =>
      have hrc : refcountOf s l = item.refcount := by simp only [refcountOf, hl]
      rw [hrc] at hl1 hl2
      have hmod : (item.refcount + maxUint32) % uint32Size = item.refcount - 1 := by
        unfold maxUint32 uint32Size at *
        omega
      by_cases hz : (item.refcount + maxUint32) % uint32Size = 0
      · -- the entry is deleted
        have hone : item.refcount = 1 := by omega
        have hcnt : ls.count l = 0 := by omega
        have hnot : l ∉ ls := List.count_eq_zero.1 hcnt
        have hput := put_of_some_zero hl hz
        have hne : ∀ k ∈ ls, k ≠ l := fun k hk e => hnot (e ▸ hk)
        obtain ⟨s1, h1, h2, h3⟩ := ih (setItem s l none)
          (fun k hk => by
            have := hle k (List.mem_cons_of_mem _ hk)
            rw [count_cons_ne (hne k hk)] at this
            simpa only [refcountOf, setItem, hne k hk, if_false] using this)
          (fun k hk => by
            have := hlt k (List.mem_cons_of_mem _ hk)
            simpa only [refcountOf, setItem, hne k hk, if_false] using this)
        refine ⟨s1, ?_, ?_, ?_⟩
        · simp only [finalizerLoop, hput, h1]
        · rw [h2]; rfl
        · intro k
          rw [h3 k]
          by_cases hk : k = l
          · subst hk
            simp only [hcnt, if_true, setItem, List.count_cons_self, hrc, hone]
            simp
          · have hc : (l :: ls).count k = ls.count k := count_cons_ne hk ls
            simp only [hc, refcountOf, setItem, hk, if_false]
      · -- the entry stays
        have hput := put_of_some_pos hl hz
        rw [hmod] at hput hz
        obtain ⟨s1, h1, h2, h3⟩ := ih (setItem s l (some { item with refcount := item.refcount - 1 }))
          (fun k hk => by
            by_cases hkl : k = l
            · subst hkl
              simp only [refcountOf, setItem, if_true]
              omega
            · have := hle k (List.mem_cons_of_mem _ hk)
              rw [count_cons_ne hkl] at this
              simpa only [refcountOf, setItem, hkl, if_false] using this)
          (fun k hk => by
            by_cases hkl : k = l
            · subst hkl
              simp only [refcountOf, setItem, if_true]
              omega
            · have := hlt k (List.mem_cons_of_mem _ hk)
              simpa only [refcountOf, setItem, hkl, if_false] using this)
        refine ⟨s1, ?_, ?_, ?_⟩
        · simp only [finalizerLoop, hput, h1]
        · rw [h2]; rfl
        · intro k
          rw [h3 k]
          by_cases hk : k = l
          · subst hk
            simp only [refcountOf, setItem, if_true, List.count_cons_self, hl]
            by_cases hc0 : ls.count k = 0
            · simp only [hc0, if_true, Nat.zero_add, Option.map_some']
              have h11 : ¬ (0 + 1 = 0) := by omega
              have h12 : ¬ (item.refcount = 0 + 1) := by omega
              simp only [h11, h12, if_false]
            · have h11 : ¬ (ls.count k + 1 = 0) := by omega
              simp only [hc0, h11, if_false, Option.map_some']
              by_cases hceq : item.refcount - 1 = ls.count k
              · have : item.refcount = ls.count k + 1 := by omega
                rw [if_pos hceq, if_pos this]
              · have : ¬ (item.refcount = ls.count k + 1) := by omega
                rw [if_neg hceq, if_neg this]
                simp only [Option.some.injEq, orderItem.mk.injEq, true_and]
                omega
          · have hc : (l :: ls).count k = ls.count k := count_cons_ne hk ls
            simp only [hc, refcountOf, setItem, hk, if_false]

theorem newHandles_cons_absent {s : Registry} {l : Locker} (ls : List Locker)
    (h : s.order l = none) :
    newHandles s (l :: ls) = insert l (newHandles (take l s) ls) := by
  ext k
  simp only [newHandles, List.mem_toFinset, List.mem_filter, List.mem_cons, Finset.mem_insert,
    Option.isNone_iff_eq_none]
  by_cases hk : k = l
  · subst hk
    simp [h]
  · simp only [hk, false_or, take_order_ne s hk]

theorem newHandles_take_not_mem (s : Registry) (l : Locker) (ls : List Locker) :
    l ∉ newHandles (take l s) ls := by
  simp only [newHandles, List.mem_toFinset, List.mem_filter, Option.isNone_iff_eq_none,
    take_order_self, not_and]
  intro _ h
  cases h

theorem newHandles_cons_present {s : Registry} {l : Locker} {item : orderItem}
    (ls : List Locker) (h : s.order l = some item) :
    newHandles s (l :: ls) = newHandles (take l s) ls := by
  ext k
  simp only [newHandles, List.mem_toFinset, List.mem_filter, List.mem_cons,
    Option.isNone_iff_eq_none]
  by_cases hk : k = l
  · subst hk
    simp [h, take_order_self]
  · simp only [hk, false_or, take_order_ne s hk]

theorem takeAll_nextOrderID (ls : List Locker) (s : Registry) (h : s.nextOrderID < uint32Size) :
    (takeAll ls s).nextOrderID = (s.nextOrderID + (newHandles s ls).card) % uint32Size := by
  induction ls generalizing s with
  | nil =>
    simp only [takeAll, newHandles, List.filter_nil, List.toFinset_nil, Finset.card_empty,
      Nat.add_zero, Nat.mod_eq_of_lt h]
  | cons l ls ih =>
    cases hl : s.order l with
    | none =>
      have hn : (take l s).nextOrderID = (s.nextOrderID + 1) % uint32Size := by
        rw [take_of_none hl]
      have hlt : (take l s).nextOrderID < uint32Size := by
        rw [hn]
        exact Nat.mod_lt _ (by unfold uint32Size; omega)
      rw [takeAll, ih (take l s) hlt, newHandles_cons_absent ls hl,
        Finset.card_insert_of_not_mem (newHandles_take_not_mem s l ls), hn]
      unfold uint32Size
      omega
    | some item =>
      have hn : (take l s).nextOrderID = s.nextOrderID := by
        rw [take_of_some hl]
        rfl
      rw [takeAll, ih (take l s) (by rw [hn]; exact h), newHandles_cons_present ls hl, hn]

theorem lastIdRegistry_reachable :
    emptyRegistry.run (takePutCycles 0 4294967295) = some lastIdRegistry := by
  have := run_takePutCycles 0 4294967295 emptyRegistry rfl (by decide)
  rw [this]
  rfl

theorem saturatedRegistry_reachable :
    emptyRegistry.run (List.replicate 4294967295 (RegOp.take 0)) = some saturatedRegistry := by
  have h0 : emptyRegistry.step (RegOp.take 0) = some (take 0 emptyRegistry) := rfl
  have h1 := run_replicate_take 0 4294967294 (take 0 emptyRegistry) 0 1 rfl
    (by unfold uint32Size; omega)
  show emptyRegistry.run (List.replicate (4294967294 + 1) (RegOp.take 0)) = _
  rw [List.replicate_succ, run_cons, h0, Option.some_bind, h1]
  refine congrArg some (Registry.eq_of rfl (fun k => ?_))
  by_cases hk : k = 0
  · subst hk
    simp only [setItem, saturatedRegistry, if_true]
    rfl
  · simp only [setItem, saturatedRegistry, hk, if_false]
    rw [take_order_ne _ hk]
    rfl

/-! ## Splitting a sorted list -/

theorem takeAll_refcountOf_mem (ls : List Locker) (s : Registry) (k : Locker) (hk : k ∈ ls) :
    refcountOf (takeAll ls s) k = (refcountOf s k + ls.count k) % uint32Size := by
  induction ls generalizing s with
  | nil => cases hk
  | cons l ls ih =>
    by_cases hkl : k = l
    · subst hkl
      have hlt : refcountOf (take k s) k < uint32Size := by
        rw [refcountOf_take, if_pos rfl]
        exact Nat.mod_lt _ (by unfold uint32Size; omega)
      rw [takeAll, takeAll_refcountOf ls (take k s) k hlt, refcountOf_take, if_pos rfl,
        List.count_cons_self]
      unfold uint32Size
      omega
    · have hmem : k ∈ ls := by
        rcases List.mem_cons.1 hk with e | e
        · exact absurd e hkl
        · exact e
      rw [takeAll, ih (take l s) hmem, refcountOf_take, if_neg hkl, count_cons_ne hkl]

/-- A list sorted by a key splits into the elements with a key below `c`, the
elements with key `c` and the elements with a key above `c`, in this order. -/
theorem sorted_split (f : Locker → Nat) (c : Nat) (L : List Locker)
    (h : L.Pairwise (fun a b => f a ≤ f b)) :
    L = L.filter (fun a => decide (f a < c)) ++ L.filter (fun a => decide (f a = c)) ++
      L.filter (fun a => decide (c < f a)) := by
  induction L with
  | nil => rfl
  | cons x xs ih =>
    rw [List.pairwise_cons] at h
    have ih1 := ih h.2
    rcases Nat.lt_trichotomy (f x) c with hx | hx | hx
    · have e1 : decide (f x < c) = true := decide_eq_true hx
      have e2 : decide (f x = c) = false := decide_eq_false (by omega)
      have e3 : decide (c < f x) = false := decide_eq_false (by omega)
      simp only [List.filter_cons, e1, e2, e3, if_true, Bool.false_eq_true, if_false,
        List.cons_append]
      rw [← ih1]
    · have e1 : decide (f x < c) = false := decide_eq_false (by omega)
      have e2 : decide (f x = c) = true := decide_eq_true hx
      have e3 : decide (c < f x) = false := decide_eq_false (by omega)
      have hnil : xs.filter (fun a => decide (f a < c)) = [] := by
        rw [List.filter_eq_nil_iff]
        intro a ha
        have := h.1 a ha
        simp only [decide_eq_true_eq]
        omega
      simp only [List.filter_cons, e1, e2, e3, if_true, Bool.false_eq_true, if_false]
      rw [hnil] at ih1 ⊢
      simp only [List.nil_append, List.cons_append] at ih1 ⊢
      rw [← ih1]
    · have e1 : decide (f x < c) = false := decide_eq_false (by omega)
      have e2 : decide (f x = c) = false := decide_eq_false (by omega)
      have e3 : decide (c < f x) = true := decide_eq_true hx
      have hnil : xs.filter (fun a => decide (f a < c)) = [] := by
        rw [List.filter_eq_nil_iff]
        intro a ha
        have := h.1 a ha
        simp only [decide_eq_true_eq]
        omega
      have hnil2 : xs.filter (fun a => decide (f a = c)) = [] := by
        rw [List.filter_eq_nil_iff]
        intro a ha
        have := h.1 a ha
        simp only [decide_eq_true_eq]
        omega
      simp only [List.filter_cons, e1, e2, e3, if_true, Bool.false_eq_true, if_false]
      rw [hnil, hnil2] at ih1 ⊢
      simp only [List.nil_append] at ih1 ⊢
      rw [← ih1]

/-! ## Worlds: the registry and the live multilockers -/

theorem occurrences_cons (r : Registry) (t : T) (live : List T) (l : Locker) :
    World.occurrences ⟨r, t :: live⟩ l = t.list.count l + World.occurrences ⟨r, live⟩ l := by
  simp only [World.occurrences, List.map_cons, List.sum_cons]

theorem occurrences_reg (r r1 : Registry) (live : List T) (l : Locker) :
    World.occurrences ⟨r, live⟩ l = World.occurrences ⟨r1, live⟩ l := rfl

theorem occurrences_eraseIdx (r : Registry) (live : List T) (i : Nat) (t : T) (l : Locker)
    (h : live[i]? = some t) :
    World.occurrences ⟨r, live⟩ l = t.list.count l + World.occurrences ⟨r, live.eraseIdx i⟩ l := by
  induction live generalizing i with
  | nil => simp at h
  | cons x xs ih =>
    cases i with
    | zero =>
      simp only [List.getElem?_cons_zero, Option.some.injEq] at h
      subst h
      rw [List.eraseIdx_cons_zero, occurrences_cons]
    | succ i =>
      rw [List.getElem?_cons_succ] at h
      rw [List.eraseIdx_cons_succ, occurrences_cons, occurrences_cons, ih i h]
      omega

theorem occurrences_pos_iff (w : World) (l : Locker) :
    0 < w.occurrences l ↔ ∃ t ∈ w.live, l ∈ t.list := by
  obtain ⟨r, live⟩ := w
  induction live with
  | nil => simp [World.occurrences]
  | cons x xs ih =>
    rw [occurrences_cons]
    simp only [List.mem_cons, exists_eq_or_imp] at ih ⊢
    rw [← ih, ← List.count_pos_iff]
    omega

theorem count_le_occurrences (w : World) (t : T) (ht : t ∈ w.live) (l : Locker) :
    t.list.count l ≤ w.occurrences l := by
  obtain ⟨r, live⟩ := w
  induction live with
  | nil => cases ht
  | cons x xs ih =>
    rw [occurrences_cons]
    rcases List.mem_cons.1 ht with e | e
    · subst e; omega
    · have := ih e
      omega

theorem takesInvariant_takeAll (ls : List Locker) (n : Nat) (s : Registry)
    (h : TakesInvariant n s) (hn : n + ls.length < uint32Size) :
    TakesInvariant (n + ls.length) (takeAll ls s) := by
  induction ls generalizing n s with
  | nil => exact h
  | cons l ls ih =>
    simp only [List.length_cons] at hn ⊢
    have h1 := takesInvariant_take l h (by omega)
    have := ih (n + 1) (take l s) h1 (by omega)
    have e : n + 1 + ls.length = n + (ls.length + 1) := by omega
    rw [← e]
    exact this

theorem takeAll_order_eq_none_iff (ls : List Locker) (s : Registry) (k : Locker) :
    (takeAll ls s).order k = none ↔ k ∉ ls ∧ s.order k = none := by
  by_cases hk : k ∈ ls
  · obtain ⟨item, hitem⟩ := takeAll_mem_present ls s hk
    simp [hitem, hk]
  · rw [takeAll_order_not_mem ls s hk]
    simp [hk]

theorem idOf_eq_of_present {s s1 : Registry} {k : Locker} {item item1 : orderItem}
    (h : s.order k = some item) (h1 : s1.order k = some item1) (e : item1.id = item.id) :
    idOf s1 k = idOf s k := by
  simp only [idOf, h, h1, e]

theorem worldInvariant_init : WorldInvariant 0 World.init := by
  refine ⟨takesInvariant_empty, ?_, ?_⟩
  · intro l
    simp [World.init, World.occurrences, refcountOf, emptyRegistry]
  · intro t ht
    simp [World.init] at ht

theorem worldInvariant_construct {n : Nat} {w : World} (lockers : List Locker)
    (h : WorldInvariant n w) (hn : n + lockers.length < uint32Size) :
    ∃ w1, w.step (Op.construct lockers) = some w1 ∧ WorldInvariant (n + lockers.length) w1 := by
  obtain ⟨r, live⟩ := w
  obtain ⟨hT, hacc, hsorted⟩ := h
  simp only at hT hacc hsorted
  by_cases hne : lockers = []
  · subst hne
    refine ⟨⟨r, live⟩, rfl, ?_⟩
    exact ⟨hT, hacc, hsorted⟩
  · obtain ⟨list, hnew, hperm, hlsorted⟩ := New_spec lockers r hne
    refine ⟨⟨takeAll lockers r, ⟨list⟩ :: live⟩, ?_, ?_, ?_, ?_⟩
    · simp only [World.step, hnew]
    · exact takesInvariant_takeAll lockers n r hT hn
    · intro l
      obtain ⟨h1, h2, h3⟩ := hacc l
      have hc := List.count_le_length l lockers
      rw [occurrences_cons, occurrences_reg _ r]
      show refcountOf (takeAll lockers r) l = list.count l + World.occurrences ⟨r, live⟩ l ∧ _
      rw [hperm.count_eq,
        takeAll_refcountOf lockers r l (by rw [h1]; omega), h1,
        Nat.mod_eq_of_lt (by omega), takeAll_order_eq_none_iff, h3, ← List.count_eq_zero]
      refine ⟨by omega, by omega, by omega⟩
    · intro t ht
      rcases List.mem_cons.1 ht with e | e
      · subst e
        exact hlsorted
      · refine List.Pairwise.imp_of_mem ?_ (hsorted t e)
        intro a b ha hb hab
        have pa : (r.order a).isSome = true := by
          have h0 := count_le_occurrences ⟨r, live⟩ t e a
          have h1 := List.count_pos_iff.2 ha
          have h3 := (hacc a).2.2
          cases hx : r.order a with
          | none => rw [h3.1 hx] at h0; omega
          | some _ => rfl
        have pb : (r.order b).isSome = true := by
          have h0 := count_le_occurrences ⟨r, live⟩ t e b
          have h1 := List.count_pos_iff.2 hb
          have h3 := (hacc b).2.2
          cases hx : r.order b with
          | none => rw [h3.1 hx] at h0; omega
          | some _ => rfl
        show idOf (takeAll lockers r) a ≤ idOf (takeAll lockers r) b
        rw [(takeAll_idOf_present lockers pa).2, (takeAll_idOf_present lockers pb).2]
        exact hab

theorem worldInvariant_dispose {n : Nat} {w w1 : World} (i : Nat)
    (h : WorldInvariant n w) (hn : n < uint32Size)
    (hstep : w.step (Op.dispose i) = some w1) : WorldInvariant n w1 := by
  obtain ⟨r, live⟩ := w
  obtain ⟨hT, hacc, hsorted⟩ := h
  simp only at hT hacc hsorted
  simp only [World.step] at hstep
  cases hi : live[i]? with
  | none => simp [hi] at hstep
  | some t =>
    have htmem : t ∈ live := List.getElem?_mem hi
    obtain ⟨r1, hfin, hn1, hord⟩ := finalizerLoop_spec t.list r
      (fun k _ => by
        rw [(hacc k).1]
        exact count_le_occurrences ⟨r, live⟩ t htmem k)
      (fun k _ => by
        rw [(hacc k).1]
        have := (hacc k).2.1
        omega)
    simp only [hi, T.finalizer, hfin, Option.some.injEq] at hstep
    subst hstep
    have hocc : ∀ l, World.occurrences ⟨r, live⟩ l
        = t.list.count l + World.occurrences ⟨r1, live.eraseIdx i⟩ l :=
      fun l => occurrences_eraseIdx r live i t l hi
    -- what the finalizer leaves for each handle
    have key : ∀ k, (r1.order k = none ↔ World.occurrences ⟨r1, live.eraseIdx i⟩ k = 0) ∧
        refcountOf r1 k = World.occurrences ⟨r1, live.eraseIdx i⟩ k ∧
        (∀ item1, r1.order k = some item1 →
          ∃ item, r.order k = some item ∧ item1.id = item.id) := by
      intro k
      obtain ⟨h1, h2, h3⟩ := hacc k
      have ho := hocc k
      have hr1 := hord k
      by_cases hc : t.list.count k = 0
      · rw [if_pos hc] at hr1
        refine ⟨by rw [hr1, h3]; omega, ?_, fun item1 hi1 => ⟨item1, by rw [← hr1]; exact hi1, rfl⟩⟩
        have : refcountOf r1 k = refcountOf r k := by
          simp only [refcountOf, hr1]
        rw [this, h1]
        omega
      · rw [if_neg hc] at hr1
        by_cases he : refcountOf r k = t.list.count k
        · rw [if_pos he] at hr1
          refine ⟨by simp only [hr1, true_iff]; omega, ?_,
            fun item1 hi1 => by rw [hr1] at hi1; cases hi1⟩
          have : refcountOf r1 k = 0 := by
            simp only [refcountOf, hr1]
          rw [this]
          omega
        · rw [if_neg he] at hr1
          cases hk : r.order k with
          | none =>
            have : refcountOf r k = 0 := by simp only [refcountOf, hk]
            omega
          | some item =>
            have hrc : refcountOf r k = item.refcount := by simp only [refcountOf, hk]
            rw [hk, Option.map_some'] at hr1
            refine ⟨?_, ?_, ?_⟩
            · rw [hr1]
              constructor
              · intro h0
                cases h0
              · intro h0
                omega
            · have : refcountOf r1 k = item.refcount - t.list.count k := by
                simp only [refcountOf, hr1]
              rw [this]
              omega
            · intro item1 hi1
              rw [hr1] at hi1
              simp only [Option.some.injEq] at hi1
              exact ⟨item, rfl, by rw [← hi1]⟩
    refine ⟨⟨?_, ?_, ?_⟩, ?_, ?_⟩
    · show r1.nextOrderID ≤ n
      rw [hn1]
      exact hT.1
    · intro l item1 hl
      show 1 ≤ item1.refcount ∧ item1.refcount ≤ n ∧ item1.id < r1.nextOrderID
      have hl : r1.order l = some item1 := hl
      obtain ⟨k1, k2, k3⟩ := key l
      obtain ⟨item, hitem, hid⟩ := k3 item1 hl
      have hrc : refcountOf r1 l = item1.refcount := by simp only [refcountOf, hl]
      have hpos : World.occurrences ⟨r1, live.eraseIdx i⟩ l ≠ 0 := by
        intro h0
        rw [k1.2 h0] at hl
        cases hl
      have hb := (hacc l).2.1
      have ho := hocc l
      rw [hn1, hid]
      refine ⟨by omega, by omega, (hT.2.1 l item hitem).2.2⟩
    · intro l1 l2 i1 i2 h1 h2 hid
      obtain ⟨j1, hj1, e1⟩ := (key l1).2.2 i1 h1
      obtain ⟨j2, hj2, e2⟩ := (key l2).2.2 i2 h2
      exact hT.2.2 l1 l2 j1 j2 hj1 hj2 (by rw [← e1, ← e2, hid])
    · intro l
      obtain ⟨k1, k2, _⟩ := key l
      have hb := (hacc l).2.1
      have ho := hocc l
      exact ⟨k2, by omega, k1⟩
    · intro t1 ht1
      have ht1live : t1 ∈ live := List.mem_of_mem_eraseIdx ht1
      refine List.Pairwise.imp_of_mem ?_ (hsorted t1 ht1live)
      intro a b ha hb hab
      have same : ∀ x ∈ t1.list, idOf r1 x = idOf r x := by
        intro x hx
        have hpos : 0 < World.occurrences ⟨r1, live.eraseIdx i⟩ x :=
          (occurrences_pos_iff ⟨r1, live.eraseIdx i⟩ x).2 ⟨t1, ht1, hx⟩
        cases hx1 : r1.order x with
        | none =>
          have := (key x).1.1 hx1
          omega
        | some item1 =>
          obtain ⟨item, hitem, hid⟩ := (key x).2.2 item1 hx1
          exact idOf_eq_of_present hitem hx1 hid
      show idOf r1 a ≤ idOf r1 b
      rw [same a ha, same b hb]
      exact hab

theorem world_run_cons (w : World) (op : Op) (ops : List Op) :
    w.run (op :: ops) = (w.step op).bind (fun w1 => w1.run ops) := by
  cases hstep : w.step op with
  | none => simp only [World.run, hstep, Option.none_bind]
  | some w1 => simp only [World.run, hstep, Option.some_bind]

theorem world_run_append (w : World) (a b : List Op) :
    w.run (a ++ b) = (w.run a).bind (fun w1 => w1.run b) := by
  induction a generalizing w with
  | nil => rfl
  | cons op a ih =>
    rw [List.cons_append, world_run_cons, world_run_cons]
    cases hstep : w.step op with
    | none => rfl
    | some w1 => simp only [Option.some_bind, ih]

theorem precedes_or_of_mem {a b : Locker} {L : List Locker} (ha : a ∈ L) (hb : b ∈ L)
    (hne : a ≠ b) : precedes a b L ∨ precedes b a L := by
  induction L with
  | nil => cases ha
  | cons x xs ih =>
    by_cases hxa : a = x
    · subst hxa
      have hb1 : b ∈ xs := by
        rcases List.mem_cons.1 hb with e | e
        · exact absurd e.symm hne
        · exact e
      exact Or.inl (List.Sublist.cons₂ a (List.singleton_sublist.2 hb1))
    · by_cases hxb : b = x
      · subst hxb
        have ha1 : a ∈ xs := by
          rcases List.mem_cons.1 ha with e | e
          · exact absurd e hxa
          · exact e
        exact Or.inr (List.Sublist.cons₂ b (List.singleton_sublist.2 ha1))
      · have ha1 : a ∈ xs := by
          rcases List.mem_cons.1 ha with e | e
          · exact absurd e hxa
          · exact e
        have hb1 : b ∈ xs := by
          rcases List.mem_cons.1 hb with e | e
          · exact absurd e hxb
          · exact e
        rcases ih ha1 hb1 with h | h
        · exact Or.inl (List.Sublist.cons x h)
        · exact Or.inr (List.Sublist.cons x h)

theorem precedes_iff_of_sorted (f : Locker → Nat) {a b : Locker} {L : List Locker}
    (hs : L.Pairwise (fun x y => f x ≤ f y)) (ha : a ∈ L) (hb : b ∈ L) (hne : f a ≠ f b) :
    precedes a b L ↔ f a < f b := by
  have key : ∀ x y, precedes x y L → f x ≤ f y := by
    intro x y hxy
    have := List.Pairwise.sublist hxy hs
    simpa using this
  constructor
  · intro h
    exact Nat.lt_of_le_of_ne (key a b h) hne
  · intro h
    rcases precedes_or_of_mem ha hb (fun e => hne (e ▸ rfl)) with h1 | h1
    · exact h1
    · have := key b a h1
      omega

theorem step_construct_singleton (c : Locker) (w : World) :
    w.step (Op.construct [c]) = some ⟨take c w.reg, ⟨[c]⟩ :: w.live⟩ := rfl

theorem step_construct_dispose_absent (c : Locker) (w : World) (h : w.reg.order c = none) :
    (World.mk (take c w.reg) (⟨[c]⟩ :: w.live)).step (Op.dispose 0)
      = some ⟨⟨(w.reg.nextOrderID + 1) % uint32Size, w.reg.order⟩, w.live⟩ := by
  simp only [World.step, List.getElem?_cons_zero, T.finalizer, finalizerLoop,
    take_put_absent h, List.eraseIdx_cons_zero]

theorem world_run_constructDisposeCycles (c : Locker) (n : Nat) (w : World)
    (h : w.reg.order c = none) (hlt : w.reg.nextOrderID < uint32Size) :
    w.run (constructDisposeCycles [c] n)
      = some ⟨⟨(w.reg.nextOrderID + n) % uint32Size, w.reg.order⟩, w.live⟩ := by
  induction n generalizing w with
  | zero =>
    simp only [constructDisposeCycles, World.run, Nat.add_zero, Nat.mod_eq_of_lt hlt]
  | succ n ih =>
    have h2 := ih ⟨⟨(w.reg.nextOrderID + 1) % uint32Size, w.reg.order⟩, w.live⟩ h
      (Nat.mod_lt _ (by unfold uint32Size; omega))
    rw [constructDisposeCycles, world_run_cons, step_construct_singleton, Option.some_bind,
      world_run_cons, step_construct_dispose_absent c w h, Option.some_bind, h2]
    have : ((w.reg.nextOrderID + 1) % uint32Size + n) % uint32Size
        = (w.reg.nextOrderID + (n + 1)) % uint32Size := by
      unfold uint32Size
      omega
    simp only [this]

theorem world_run_replicate_construct (c : Locker) (n : Nat) (w : World) (i r : Nat)
    (h : w.reg.order c = some ⟨i, r⟩) (hr : r < uint32Size) :
    w.run (List.replicate n (Op.construct [c]))
      = some ⟨setItem w.reg c (some ⟨i, (r + n) % uint32Size⟩),
          List.replicate n ⟨[c]⟩ ++ w.live⟩ := by
  induction n generalizing w r with
  | zero =>
    simp only [List.replicate, World.run, Nat.add_zero, Nat.mod_eq_of_lt hr, List.nil_append]
    obtain ⟨reg, live⟩ := w
    refine congrArg some ?_
    have : setItem reg c (some ⟨i, r⟩) = reg := by
      refine Registry.eq_of rfl (fun k => ?_)
      by_cases hk : k = c
      · simp only [setItem, hk, if_true]
        rw [← hk] at h
        exact (hk ▸ h).symm
      · simp only [setItem, hk, if_false]
    rw [this]
  | succ n ih =>
    have h1 : (take c w.reg).order c = some ⟨i, (r + 1) % uint32Size⟩ := by
      rw [take_of_some h]
      simp only [setItem, if_true]
    have h2 := ih ⟨take c w.reg, ⟨[c]⟩ :: w.live⟩ ((r + 1) % uint32Size) h1
      (Nat.mod_lt _ (by unfold uint32Size; omega))
    rw [List.replicate_succ, world_run_cons, step_construct_singleton, Option.some_bind, h2]
    refine congrArg some ?_
    have e : ((r + 1) % uint32Size + n) % uint32Size = (r + (n + 1)) % uint32Size := by
      unfold uint32Size
      omega
    have e1 : setItem (take c w.reg) c (some ⟨i, ((r + 1) % uint32Size + n) % uint32Size⟩)
        = setItem w.reg c (some ⟨i, (r + (n + 1)) % uint32Size⟩) := by
      refine Registry.eq_of ?_ (fun k => ?_)
      · simp only [setItem, take_of_some h]
      · by_cases hk : k = c
        · simp only [setItem, hk, if_true, e]
        · simp only [setItem, hk, if_false, take_of_some h]
    have e2 : List.replicate n (T.mk [c]) ++ T.mk [c] :: w.live
        = T.mk [c] :: (List.replicate n (T.mk [c]) ++ w.live) := by
      rw [← List.cons_append, ← List.replicate_succ, List.replicate_succ', List.append_assoc]
      rfl
    show World.mk _ _ = World.mk _ _
    rw [e1, e2]
    rfl

theorem occurrences_replicate (r : Registry) (t : T) (n : Nat) (live : List T) (l : Locker) :
    World.occurrences ⟨r, List.replicate n t ++ live⟩ l
      = n * t.list.count l + World.occurrences ⟨r, live⟩ l := by
  induction n with
  | zero => simp only [List.replicate, List.nil_append, Nat.zero_mul, Nat.zero_add]
  | succ n ih =>
    rw [List.replicate_succ, List.cons_append, occurrences_cons, ih]
    rw [Nat.succ_mul]
    omega

/-! ## The stable sort of the specification -/

theorem stableSortByRank_perm (rank : Locker → Nat) (ls : List Locker) :
    (stableSortByRank rank ls).Perm ls :=
  List.perm_insertionSort _ ls

theorem stableSortByRank_sorted (rank : Locker → Nat) (ls : List Locker) :
    (stableSortByRank rank ls).Pairwise (fun a b => rank a ≤ rank b) := by
  haveI : IsTotal Locker (fun a b => rank a ≤ rank b) := ⟨fun a b => Nat.le_total _ _⟩
  haveI : IsTrans Locker (fun a b => rank a ≤ rank b) := ⟨fun a b c => Nat.le_trans⟩
  exact List.sorted_insertionSort (fun a b => rank a ≤ rank b) ls

/-! ## The ids given to handles seen for the first time -/

theorem takeAll_new_ids (ls : List Locker) (s : Registry)
    (hinv : ∀ l item, s.order l = some item → item.id < s.nextOrderID)
    (hnw : s.nextOrderID + (newHandles s ls).card < uint32Size) :
    (∀ k ∈ ls, s.order k = none → s.nextOrderID ≤ idOf (takeAll ls s) k) ∧
    (∀ a ∈ ls, ∀ b ∈ ls, s.order a = none → s.order b = none →
      ls.indexOf a < ls.indexOf b → idOf (takeAll ls s) a < idOf (takeAll ls s) b) := by
  induction ls generalizing s with
  | nil =>
    exact ⟨fun k hk => (by cases hk), fun a ha => (by cases ha)⟩
  | cons l ls ih =>
    cases hl : s.order l with
    | some item =>
      have hn : (take l s).nextOrderID = s.nextOrderID := by
        rw [take_of_some hl]
        rfl
      have hinv1 : ∀ k item1, (take l s).order k = some item1 →
          item1.id < (take l s).nextOrderID := by
        intro k item1 hk
        rw [hn]
        by_cases hkl : k = l
        · subst hkl
          rw [take_order_self, hl] at hk
          simp only [Option.some.injEq] at hk
          rw [← hk]
          exact hinv k item hl
        · rw [take_order_ne s hkl] at hk
          exact hinv k item1 hk
      have hnw1 : (take l s).nextOrderID + (newHandles (take l s) ls).card < uint32Size := by
        rw [hn, ← newHandles_cons_present ls hl]
        exact hnw
      obtain ⟨ih1, ih2⟩ := ih (take l s) hinv1 hnw1
      rw [hn] at ih1
      have hne : ∀ k, s.order k = none → k ≠ l := by
        intro k hk e
        rw [e, hl] at hk
        cases hk
      have hmem : ∀ k, k ∈ l :: ls → s.order k = none → k ∈ ls := by
        intro k hk hnone
        rcases List.mem_cons.1 hk with e | e
        · exact absurd e (hne k hnone)
        · exact e
      constructor
      · intro k hk hnone
        exact ih1 k (hmem k hk hnone) (by rw [take_order_ne s (hne k hnone)]; exact hnone)
      · intro a ha b hb hna hnb hidx
        rw [List.indexOf_cons_ne _ (fun e => hne a hna e.symm),
          List.indexOf_cons_ne _ (fun e => hne b hnb e.symm)] at hidx
        exact ih2 a (hmem a ha hna) b (hmem b hb hnb)
          (by rw [take_order_ne s (hne a hna)]; exact hna)
          (by rw [take_order_ne s (hne b hnb)]; exact hnb)
          (by omega)
    | none =>
      rw [newHandles_cons_absent ls hl,
        Finset.card_insert_of_not_mem (newHandles_take_not_mem s l ls)] at hnw
      have hn : (take l s).nextOrderID = s.nextOrderID + 1 := by
        rw [take_of_none hl]
        exact Nat.mod_eq_of_lt (by omega)
      have hself : (take l s).order l = some ⟨s.nextOrderID, 1⟩ := by
        rw [take_of_none hl]
        simp only [if_true]
      have hinv1 : ∀ k item1, (take l s).order k = some item1 →
          item1.id < (take l s).nextOrderID := by
        intro k item1 hk
        rw [hn]
        by_cases hkl : k = l
        · subst hkl
          rw [hself] at hk
          simp only [Option.some.injEq] at hk
          rw [← hk]
          exact Nat.lt_succ_self _
        · rw [take_order_ne s hkl] at hk
          exact Nat.lt_succ_of_lt (hinv k item1 hk)
      have hnw1 : (take l s).nextOrderID + (newHandles (take l s) ls).card < uint32Size := by
        rw [hn]
        omega
      obtain ⟨ih1, ih2⟩ := ih (take l s) hinv1 hnw1
      rw [hn] at ih1
      have hidl : idOf (takeAll ls (take l s)) l = s.nextOrderID := by
        rw [(takeAll_idOf_present ls (by rw [hself]; rfl)).2]
        simp only [idOf, hself]
      constructor
      · intro k hk hnone
        by_cases hkl : k = l
        · subst hkl
          show s.nextOrderID ≤ idOf (takeAll ls (take k s)) k
          rw [hidl]
        · have hk1 : k ∈ ls := by
            rcases List.mem_cons.1 hk with e | e
            · exact absurd e hkl
            · exact e
          have := ih1 k hk1 (by rw [take_order_ne s hkl]; exact hnone)
          show s.nextOrderID ≤ idOf (takeAll ls (take l s)) k
          omega
      · intro a ha b hb hna hnb hidx
        show idOf (takeAll ls (take l s)) a < idOf (takeAll ls (take l s)) b
        by_cases hal : a = l
        · subst hal
          have hba : b ≠ a := by
            intro e
            rw [e] at hidx
            exact Nat.lt_irrefl _ hidx
          have hb1 : b ∈ ls := by
            rcases List.mem_cons.1 hb with e | e
            · exact absurd e hba
            · exact e
          have := ih1 b hb1 (by rw [take_order_ne s hba]; exact hnb)
          rw [hidl]
          omega
        · have hbl : b ≠ l := by
            intro e
            rw [e, List.indexOf_cons_self] at hidx
            exact Nat.not_lt_zero _ hidx
          rw [List.indexOf_cons_ne _ (fun e => hal e.symm),
            List.indexOf_cons_ne _ (fun e => hbl e.symm)] at hidx
          have ha1 : a ∈ ls := by
            rcases List.mem_cons.1 ha with e | e
            · exact absurd e hal
            · exact e
          have hb1 : b ∈ ls := by
            rcases List.mem_cons.1 hb with e | e
            · exact absurd e hbl
            · exact e
          exact ih2 a ha1 b hb1 (by rw [take_order_ne s hal]; exact hna)
            (by rw [take_order_ne s hbl]; exact hnb) (by omega)

theorem precedes_of_sorted_lt (f : Locker → Nat) {a b : Locker} {L : List Locker}
    (hs : L.Pairwise (fun x y => f x ≤ f y)) (ha : a ∈ L) (hb : b ∈ L) (hlt : f a < f b) :
    precedes a b L ∧ ¬ precedes b a L := by
  have h1 := (precedes_iff_of_sorted f hs ha hb (by omega)).2 hlt
  refine ⟨h1, ?_⟩
  intro h2
  have := (precedes_iff_of_sorted f hs hb ha (by omega)).1 h2
  omega

/-! ## The registry behind addresses, and its sequential view -/

theorem wellFormed_empty : emptyPtrRegistry.WellFormed :=
  ⟨fun _ _ h => (by cases h), fun _ _ _ h => (by cases h)⟩

theorem view_setRefcount {r : PtrRegistry} {l : Locker} {p : Ptr} (hwf : r.WellFormed)
    (h : r.order l = some p) (rc : Nat) :
    (r.setRefcount p rc).view = setItem r.view l (some ⟨(r.items p).id, rc⟩) ∧
    (r.setRefcount p rc).WellFormed ∧ (r.setRefcount p rc).order = r.order := by
  refine ⟨Registry.eq_of rfl (fun k => ?_), hwf, rfl⟩
  show ((r.order k).map (fun q => if q = p then { r.items p with refcount := rc } else r.items q))
    = if k = l then some ⟨(r.items p).id, rc⟩ else (r.order k).map r.items
  by_cases hk : k = l
  · rw [if_pos hk, hk, h]
    simp only [Option.map_some', if_true]
  · rw [if_neg hk]
    cases hq : r.order k with
    | none => rfl
    | some q =>
      have hqp : q ≠ p := fun e => hk (hwf.2 k l p (e ▸ hq) h)
      simp only [Option.map_some', hqp, if_false]

theorem view_order {r : PtrRegistry} {l : Locker} {p : Ptr} (h : r.order l = some p) :
    r.view.order l = some (r.items p) := by
  show (r.order l).map r.items = _
  rw [h]
  rfl

theorem view_order_none {r : PtrRegistry} {l : Locker} (h : r.order l = none) :
    r.view.order l = none := by
  show (r.order l).map r.items = _
  rw [h]
  rfl

theorem takeRead_hit {r : PtrRegistry} {l : Locker} {p : Ptr} (hwf : r.WellFormed)
    (h : r.order l = some p) :
    ∃ r1, takeRead l r = (r1, true) ∧ r1.view = take l r.view ∧ r1.WellFormed := by
  obtain ⟨hv, hw, _⟩ := view_setRefcount hwf h (((r.items p).refcount + 1) % uint32Size)
  refine ⟨_, by simp only [takeRead, h], ?_, hw⟩
  rw [hv, take_of_some (view_order h)]

theorem takeRead_miss {r : PtrRegistry} {l : Locker} (h : r.order l = none) :
    takeRead l r = (r, false) := by
  simp only [takeRead, h]

theorem takeWrite_view {r : PtrRegistry} (l : Locker) (hwf : r.WellFormed) :
    (takeWrite l r).view = take l r.view ∧ (takeWrite l r).WellFormed := by
  cases h : r.order l with
  | some p =>
    obtain ⟨hv, hw, _⟩ := view_setRefcount hwf h (((r.items p).refcount + 1) % uint32Size)
    simp only [takeWrite, h]
    exact ⟨by rw [hv, take_of_some (view_order h)], hw⟩
  | none =>
    simp only [takeWrite, h]
    refine ⟨?_, ?_, ?_⟩
    · rw [take_of_none (view_order_none h)]
      refine Registry.eq_of rfl (fun k => ?_)
      show ((if k = l then some r.allocated else r.order k).map
          (fun q => if q = r.allocated then (⟨r.nextOrderID, 1⟩ : orderItem) else r.items q))
        = if k = l then some ⟨r.nextOrderID, 1⟩ else (r.order k).map r.items
      by_cases hk : k = l
      · simp only [hk, if_true, Option.map_some']
      · simp only [hk, if_false]
        cases hq : r.order k with
        | none => rfl
        | some q =>
          have hne : q ≠ r.allocated := Nat.ne_of_lt (hwf.1 k q hq)
          simp only [Option.map_some', hne, if_false]
    · intro k p hk
      show p < r.allocated + 1
      by_cases hkl : k = l
      · simp only [hkl, if_true, Option.some.injEq] at hk
        rw [← hk]
        exact Nat.lt_succ_self _
      · simp only [hkl, if_false] at hk
        exact Nat.lt_succ_of_lt (hwf.1 k p hk)
    · intro l1 l2 p h1 h2
      simp only at h1 h2
      by_cases e1 : l1 = l <;> by_cases e2 : l2 = l
      · rw [e1, e2]
      · simp only [e1, if_true, Option.some.injEq] at h1
        simp only [e2, if_false] at h2
        have := hwf.1 l2 p h2
        rw [← h1] at this
        exact absurd this (Nat.lt_irrefl _)
      · simp only [e2, if_true, Option.some.injEq] at h2
        simp only [e1, if_false] at h1
        have := hwf.1 l1 p h1
        rw [← h2] at this
        exact absurd this (Nat.lt_irrefl _)
      · simp only [e1, if_false] at h1
        simp only [e2, if_false] at h2
        exact hwf.2 l1 l2 p h1 h2

/-! ## Interleavings of take calls -/

theorem count_take_cons_take (l k : Locker) (rest : List RegOp) :
    (RegOp.take l :: rest).count (RegOp.take k)
      = rest.count (RegOp.take k) + if l = k then 1 else 0 := by
  by_cases h : l = k
  · subst h
    rw [List.count_cons_self, if_pos rfl]
  · have hne : RegOp.take k ≠ RegOp.take l := by
      intro e
      injection e with e
      exact h e.symm
    rw [List.count_cons_of_ne hne, if_neg h, Nat.add_zero]

/-- A phase of a goroutine that only makes `take` calls either leaves the view of
the registry alone or acts on it as one whole `take`, which then is one call
less to complete. -/
theorem takeOnly_goroutine_step {g g1 : Goroutine} {r r1 : PtrRegistry}
    (hg : g.TakeOnly) (hwf : r.WellFormed) (hstep : g.step r = some (g1, r1)) :
    g1.TakeOnly ∧ r1.WellFormed ∧
    ((r1.view = r.view ∧ ∀ k, g1.pendingTakes k = g.pendingTakes k) ∨
     (∃ l, r1.view = take l r.view ∧
        ∀ k, g.pendingTakes k = g1.pendingTakes k + if l = k then 1 else 0)) := by
  obtain ⟨pc, todo⟩ := g
  obtain ⟨hpc, htodo⟩ := hg
  simp only at hpc htodo
  rcases hpc with hidle | ⟨l, hl⟩
  · subst hidle
    cases todo with
    | nil => simp [Goroutine.step] at hstep
    | cons op rest =>
      obtain ⟨l, hop⟩ := htodo op (List.mem_cons_self _ _)
      subst hop
      have hrest : ∀ op ∈ rest, ∃ l, op = RegOp.take l :=
        fun op h => htodo op (List.mem_cons_of_mem _ h)
      cases hl : r.order l with
      | some p =>
        obtain ⟨r2, hr2, hview, hwf2⟩ := takeRead_hit hwf hl
        simp only [Goroutine.step, hr2, Option.some.injEq, Prod.mk.injEq] at hstep
        obtain ⟨e1, e2⟩ := hstep
        subst e1 e2
        refine ⟨⟨Or.inl rfl, hrest⟩, hwf2, Or.inr ⟨l, hview, fun k => ?_⟩⟩
        simp only [Goroutine.pendingTakes, count_take_cons_take, Nat.zero_add]
      | none =>
        simp only [Goroutine.step, takeRead_miss hl, Option.some.injEq, Prod.mk.injEq] at hstep
        obtain ⟨e1, e2⟩ := hstep
        subst e1 e2
        refine ⟨⟨Or.inr ⟨l, rfl⟩, hrest⟩, hwf, Or.inl ⟨rfl, fun k => ?_⟩⟩
        simp only [Goroutine.pendingTakes, count_take_cons_take, Nat.zero_add]
        omega
  · subst hl
    simp only [Goroutine.step, Option.some.injEq, Prod.mk.injEq] at hstep
    obtain ⟨e1, e2⟩ := hstep
    subst e1 e2
    obtain ⟨hview, hwf2⟩ := takeWrite_view l hwf
    refine ⟨⟨Or.inl rfl, htodo⟩, hwf2, Or.inr ⟨l, hview, fun k => ?_⟩⟩
    simp only [Goroutine.pendingTakes, Nat.zero_add]
    omega

theorem sum_map_set {α : Type} (f : α → Nat) (L : List α) (i : Nat) (g g1 : α)
    (h : L[i]? = some g) :
    ((L.set i g1).map f).sum + f g = (L.map f).sum + f g1 := by
  induction L generalizing i with
  | nil => simp at h
  | cons x xs ih =>
    cases i with
    | zero =>
      simp only [List.getElem?_cons_zero, Option.some.injEq] at h
      subst h
      simp only [List.set_cons_zero, List.map_cons, List.sum_cons]
      omega
    | succ i =>
      rw [List.getElem?_cons_succ] at h
      have := ih i h
      simp only [List.set_cons_succ, List.map_cons, List.sum_cons]
      omega

theorem mem_set_of {α : Type} {L : List α} {i : Nat} {g1 a : α} (h : a ∈ L.set i g1) :
    a = g1 ∨ a ∈ L := by
  induction L generalizing i with
  | nil => simp at h
  | cons x xs ih =>
    cases i with
    | zero =>
      simp only [List.set_cons_zero, List.mem_cons] at h
      rcases h with e | e
      · exact Or.inl e
      · exact Or.inr (List.mem_cons_of_mem _ e)
    | succ i =>
      simp only [List.set_cons_succ, List.mem_cons] at h
      rcases h with e | e
      · exact Or.inr (e ▸ List.mem_cons_self _ _)
      · rcases ih e with e1 | e1
        · exact Or.inl e1
        · exact Or.inr (List.mem_cons_of_mem _ e1)

/-- Every interleaving of goroutines that only make `take` calls is a
linearization: the view of the registry it reaches is the one reached by making
the completed calls one after the other, in some order. -/
theorem takeOnly_run (sched : List Nat) (m m1 : Machine)
    (hg : ∀ g ∈ m.goroutines, g.TakeOnly) (hwf : m.reg.WellFormed)
    (hrun : m.run sched = some m1) :
    (∀ g ∈ m1.goroutines, g.TakeOnly) ∧ m1.reg.WellFormed ∧
    ∃ L : List Locker, m1.reg.view = takeAll L m.reg.view ∧
      ∀ k, m.pendingTakes k = m1.pendingTakes k + L.count k := by
  induction sched generalizing m with
  | nil =>
    simp only [Machine.run, Option.some.injEq] at hrun
    subst hrun
    exact ⟨hg, hwf, [], rfl, fun k => by simp⟩
  | cons i sched ih =>
    simp only [Machine.run] at hrun
    cases hstep : m.step i with
    | none => simp [hstep] at hrun
    | some m2 =>
      rw [hstep] at hrun
      simp only at hrun
      simp only [Machine.step] at hstep
      cases hgi : m.goroutines[i]? with
      | none => simp [hgi] at hstep
      | some g =>
        rw [hgi] at hstep
        simp only at hstep
        cases hgs : g.step m.reg with
        | none => simp [hgs] at hstep
        | some res =>
          obtain ⟨g1, r1⟩ := res
          rw [hgs] at hstep
          simp only [Option.some.injEq] at hstep
          subst hstep
          have hgmem : g ∈ m.goroutines := List.getElem?_mem hgi
          obtain ⟨hg1, hwf1, hcase⟩ := takeOnly_goroutine_step (hg g hgmem) hwf hgs
          have hg2 : ∀ a ∈ m.goroutines.set i g1, a.TakeOnly := by
            intro a ha
            rcases mem_set_of ha with e | e
            · rw [e]; exact hg1
            · exact hg a e
          obtain ⟨h1, h2, L, hL, hcount⟩ := ih ⟨r1, m.goroutines.set i g1⟩ hg2 hwf1 hrun
          refine ⟨h1, h2, ?_⟩
          rcases hcase with ⟨hv, hp⟩ | ⟨l, hv, hp⟩
          · refine ⟨L, by rw [hL]; show takeAll L r1.view = _; rw [hv], fun k => ?_⟩
            have hs := sum_map_set (fun a => a.pendingTakes k) m.goroutines i g g1 hgi
            have := hcount k
            simp only [Machine.pendingTakes] at this hs ⊢
            rw [hp k] at hs
            omega
          · refine ⟨l :: L, by rw [hL]; show takeAll L r1.view = _; rw [hv]; rfl, fun k => ?_⟩
            have hs := sum_map_set (fun a => a.pendingTakes k) m.goroutines i g g1 hgi
            have := hcount k
            simp only [Machine.pendingTakes] at this hs ⊢
            rw [hp k] at hs
            rw [List.count_cons]
            by_cases hlk : l = k
            · simp only [hlk, if_true, beq_self_eq_true] at hs ⊢
              omega
            · have hb : (l == k) = false := by
                simp only [beq_eq_false_iff_ne, ne_eq]
                exact hlk
              simp only [hlk, if_false, hb, Bool.false_eq_true] at hs ⊢
              omega

theorem forall₂_set_left {α β : Type} {R : α → β → Prop} {L : List α} {G : List β}
    (h : List.Forall₂ R L G) (i : Nat) (g g1 : α) (hi : L[i]? = some g)
    (hR : ∀ x, R g x → R g1 x) : List.Forall₂ R (L.set i g1) G := by
  induction h generalizing i with
  | nil => simp at hi
  | cons hab _ ih =>
    cases i with
    | zero =>
      simp only [List.getElem?_cons_zero, Option.some.injEq] at hi
      subst hi
      exact List.Forall₂.cons (hR _ hab) (by assumption)
    | succ i =>
      rw [List.getElem?_cons_succ] at hi
      exact List.Forall₂.cons hab (ih i hi)

/-- Along an interleaving of `take` calls the number of calls a goroutine has
not completed yet never grows. -/
theorem takeOnly_run_pending_le (sched : List Nat) (m m1 : Machine) (bound : List (Locker → Nat))
    (hg : ∀ g ∈ m.goroutines, g.TakeOnly) (hwf : m.reg.WellFormed)
    (hb : List.Forall₂ (fun g b => ∀ k, g.pendingTakes k ≤ b k) m.goroutines bound)
    (hrun : m.run sched = some m1) :
    List.Forall₂ (fun g b => ∀ k, g.pendingTakes k ≤ b k) m1.goroutines bound := by
  induction sched generalizing m with
  | nil =>
    simp only [Machine.run, Option.some.injEq] at hrun
    subst hrun
    exact hb
  | cons i sched ih =>
    simp only [Machine.run] at hrun
    cases hstep : m.step i with
    | none => simp [hstep] at hrun
    | some m2 =>
      rw [hstep] at hrun
      simp only at hrun
      simp only [Machine.step] at hstep
      cases hgi : m.goroutines[i]? with
      | none => simp [hgi] at hstep
      | some g =>
        rw [hgi] at hstep
        simp only at hstep
        cases hgs : g.step m.reg with
        | none => simp [hgs] at hstep
        | some res =>
          obtain ⟨g1, r1⟩ := res
          rw [hgs] at hstep
          simp only [Option.some.injEq] at hstep
          subst hstep
          have hgmem : g ∈ m.goroutines := List.getElem?_mem hgi
          obtain ⟨hg1, hwf1, hcase⟩ := takeOnly_goroutine_step (hg g hgmem) hwf hgs
          have hg2 : ∀ a ∈ m.goroutines.set i g1, a.TakeOnly := by
            intro a ha
            rcases mem_set_of ha with e | e
            · rw [e]; exact hg1
            · exact hg a e
          have hle : ∀ k, g1.pendingTakes k ≤ g.pendingTakes k := by
            intro k
            rcases hcase with ⟨_, hp⟩ | ⟨l, _, hp⟩
            · rw [hp k]
            · rw [hp k]
              omega
          refine ih ⟨r1, m.goroutines.set i g1⟩ hg2 hwf1 ?_ hrun
          exact forall₂_set_left hb i g g1 hgi
            (fun b hgb k => Nat.le_trans (hle k) (hgb k))

theorem takeAll_append (a b : List Locker) (s : Registry) :
    takeAll (a ++ b) s = takeAll b (takeAll a s) := by
  induction a generalizing s with
  | nil => rfl
  | cons l a ih =>
    show takeAll (a ++ b) (take l s) = takeAll b (takeAll a (take l s))
    exact ih (take l s)

theorem count_registerCalls (ls : List Locker) (k : Locker) :
    (registerCalls ls).count (RegOp.take k) = ls.count k := by
  induction ls with
  | nil => rfl
  | cons l ls ih =>
    show (RegOp.take l :: registerCalls ls).count (RegOp.take k) = _
    rw [count_take_cons_take, ih, List.count_cons]
    by_cases h : l = k
    · simp only [h, if_true, beq_self_eq_true]
    · have hb : (l == k) = false := by
        simp only [beq_eq_false_iff_ne, ne_eq]
        exact h
      simp only [h, if_false, hb, Bool.false_eq_true]

theorem takeOnly_registerCalls (ls : List Locker) :
    (Goroutine.mk Pc.idle (registerCalls ls)).TakeOnly := by
  refine ⟨Or.inl rfl, ?_⟩
  intro op hop
  simp only [registerCalls, List.mem_map] at hop
  obtain ⟨l, _, e⟩ := hop
  exact ⟨l, e.symm⟩

theorem pendingTakes_finished {m : Machine} (h : ∀ g ∈ m.goroutines, g.finished)
    (k : Locker) : m.pendingTakes k = 0 := by
  obtain ⟨r, gs⟩ := m
  simp only [Machine.pendingTakes]
  induction gs with
  | nil => rfl
  | cons g gs ih =>
    have hg := h g (List.mem_cons_self _ _)
    obtain ⟨hpc, htodo⟩ := hg
    have h0 : g.pendingTakes k = 0 := by
      simp only [Goroutine.pendingTakes, hpc, htodo, List.count_nil]
    simp only [List.map_cons, List.sum_cons, h0, Nat.zero_add]
    exact ih (fun a ha => h a (List.mem_cons_of_mem _ ha))

theorem newHandles_congr (s : Registry) {L1 L2 : List Locker}
    (h : ∀ k, k ∈ L1 ↔ k ∈ L2) : newHandles s L1 = newHandles s L2 := by
  ext k
  simp only [newHandles, List.mem_toFinset, List.mem_filter, h k]

/-! ## Interleavings of take and put calls -/

theorem takeRead_order (l : Locker) (r : PtrRegistry) : (takeRead l r).1.order = r.order := by
  unfold takeRead
  cases r.order l <;> rfl

theorem takeRead_wellFormed (l : Locker) {r : PtrRegistry} (h : r.WellFormed) :
    (takeRead l r).1.WellFormed := by
  unfold takeRead
  cases r.order l
  · exact h
  · exact h

theorem takeWrite_order_some {l k : Locker} {p : Ptr} {r : PtrRegistry}
    (h : r.order k = some p) : (takeWrite l r).order k = some p := by
  cases hl : r.order l with
  | some q =>
    simp only [takeWrite, hl]
    exact h
  | none =>
    have hkl : k ≠ l := by
      intro e
      rw [e, hl] at h
      cases h
    simp only [takeWrite, hl, hkl, if_false]
    exact h

theorem putRead_ok {l : Locker} {r r1 : PtrRegistry} {res : Option Ptr}
    (h : putRead l r = .ok (r1, res)) :
    r1.order = r.order ∧ (r.WellFormed → r1.WellFormed) ∧
    (∀ item, res = some item → r.order l = some item) := by
  cases hl : r.order l with
  | none =>
    simp only [putRead, hl] at h
    cases h
  | some p =>
    simp only [putRead, hl] at h
    split at h
    · simp only [Except.ok.injEq, Prod.mk.injEq] at h
      obtain ⟨e1, e2⟩ := h
      subst e1
      refine ⟨rfl, fun hw => hw, ?_⟩
      intro item he
      rw [← e2] at he
      exact he
    · simp only [Except.ok.injEq, Prod.mk.injEq] at h
      obtain ⟨e1, e2⟩ := h
      subst e1
      refine ⟨rfl, fun hw => hw, ?_⟩
      intro item he
      rw [← e2] at he
      cases he

theorem putWrite_wellFormed (l : Locker) (item : Ptr) {r : PtrRegistry} (h : r.WellFormed) :
    (putWrite l item r).WellFormed := by
  unfold putWrite
  split
  · refine ⟨?_, ?_⟩
    · intro k p hk
      simp only at hk
      by_cases hkl : k = l
      · simp [hkl] at hk
      · simp only [hkl, if_false] at hk
        exact h.1 k p hk
    · intro l1 l2 p h1 h2
      simp only at h1 h2
      by_cases e1 : l1 = l
      · simp [e1] at h1
      · by_cases e2 : l2 = l
        · simp [e2] at h2
        · simp only [e1, if_false] at h1
          simp only [e2, if_false] at h2
          exact h.2 l1 l2 p h1 h2
  · exact h

/-- What one phase of a goroutine can do to the map: an entry it finds stays,
except for the entry of `l` when the phase is the write-locked phase of a
`put l`, whose local variable `item` then holds an item of refcount `0`. -/
theorem goroutine_step_order {g g1 : Goroutine} {r r1 : PtrRegistry}
    (hstep : g.step r = some (g1, r1)) (k : Locker) (p : Ptr) (hk : r.order k = some p) :
    r1.order k = some p ∨
    (r1.order k = none ∧ ∃ item, g.pc = Pc.putLocked k item ∧ (r.items item).refcount = 0) := by
  obtain ⟨pc, todo⟩ := g
  cases pc with
  | faulted => simp [Goroutine.step] at hstep
  | takeLocked l =>
    simp only [Goroutine.step, Option.some.injEq, Prod.mk.injEq] at hstep
    rw [← hstep.2]
    exact Or.inl (takeWrite_order_some hk)
  | putLocked l item =>
    simp only [Goroutine.step, Option.some.injEq, Prod.mk.injEq] at hstep
    rw [← hstep.2]
    unfold putWrite
    split
    · rename_i hz
      by_cases hkl : k = l
      · subst hkl
        exact Or.inr ⟨by simp, item, rfl, hz⟩
      · left
        simp only [hkl, if_false]
        exact hk
    · exact Or.inl hk
  | idle =>
    cases todo with
    | nil => simp [Goroutine.step] at hstep
    | cons op rest =>
      cases op with
      | take l =>
        have ho := takeRead_order l r
        cases hres : takeRead l r with
        | mk r2 b =>
          rw [hres] at ho
          cases b <;>
          · simp only [Goroutine.step, hres, Option.some.injEq, Prod.mk.injEq] at hstep
            rw [← hstep.2]
            left
            simp only at ho
            rw [ho]
            exact hk
      | put l =>
        cases hres : putRead l r with
        | error e =>
          simp only [Goroutine.step, hres, Option.some.injEq, Prod.mk.injEq] at hstep
          rw [← hstep.2]
          exact Or.inl hk
        | ok val =>
          obtain ⟨r2, res⟩ := val
          obtain ⟨ho, _, _⟩ := putRead_ok hres
          cases res <;>
          · simp only [Goroutine.step, hres, Option.some.injEq, Prod.mk.injEq] at hstep
            rw [← hstep.2]
            left
            rw [ho]
            exact hk

/-- One phase of any goroutine keeps the registry well formed, and a goroutine
that enters the write-locked phase of a `put` holds in `item` the address the
map holds for the handle. -/
theorem goroutine_step_wellFormed {g g1 : Goroutine} {r r1 : PtrRegistry}
    (hwf : r.WellFormed) (hstep : g.step r = some (g1, r1)) :
    r1.WellFormed ∧ ∀ l item, g1.pc = Pc.putLocked l item → r1.order l = some item := by
  obtain ⟨pc, todo⟩ := g
  cases pc with
  | faulted => simp [Goroutine.step] at hstep
  | takeLocked l =>
    simp only [Goroutine.step, Option.some.injEq, Prod.mk.injEq] at hstep
    rw [← hstep.1, ← hstep.2]
    exact ⟨(takeWrite_view l hwf).2, fun _ _ h => by cases h⟩
  | putLocked l item =>
    simp only [Goroutine.step, Option.some.injEq, Prod.mk.injEq] at hstep
    rw [← hstep.1, ← hstep.2]
    exact ⟨putWrite_wellFormed l item hwf, fun _ _ h => by cases h⟩
  | idle =>
    cases todo with
    | nil => simp [Goroutine.step] at hstep
    | cons op rest =>
      cases op with
      | take l =>
        have hw := takeRead_wellFormed l hwf
        cases hres : takeRead l r with
        | mk r2 b =>
          rw [hres] at hw
          cases b <;>
          · simp only [Goroutine.step, hres, Option.some.injEq, Prod.mk.injEq] at hstep
            rw [← hstep.1, ← hstep.2]
            exact ⟨hw, fun _ _ h => by cases h⟩
      | put l =>
        cases hres : putRead l r with
        | error e =>
          simp only [Goroutine.step, hres, Option.some.injEq, Prod.mk.injEq] at hstep
          rw [← hstep.1, ← hstep.2]
          exact ⟨hwf, fun _ _ h => by cases h⟩
        | ok val =>
          obtain ⟨r2, res⟩ := val
          obtain ⟨ho, hw, hitem⟩ := putRead_ok hres
          cases res with
          | none =>
            simp only [Goroutine.step, hres, Option.some.injEq, Prod.mk.injEq] at hstep
            rw [← hstep.1, ← hstep.2]
            exact ⟨hw hwf, fun _ _ h => by cases h⟩
          | some item =>
            simp only [Goroutine.step, hres, Option.some.injEq, Prod.mk.injEq] at hstep
            rw [← hstep.1, ← hstep.2]
            refine ⟨hw hwf, ?_⟩
            intro l1 item1 h
            simp only [Pc.putLocked.injEq] at h
            rw [← h.1, ← h.2, ho]
            exact hitem item rfl

theorem getElem?_set_cases {α : Type} {L : List α} {i j : Nat} {a b : α}
    (h : (L.set i a)[j]? = some b) : (j = i ∧ b = a) ∨ (j ≠ i ∧ L[j]? = some b) := by
  by_cases hji : i = j
  · subst hji
    rw [List.getElem?_set_self'] at h
    cases hL : L[i]? with
    | none => simp [hL] at h
    | some x =>
      rw [hL] at h
      simp only [Option.map_eq_map, Option.map_some', Function.const_apply, Option.some.injEq] at h
      exact Or.inl ⟨rfl, h.symm⟩
  · rw [List.getElem?_set_ne hji] at h
    exact Or.inr ⟨fun e => hji e.symm, h⟩

theorem takeOnly_pc_ne_putLocked {g : Goroutine} (h : g.TakeOnly) (l : Locker) (item : Ptr) :
    g.pc ≠ Pc.putLocked l item := by
  intro e
  rcases h.1 with h1 | ⟨k, h1⟩
  · rw [h1] at e
    cases e
  · rw [h1] at e
    cases e

theorem onePutter_start (f : Nat) (r0 : PtrRegistry) (programs : List (List RegOp))
    (hwf : r0.WellFormed)
    (hone : ∀ j prog, programs[j]? = some prog → j ≠ f → ∀ op ∈ prog, ∃ l, op = RegOp.take l) :
    (Machine.start r0 programs).OnePutter f := by
  refine ⟨hwf, ?_, ?_⟩
  · intro i g hg hi
    simp only [Machine.start, List.getElem?_map] at hg
    cases hp : programs[i]? with
    | none => simp [hp] at hg
    | some prog =>
      simp only [hp, Option.map_some', Option.some.injEq] at hg
      rw [← hg]
      exact ⟨Or.inl rfl, hone i prog hp hi⟩
  · intro g l item hg hpc
    simp only [Machine.start, List.getElem?_map] at hg
    cases hp : programs[f]? with
    | none => simp [hp] at hg
    | some prog =>
      simp only [hp, Option.map_some', Option.some.injEq] at hg
      rw [← hg] at hpc
      cases hpc

theorem machine_step_inv {m m1 : Machine} {i : Nat} (hstep : m.step i = some m1) :
    ∃ g g1, m.goroutines[i]? = some g ∧ g.step m.reg = some (g1, m1.reg) ∧
      m1.goroutines = m.goroutines.set i g1 := by
  simp only [Machine.step] at hstep
  cases hgi : m.goroutines[i]? with
  | none => simp [hgi] at hstep
  | some g =>
    rw [hgi] at hstep
    simp only at hstep
    cases hgs : g.step m.reg with
    | none => simp [hgs] at hstep
    | some res =>
      obtain ⟨g1, r1⟩ := res
      rw [hgs] at hstep
      simp only [Option.some.injEq] at hstep
      subst hstep
      exact ⟨g, g1, rfl, hgs, rfl⟩

theorem onePutter_step {f : Nat} {m m1 : Machine} {i : Nat} (h : m.OnePutter f)
    (hstep : m.step i = some m1) : m1.OnePutter f := by
  obtain ⟨g, g1, hgi, hgs, hset⟩ := machine_step_inv hstep
  obtain ⟨hwf, hothers, hitem⟩ := h
  obtain ⟨hwf1, hnew⟩ := goroutine_step_wellFormed hwf hgs
  refine ⟨hwf1, ?_, ?_⟩
  · intro j a ha hj
    rw [hset] at ha
    rcases getElem?_set_cases ha with ⟨e1, e2⟩ | ⟨_, e2⟩
    · subst e1 e2
      exact (takeOnly_goroutine_step (hothers j g hgi hj) hwf hgs).1
    · exact hothers j a e2 hj
  · intro a l item ha hpc
    rw [hset] at ha
    rcases getElem?_set_cases ha with ⟨e1, e2⟩ | ⟨e1, e2⟩
    · subst e2
      exact hnew l item hpc
    · have hold := hitem a l item e2 hpc
      rcases goroutine_step_order hgs l item hold with hkeep | ⟨_, item1, hpc1, _⟩
      · exact hkeep
      · exact absurd hpc1 (takeOnly_pc_ne_putLocked (hothers i g hgi (fun e => e1 e.symm)) l item1)

theorem onePutter_run {f : Nat} (sched : List Nat) (m m1 : Machine) (h : m.OnePutter f)
    (hrun : m.run sched = some m1) : m1.OnePutter f := by
  induction sched generalizing m with
  | nil =>
    simp only [Machine.run, Option.some.injEq] at hrun
    subst hrun
    exact h
  | cons i sched ih =>
    simp only [Machine.run] at hrun
    cases hstep : m.step i with
    | none => simp [hstep] at hrun
    | some m2 =>
      rw [hstep] at hrun
      exact ih m2 (onePutter_step h hstep) hrun

/-- A phase of a goroutine never changes the id of an allocated item. -/
theorem goroutine_step_items_id {g g1 : Goroutine} {r r1 : PtrRegistry}
    (hstep : g.step r = some (g1, r1)) (q : Ptr) (hq : q < r.allocated) :
    (r1.items q).id = (r.items q).id := by
  have hset : ∀ p rc, ((r.setRefcount p rc).items q).id = (r.items q).id := by
    intro p rc
    simp only [PtrRegistry.setRefcount]
    by_cases e : q = p
    · simp only [e, if_true]
    · simp only [e, if_false]
  have htw : ∀ l, ((takeWrite l r).items q).id = (r.items q).id := by
    intro l
    cases hl : r.order l with
    | some p =>
      simp only [takeWrite, hl]
      exact hset p _
    | none =>
      have hne : q ≠ r.allocated := Nat.ne_of_lt hq
      simp only [takeWrite, hl, hne, if_false]
  obtain ⟨pc, todo⟩ := g
  cases pc with
  | faulted => simp [Goroutine.step] at hstep
  | takeLocked l =>
    simp only [Goroutine.step, Option.some.injEq, Prod.mk.injEq] at hstep
    rw [← hstep.2]
    exact htw l
  | putLocked l item =>
    simp only [Goroutine.step, Option.some.injEq, Prod.mk.injEq] at hstep
    rw [← hstep.2]
    unfold putWrite
    split <;> rfl
  | idle =>
    cases todo with
    | nil => simp [Goroutine.step] at hstep
    | cons op rest =>
      cases op with
      | take l =>
        have hr : ((takeRead l r).1.items q).id = (r.items q).id := by
          unfold takeRead
          cases hl : r.order l with
          | none => rfl
          | some p => exact hset p _
        cases hres : takeRead l r with
        | mk r2 b =>
          rw [hres] at hr
          cases b <;>
          · simp only [Goroutine.step, hres, Option.some.injEq, Prod.mk.injEq] at hstep
            rw [← hstep.2]
            exact hr
      | put l =>
        cases hres : putRead l r with
        | error e =>
          simp only [Goroutine.step, hres, Option.some.injEq, Prod.mk.injEq] at hstep
          rw [← hstep.2]
        | ok val =>
          obtain ⟨r2, res⟩ := val
          have hr : (r2.items q).id = (r.items q).id := by
            cases hl : r.order l with
            | none =>
              simp only [putRead, hl] at hres
              cases hres
            | some p =>
              simp only [putRead, hl] at hres
              split at hres
              · simp only [Except.ok.injEq, Prod.mk.injEq] at hres
                rw [← hres.1]
                exact hset p _
              · simp only [Except.ok.injEq, Prod.mk.injEq] at hres
                rw [← hres.1]
                exact hset p _
          cases res <;>
          · simp only [Goroutine.step, hres, Option.some.injEq, Prod.mk.injEq] at hstep
            rw [← hstep.2]
            exact hr

/-! ## Goroutines that lock and unlock: no deadlock under a common ranking -/

theorem rank_lt_of_mem_take (rank : Locker → Nat) :
    ∀ (list : List Locker) (n : Nat) (l0 a : Locker),
      list.Pairwise (fun a b => rank a < rank b) → list[n]? = some l0 → a ∈ list.take n →
      rank a < rank l0 := by
  intro list
  induction list with
  | nil =>
    intro n l0 a _ h _
    simp at h
  | cons x xs ih =>
    intro n l0 a hp hn ha
    cases n with
    | zero => simp at ha
    | succ n =>
      rw [List.take_succ_cons] at ha
      rw [List.getElem?_cons_succ] at hn
      rw [List.pairwise_cons] at hp
      rcases List.mem_cons.1 ha with e | hmem
      · rw [e]
        exact hp.1 l0 (List.getElem?_mem hn)
      · exact ih n l0 a hp.2 hn hmem

theorem mem_take_succ_iff {list : List Locker} {n : Nat} {l0 : Locker} (h : list[n]? = some l0)
    (l : Locker) : l ∈ list.take (n + 1) ↔ l ∈ list.take n ∨ l = l0 := by
  rw [List.take_succ, h]
  simp only [Option.toList, List.mem_append, List.mem_singleton]

theorem lockState_step_inv {s s1 : LockState} {i : Nat} (hstep : s.step i = some s1) :
    ∃ w w1, s.workers[i]? = some w ∧ w.step i s.owner = some (w1, s1.owner) ∧
      s1.workers = s.workers.set i w1 := by
  simp only [LockState.step] at hstep
  cases hwi : s.workers[i]? with
  | none => simp [hwi] at hstep
  | some w =>
    rw [hwi] at hstep
    simp only at hstep
    cases hws : w.step i s.owner with
    | none => simp [hws] at hstep
    | some res =>
      obtain ⟨w1, o1⟩ := res
      rw [hws] at hstep
      simp only [Option.some.injEq] at hstep
      subst hstep
      exact ⟨w, w1, rfl, hws, rfl⟩

/-- Replacing goroutine `i` and the owner map keeps the account of who holds
what, when the new map agrees with the new goroutine `i` and is unchanged for
the others. -/
theorem owner_account_set {owner owner1 : Locker → Option Nat} {ws : List Worker} {i : Nat}
    {w w1 : Worker} (hw : ws[i]? = some w)
    (hb : ∀ (l : Locker) (j : Nat), owner l = some j ↔ ∃ v : Worker, ws[j]? = some v ∧ l ∈ v.held)
    (hi : ∀ l, owner1 l = some i ↔ l ∈ w1.held)
    (ho : ∀ l j, j ≠ i → (owner1 l = some j ↔ owner l = some j)) :
    ∀ (l : Locker) (j : Nat), owner1 l = some j ↔
      ∃ v : Worker, (ws.set i w1)[j]? = some v ∧ l ∈ v.held := by
  intro l j
  have hlen : i < ws.length := (List.getElem?_eq_some.1 hw).1
  by_cases hj : j = i
  · subst hj
    rw [List.getElem?_set_self hlen, hi l]
    constructor
    · intro h
      exact ⟨w1, rfl, h⟩
    · rintro ⟨v, hv, hl⟩
      simp only [Option.some.injEq] at hv
      rw [hv]
      exact hl
  · rw [List.getElem?_set_ne (fun e => hj e.symm), ho l j hj]
    exact hb l j

theorem ordered_start (rank : Locker → Nat) (jobs : List (List Job))
    (h : ∀ js ∈ jobs, ∀ job ∈ js, job.list.Pairwise (fun a b => rank a < rank b)) :
    (LockState.start jobs).Ordered rank := by
  constructor
  · intro i w hw
    simp only [LockState.start, List.getElem?_map] at hw
    cases hj : jobs[i]? with
    | none => simp [hj] at hw
    | some js =>
      simp only [hj, Option.map_some', Option.some.injEq] at hw
      rw [← hw]
      exact ⟨Nat.le_refl _, List.Pairwise.nil, h js (List.getElem?_mem hj)⟩
  · intro l j
    constructor
    · intro h
      simp [LockState.start] at h
    · rintro ⟨w, hw, hl⟩
      simp only [LockState.start, List.getElem?_map] at hw
      cases hj : jobs[j]? with
      | none => simp [hj] at hw
      | some js =>
        simp only [hj, Option.map_some', Option.some.injEq] at hw
        rw [← hw] at hl
        simp [Worker.held, Worker.start] at hl

theorem ordered_step {rank : Locker → Nat} {s s1 : LockState} {i : Nat} (h : s.Ordered rank)
    (hstep : s.step i = some s1) : s1.Ordered rank := by
  obtain ⟨w, w1, hwi, hws, hset⟩ := lockState_step_inv hstep
  obtain ⟨ha, hb⟩ := h
  obtain ⟨hpc, hsorted, hlater⟩ := ha i w hwi
  -- the shape of the new goroutine and the new owner map
  have hnew : (w1.pc ≤ w1.list.length ∧ w1.list.Pairwise (fun a b => rank a < rank b) ∧
      ∀ job ∈ w1.later, job.list.Pairwise (fun a b => rank a < rank b)) ∧
      (∀ l, s1.owner l = some i ↔ l ∈ w1.held) ∧
      (∀ l j, j ≠ i → (s1.owner l = some j ↔ s.owner l = some j)) := by
    have hself : ∀ l, s.owner l = some i ↔ l ∈ w.held := by
      intro l
      rw [hb l i]
      constructor
      · rintro ⟨v, hv, hl⟩
        rw [hwi] at hv
        simp only [Option.some.injEq] at hv
        rw [hv]
        exact hl
      · intro hl
        exact ⟨w, hwi, hl⟩
    obtain ⟨list, pc, releasing, later⟩ := w
    simp only at hpc hsorted hlater
    simp only [Worker.held] at hself
    cases releasing with
    | true =>
      cases pc with
      | zero =>
        cases later with
        | nil => simp [Worker.step] at hws
        | cons job later =>
          simp only [Worker.step, if_true, Option.some.injEq, Prod.mk.injEq] at hws
          obtain ⟨e1, e2⟩ := hws
          rw [← e1, ← e2]
          refine ⟨⟨Nat.zero_le _, hlater job (List.mem_cons_self _ _),
            fun j hj => hlater j (List.mem_cons_of_mem _ hj)⟩, ?_, fun l j _ => Iff.rfl⟩
          intro l
          rw [hself l]
          simp [Worker.held]
      | succ n =>
        cases hn : list[n]? with
        | none => simp [Worker.step, hn] at hws
        | some l0 =>
          cases ho : s.owner l0 with
          | none => simp [Worker.step, hn, ho] at hws
          | some j0 =>
            simp only [Worker.step, if_true, hn, ho, Option.some.injEq, Prod.mk.injEq] at hws
            obtain ⟨e1, e2⟩ := hws
            rw [← e1, ← e2]
            have hmem := mem_take_succ_iff hn
            have hnot : l0 ∉ list.take n := by
              intro hin
              exact Nat.lt_irrefl _ (rank_lt_of_mem_take rank list n l0 l0 hsorted hn hin)
            have hown : s.owner l0 = some i := (hself l0).2 ((hmem l0).2 (Or.inr rfl))
            refine ⟨⟨Nat.le_of_succ_le hpc, hsorted, hlater⟩, ?_, ?_⟩
            · intro l
              simp only [Worker.held]
              by_cases hl : l = l0
              · subst hl
                simp only [if_true]
                constructor
                · intro h
                  cases h
                · intro h
                  exact absurd h hnot
              · simp only [hl, if_false]
                rw [hself l, hmem l]
                constructor
                · rintro (h | h)
                  · exact h
                  · exact absurd h hl
                · intro h
                  exact Or.inl h
            · intro l j hj
              by_cases hl : l = l0
              · subst hl
                simp only [if_true]
                constructor
                · intro h
                  cases h
                · intro h
                  rw [hown] at h
                  simp only [Option.some.injEq] at h
                  exact absurd h.symm hj
              · simp only [hl, if_false]
    | false =>
      cases hn : list[pc]? with
      | none =>
        simp only [Worker.step, Bool.false_eq_true, if_false, hn, Option.some.injEq,
          Prod.mk.injEq] at hws
        obtain ⟨e1, e2⟩ := hws
        rw [← e1, ← e2]
        refine ⟨⟨Nat.le_refl _, hsorted, hlater⟩, ?_, fun l j _ => Iff.rfl⟩
        intro l
        rw [hself l]
        have hge : list.length ≤ pc := List.getElem?_eq_none_iff.1 hn
        simp only [Worker.held, List.take_length, List.take_of_length_le hge]
      | some l0 =>
        cases ho : s.owner l0 with
        | some j0 => simp [Worker.step, hn, ho] at hws
        | none =>
          simp only [Worker.step, Bool.false_eq_true, if_false, hn, ho, Option.some.injEq,
            Prod.mk.injEq] at hws
          obtain ⟨e1, e2⟩ := hws
          rw [← e1, ← e2]
          have hmem := mem_take_succ_iff hn
          have hlt : pc < list.length := (List.getElem?_eq_some.1 hn).1
          refine ⟨⟨hlt, hsorted, hlater⟩, ?_, ?_⟩
          · intro l
            simp only [Worker.held]
            by_cases hl : l = l0
            · subst hl
              simp only [if_true, true_iff]
              exact (hmem l).2 (Or.inr rfl)
            · simp only [hl, if_false]
              rw [hself l, hmem l]
              constructor
              · intro h
                exact Or.inl h
              · rintro (h | h)
                · exact h
                · exact absurd h hl
          · intro l j hj
            by_cases hl : l = l0
            · subst hl
              simp only [if_true, ho, Option.some.injEq]
              constructor
              · intro h
                exact absurd h.symm hj
              · intro h
                cases h
            · simp only [hl, if_false]
  obtain ⟨hshape, hi, ho⟩ := hnew
  constructor
  · intro j v hv
    rw [hset] at hv
    rcases getElem?_set_cases hv with ⟨_, e2⟩ | ⟨_, e2⟩
    · rw [e2]
      exact hshape
    · exact ha j v e2
  · rw [hset]
    exact owner_account_set hwi hb hi ho

theorem ordered_run {rank : Locker → Nat} (sched : List Nat) (s s1 : LockState)
    (h : s.Ordered rank) (hrun : s.run sched = some s1) : s1.Ordered rank := by
  induction sched generalizing s with
  | nil =>
    simp only [LockState.run, Option.some.injEq] at hrun
    subst hrun
    exact h
  | cons i sched ih =>
    simp only [LockState.run] at hrun
    cases hstep : s.step i with
    | none => simp [hstep] at hrun
    | some s2 =>
      rw [hstep] at hrun
      exact ih s2 (ordered_step h hstep) hrun

theorem worker_wants_some {w : Worker} {l : Locker} (h : w.wants = some l) :
    w.releasing = false ∧ w.list[w.pc]? = some l := by
  unfold Worker.wants at h
  cases hr : w.releasing with
  | true => simp [hr] at h
  | false =>
    simp only [hr, Bool.false_eq_true, if_false] at h
    exact ⟨rfl, h⟩

theorem blocked_iff {s : LockState} {w : Worker} (h : s.blocked w = true) :
    ∃ l j, w.releasing = false ∧ w.list[w.pc]? = some l ∧ s.owner l = some j := by
  unfold LockState.blocked at h
  cases hw : w.wants with
  | none => simp [hw] at h
  | some l =>
    simp only [hw] at h
    obtain ⟨hr, hl⟩ := worker_wants_some hw
    cases ho : s.owner l with
    | none => simp [ho] at h
    | some j => exact ⟨l, j, hr, hl, ho⟩

theorem finished_false_of_not_releasing {w : Worker} (h : w.releasing = false) :
    w.finished = false := by
  simp [Worker.finished, h]

theorem finished_false_of_held {w : Worker} {l : Locker} (h : l ∈ w.held) :
    w.finished = false := by
  unfold Worker.held at h
  cases hpc : w.pc with
  | zero => simp [hpc] at h
  | succ n => simp [Worker.finished, hpc]

/-- Under a common ranking there is no deadlock. -/
theorem ordered_not_deadlocked {rank : Locker → Nat} {s : LockState} (h : s.Ordered rank) :
    ¬ s.Deadlocked := by
  rintro ⟨⟨w0, hw0, hf0⟩, hall⟩
  obtain ⟨ha, hb⟩ := h
  -- the rank of the handle a goroutine waits for, plus one
  let score : Nat → Nat := fun i =>
    match s.workers[i]? with
    | some w =>
        match w.wants with
        | some l => rank l + 1
        | none => 0
    | none => 0
  have hscore : ∀ i w l, s.workers[i]? = some w → w.list[w.pc]? = some l →
      w.releasing = false → score i = rank l + 1 := by
    intro i w l hw hl hr
    have hwants : w.wants = some l := by
      simp [Worker.wants, hr, hl]
    simp only [score, hw, hwants]
  obtain ⟨i0, hi0⟩ := List.getElem?_of_mem hw0
  have hlt0 : i0 < s.workers.length := (List.getElem?_eq_some.1 hi0).1
  obtain ⟨m, hm, hmax⟩ := Finset.exists_max_image (Finset.range s.workers.length) score
    ⟨i0, Finset.mem_range.2 hlt0⟩
  obtain ⟨l0, j0, hr0, hl0, _⟩ := blocked_iff (hall w0 hw0 hf0)
  have hs0 := hscore i0 w0 l0 hi0 hl0 hr0
  have hpos : 1 ≤ score m := by
    have := hmax i0 (Finset.mem_range.2 hlt0)
    omega
  -- goroutine `m` waits for a handle
  cases hwm : s.workers[m]? with
  | none =>
    simp only [score, hwm] at hpos
    omega
  | some wm =>
    cases hwants : wm.wants with
    | none =>
      simp only [score, hwm, hwants] at hpos
      omega
    | some lm =>
      obtain ⟨hrm, hlm⟩ := worker_wants_some hwants
      have hsm := hscore m wm lm hwm hlm hrm
      obtain ⟨l1, j, _, hl1, hown⟩ :=
        blocked_iff (hall wm (List.getElem?_mem hwm) (finished_false_of_not_releasing hrm))
      rw [hlm] at hl1
      simp only [Option.some.injEq] at hl1
      subst hl1
      -- the holder of that handle waits for a handle of higher rank
      obtain ⟨wj, hwj, hheld⟩ := (hb lm j).1 hown
      obtain ⟨lj, _, hrj, hlj, _⟩ :=
        blocked_iff (hall wj (List.getElem?_mem hwj) (finished_false_of_held hheld))
      have hrank := rank_lt_of_mem_take rank wj.list wj.pc lj lm (ha j wj hwj).2.1 hlj hheld
      have hsj := hscore j wj lj hwj hlj hrj
      have hltj : j < s.workers.length := (List.getElem?_eq_some.1 hwj).1
      have := hmax j (Finset.mem_range.2 hltj)
      omega

/-- Under a common ranking, a goroutine that has not completed its cycles and is
not blocked can take its next step. -/
theorem ordered_step_enabled {rank : Locker → Nat} {s : LockState} (h : s.Ordered rank)
    {i : Nat} {w : Worker} (hw : s.workers[i]? = some w) (hf : w.finished = false)
    (hnb : s.blocked w = false) : ∃ s1, s.step i = some s1 := by
  obtain ⟨ha, hb⟩ := h
  obtain ⟨hpc, _, _⟩ := ha i w hw
  have hheld : ∀ l, l ∈ w.held → s.owner l = some i := fun l hl => (hb l i).2 ⟨w, hw, hl⟩
  have hsome : (w.step i s.owner).isSome = true := by
    obtain ⟨list, pc, releasing, later⟩ := w
    simp only at hpc
    cases releasing with
    | true =>
      cases pc with
      | zero =>
        cases later with
        | nil => simp [Worker.finished] at hf
        | cons job later => simp only [Worker.step, if_true, Option.isSome_some]
      | succ n =>
        have hn : n < list.length := hpc
        have hget : list[n]? = some (list.get ⟨n, hn⟩) := List.getElem?_eq_getElem hn
        have hown := hheld (list.get ⟨n, hn⟩) ((mem_take_succ_iff hget _).2 (Or.inr rfl))
        simp only [Worker.step, if_true, hget, hown, Option.isSome_some]
    | false =>
      cases hn : list[pc]? with
      | none => simp only [Worker.step, Bool.false_eq_true, if_false, hn, Option.isSome_some]
      | some l0 =>
        cases ho : s.owner l0 with
        | none =>
          simp only [Worker.step, Bool.false_eq_true, if_false, hn, ho, Option.isSome_some]
        | some j0 =>
          simp [LockState.blocked, Worker.wants, hn, ho] at hnb
  obtain ⟨⟨w1, o1⟩, hres⟩ := Option.isSome_iff_exists.1 hsome
  exact ⟨⟨o1, s.workers.set i w1⟩, by simp only [LockState.step, hw, hres]⟩

/-- Under a common ranking some goroutine can take a step, unless all have
completed their cycles. -/
theorem ordered_progress {rank : Locker → Nat} {s : LockState} (h : s.Ordered rank)
    (hex : ∃ w ∈ s.workers, w.finished = false) : ∃ i s1, s.step i = some s1 := by
  have hnd := ordered_not_deadlocked h
  unfold LockState.Deadlocked at hnd
  simp only [not_and, not_forall] at hnd
  obtain ⟨w, hw, hf, hnb⟩ := hnd hex
  obtain ⟨i, hi⟩ := List.getElem?_of_mem hw
  have hnb1 : s.blocked w = false := by
    cases hbw : s.blocked w with
    | true => exact absurd hbw hnb
    | false => rfl
  exact ⟨i, ordered_step_enabled h hi hf hnb1⟩

/-! ## The lists of live multilockers are strictly increasing in id -/

theorem live_strictly_sorted {n : Nat} {w : World} (hinv : WorldInvariant n w) {t : T}
    (ht : t ∈ w.live) (hnd : t.list.Nodup) :
    t.list.Pairwise (fun a b => idOf w.reg a < idOf w.reg b) := by
  obtain ⟨hT, hacc, hsorted⟩ := hinv
  have present : ∀ x, x ∈ t.list → ∃ item, w.reg.order x = some item := by
    intro x hx
    have hpos := (occurrences_pos_iff w x).2 ⟨t, ht, hx⟩
    cases hx1 : w.reg.order x with
    | none =>
      have := (hacc x).2.2.1 hx1
      omega
    | some item => exact ⟨item, rfl⟩
  refine List.Pairwise.imp_of_mem ?_ ((hsorted t ht).and hnd)
  intro a b ha hb hab
  obtain ⟨hle, hne⟩ := hab
  obtain ⟨ia, hia⟩ := present a ha
  obtain ⟨ib, hib⟩ := present b hb
  have hid : idOf w.reg a ≠ idOf w.reg b := by
    intro e
    simp only [idOf, hia, hib] at e
    exact hne (hT.2.2 a b ia ib hia hib e)
  omega

/-! ## Every schedule can be completed -/

theorem worker_step_work {w w1 : Worker} {i : Nat} {owner owner1 : Locker → Option Nat}
    (hpc : w.pc ≤ w.list.length) (h : w.step i owner = some (w1, owner1)) :
    w1.work + 1 = w.work := by
  obtain ⟨list, pc, releasing, later⟩ := w
  simp only at hpc
  cases releasing with
  | true =>
    cases pc with
    | zero =>
      cases later with
      | nil => simp [Worker.step] at h
      | cons job later =>
        simp only [Worker.step, if_true, Option.some.injEq, Prod.mk.injEq] at h
        rw [← h.1]
        simp only [Worker.work, Bool.false_eq_true, if_false, if_true, List.map_cons,
          List.sum_cons]
        omega
    | succ n =>
      cases hn : list[n]? with
      | none => simp [Worker.step, hn] at h
      | some l0 =>
        cases ho : owner l0 with
        | none => simp [Worker.step, hn, ho] at h
        | some j0 =>
          simp only [Worker.step, if_true, hn, ho, Option.some.injEq, Prod.mk.injEq] at h
          rw [← h.1]
          simp only [Worker.work, if_true]
          omega
  | false =>
    cases hn : list[pc]? with
    | none =>
      simp only [Worker.step, Bool.false_eq_true, if_false, hn, Option.some.injEq,
        Prod.mk.injEq] at h
      rw [← h.1]
      have hge : list.length ≤ pc := List.getElem?_eq_none_iff.1 hn
      have hsub : list.length - pc = 0 := Nat.sub_eq_zero_of_le hge
      simp only [Worker.work, Bool.false_eq_true, if_false, if_true, hsub]
      omega
    | some l0 =>
      cases ho : owner l0 with
      | some j0 => simp [Worker.step, hn, ho] at h
      | none =>
        simp only [Worker.step, Bool.false_eq_true, if_false, hn, ho, Option.some.injEq,
          Prod.mk.injEq] at h
        rw [← h.1]
        have hlt : pc < list.length := (List.getElem?_eq_some.1 hn).1
        simp only [Worker.work, Bool.false_eq_true, if_false]
        omega

theorem lockState_step_work {rank : Locker → Nat} {s s1 : LockState} {i : Nat}
    (h : s.Ordered rank) (hstep : s.step i = some s1) : s1.work + 1 = s.work := by
  obtain ⟨w, w1, hwi, hws, hset⟩ := lockState_step_inv hstep
  have hw := worker_step_work (h.1 i w hwi).1 hws
  have hsum := sum_map_set Worker.work s.workers i w w1 hwi
  simp only [LockState.work, hset]
  omega

theorem work_zero_finished {s : LockState} (h : s.work = 0) :
    ∀ w ∈ s.workers, w.finished = true := by
  intro w hw
  by_contra hf
  have hpos : 1 ≤ w.work := by
    obtain ⟨list, pc, releasing, later⟩ := w
    cases releasing with
    | false =>
      simp only [Worker.work, Bool.false_eq_true, if_false]
      omega
    | true =>
      cases pc with
      | succ n =>
        simp only [Worker.work, if_true]
        omega
      | zero =>
        cases later with
        | nil => simp [Worker.finished] at hf
        | cons job later =>
          simp only [Worker.work, if_true, List.map_cons, List.sum_cons]
          omega
  have hle : w.work ≤ s.work := by
    unfold LockState.work
    exact List.single_le_sum (fun _ _ => Nat.zero_le _) _ (List.mem_map_of_mem _ hw)
  omega

/-- Under a common ranking every state can be continued until all goroutines
have completed their cycles. -/
theorem ordered_completes {rank : Locker → Nat} (n : Nat) :
    ∀ s : LockState, s.Ordered rank → s.work = n →
      ∃ sched s1, s.run sched = some s1 ∧ ∀ w ∈ s1.workers, w.finished = true := by
  induction n with
  | zero =>
    intro s _ h0
    exact ⟨[], s, rfl, work_zero_finished h0⟩
  | succ n ih =>
    intro s h hn
    by_cases hall : ∀ w ∈ s.workers, w.finished = true
    · exact ⟨[], s, rfl, hall⟩
    · simp only [not_forall] at hall
      obtain ⟨w, hw, hf⟩ := hall
      have hf1 : w.finished = false := by
        cases hfw : w.finished with
        | true => exact absurd hfw hf
        | false => rfl
      obtain ⟨i, s1, hstep⟩ := ordered_progress h ⟨w, hw, hf1⟩
      have hwork := lockState_step_work h hstep
      obtain ⟨sched, s2, hrun, hfin⟩ := ih s1 (ordered_step h hstep) (by omega)
      exact ⟨i :: sched, s2, by simp only [LockState.run, hstep, hrun], hfin⟩

/-! ## A world in which two live multilockers walk two handles in opposite orders -/

theorem world_run_opposite_orders :
    World.init.run (Op.construct [0] :: (constructDisposeCycles [1] 4294967295 ++
        [Op.construct [1, 0], Op.construct [0, 1]]))
      = some ⟨(New [0, 1] (New [1, 0] wrappedRegistry).2).2, [⟨[0, 1]⟩, ⟨[1, 0]⟩, ⟨[0]⟩]⟩ := by
  have h1 := world_run_constructDisposeCycles 1 4294967295
    ⟨take 0 emptyRegistry, [⟨[0]⟩]⟩ rfl (by decide)
  have h2 : (⟨(1 + 4294967295) % uint32Size, (take 0 emptyRegistry).order⟩ : Registry)
      = wrappedRegistry := Registry.eq_of rfl (fun k => by
        by_cases hk : k = 0
        · subst hk; rfl
        · rw [take_order_ne _ hk]
          simp only [wrappedRegistry, hk, if_false]
          rfl)
  have h3 : (take 0 emptyRegistry).nextOrderID = 1 := rfl
  rw [h3, h2] at h1
  rw [world_run_cons]
  show (some (World.mk (take 0 emptyRegistry) [⟨[0]⟩])).bind _ = _
  rw [Option.some_bind, world_run_append, h1]
  rfl

/-! ## The program with its memory and its lists view -/

theorem map_eraseIdx' {α β : Type} (f : α → β) :
    ∀ (L : List α) (i : Nat), (L.eraseIdx i).map f = (L.map f).eraseIdx i := by
  intro L
  induction L with
  | nil => intro i; rfl
  | cons a L ih =>
    intro i
    cases i with
    | zero => rfl
    | succ i =>
      simp only [List.eraseIdx_cons_succ, List.map_cons]
      rw [ih i]

theorem read_length (h : Heap) (sl : Slice) (h1 : sl.lo ≤ sl.hi)
    (h2 : sl.hi ≤ (h.arrays sl.array).length) : (h.read sl).length = sl.hi - sl.lo := by
  simp only [Heap.read, List.length_take, List.length_drop]
  omega

theorem read_writeAt (arr xs : List Locker) (lo hi : Nat) (h1 : lo ≤ hi) (h2 : hi ≤ arr.length)
    (hx : xs.length = hi - lo) : ((writeAt arr lo xs).drop lo).take (hi - lo) = xs := by
  unfold writeAt
  have hlen : (arr.take lo).length = lo := by
    rw [List.length_take]
    omega
  rw [List.append_assoc, List.drop_left' hlen, List.take_left' hx]

/-- A `New` call on a slice whose backing array holds the list of no live
multilocker is a construction in the lists view. -/
theorem callNew_view (h : Heap) (sl : Slice) (h1 : sl.lo ≤ sl.hi)
    (h2 : sl.hi ≤ (h.arrays sl.array).length)
    (hown : ∀ sl1 ∈ h.live, sl1.array ≠ sl.array) :
    h.view.step (Op.construct (h.read sl)) = some (h.callNew sl).view ∧
    (h.callNew sl).allocated = h.allocated ∧
    (∀ s ∈ (h.callNew sl).live, s = sl ∨ s ∈ h.live) := by
  cases hnew : New (h.read sl) h.reg with
  | mk res r =>
    cases res with
    | error e =>
      have hview : h.view.step (Op.construct (h.read sl)) = some ⟨r, h.view.live⟩ := by
        simp only [World.step, Heap.view, hnew]
      refine ⟨?_, ?_, ?_⟩
      · rw [hview]
        simp only [Heap.callNew, hnew, Heap.view]
        rfl
      · simp only [Heap.callNew, hnew]
      · intro s hs
        simp only [Heap.callNew, hnew] at hs
        exact Or.inr hs
    | ok t =>
      have hne : h.read sl ≠ [] := by
        intro e
        simp [New, e] at hnew
      obtain ⟨list, hspec, hperm, _⟩ := New_spec (h.read sl) h.reg hne
      rw [hnew] at hspec
      simp only [Prod.mk.injEq, Except.ok.injEq] at hspec
      have hlen : t.list.length = sl.hi - sl.lo := by
        rw [hspec.1]
        simp only
        rw [hperm.length_eq, read_length h sl h1 h2]
      have hview : h.view.step (Op.construct (h.read sl)) = some ⟨r, t :: h.view.live⟩ := by
        simp only [World.step, Heap.view, hnew]
      refine ⟨?_, ?_, ?_⟩
      · rw [hview]
        simp only [Heap.callNew, hnew, Heap.view, List.map_cons]
        congr 2
        congr 1
        · simp only [Heap.read, if_true]
          rw [read_writeAt _ _ _ _ h1 h2 hlen]
        · apply List.map_congr_left
          intro s hs
          have hsa := hown s hs
          simp only [Heap.read, hsa, if_false]
      · simp only [Heap.callNew, hnew]
      · intro s hs
        simp only [Heap.callNew, hnew, List.mem_cons] at hs
        exact hs

theorem alloc_view (h : Heap) (hf : h.Fresh) (lockers : List Locker) :
    (h.alloc lockers).view = h.view ∧ (h.alloc lockers).Fresh ∧
    (h.alloc lockers).read ⟨h.allocated, 0, lockers.length⟩ = lockers ∧
    (h.alloc lockers).allocated = h.allocated + 1 ∧ (h.alloc lockers).live = h.live ∧
    (h.alloc lockers).reg = h.reg := by
  refine ⟨?_, ?_, ?_, rfl, rfl, rfl⟩
  · simp only [Heap.view, Heap.alloc]
    congr 1
    apply List.map_congr_left
    intro s hs
    have hlt := hf s hs
    have hne : s.array ≠ h.allocated := Nat.ne_of_lt hlt
    simp only [Heap.read, hne, if_false]
  · intro s hs
    exact Nat.lt_succ_of_lt (hf s hs)
  · simp only [Heap.read, Heap.alloc, if_true, List.drop_zero, Nat.sub_zero, List.take_length]

/-- The statement `New(a, b, c)` is a construction in the lists view. -/
theorem heap_step_newOf (h : Heap) (hf : h.Fresh) (lockers : List Locker) :
    ∃ h1, h.step (Stmt.newOf lockers) = some h1 ∧
      h.view.step (Op.construct lockers) = some h1.view ∧ h1.Fresh := by
  obtain ⟨hv, hfa, hread, hall, hlive, _⟩ := alloc_view h hf lockers
  have hown : ∀ sl1 ∈ (h.alloc lockers).live,
      sl1.array ≠ (⟨h.allocated, 0, lockers.length⟩ : Slice).array := by
    intro s hs
    rw [hlive] at hs
    exact Nat.ne_of_lt (hf s hs)
  have hb : (⟨h.allocated, 0, lockers.length⟩ : Slice).hi
      ≤ ((h.alloc lockers).arrays (⟨h.allocated, 0, lockers.length⟩ : Slice).array).length := by
    simp only [Heap.alloc, if_true]
    exact Nat.le_refl _
  obtain ⟨c1, c2, c3⟩ := callNew_view (h.alloc lockers) ⟨h.allocated, 0, lockers.length⟩
    (Nat.zero_le _) hb hown
  refine ⟨_, rfl, ?_, ?_⟩
  · rw [hread, hv] at c1
    exact c1
  · intro s hs
    rw [c2, hall]
    rcases c3 s hs with e | hmem
    · rw [e]
      exact Nat.lt_succ_self _
    · rw [hlive] at hmem
      exact Nat.lt_succ_of_lt (hf s hmem)

/-- The statement `New(buf[lo:hi]...)` on a backing array that holds the list of
no live multilocker is a construction in the lists view. -/
theorem heap_step_newSlice {h h1 : Heap} {sl : Slice} (hf : h.Fresh)
    (hown : (Stmt.newSlice sl).ownArray h = true) (hstep : h.step (Stmt.newSlice sl) = some h1) :
    h.view.step (Op.construct (h.read sl)) = some h1.view ∧ h1.Fresh ∧
    (h.read sl).length = sl.hi - sl.lo := by
  simp only [Heap.step] at hstep
  split at hstep
  · rename_i hb
    simp only [Option.some.injEq] at hstep
    subst hstep
    have hown1 : ∀ sl1 ∈ h.live, sl1.array ≠ sl.array := by
      simp only [Stmt.ownArray, List.all_eq_true, decide_eq_true_eq] at hown
      exact hown
    obtain ⟨c1, c2, c3⟩ := callNew_view h sl hb.2.1 hb.2.2 hown1
    refine ⟨c1, ?_, read_length h sl hb.2.1 hb.2.2⟩
    intro s hs
    rw [c2]
    rcases c3 s hs with e | hmem
    · rw [e]
      exact hb.1
    · exact hf s hmem
  · cases hstep

/-- The statements `buf := ...` and `buf[i] = l`, the latter on a backing array
that holds the list of no live multilocker, change nothing in the lists view. -/
theorem heap_step_make_store {h h1 : Heap} {st : Stmt} (hf : h.Fresh)
    (hkind : (∃ lockers, st = Stmt.make lockers) ∨ ∃ a i l, st = Stmt.store a i l)
    (hown : st.ownArray h = true) (hstep : h.step st = some h1) :
    h1.view = h.view ∧ h1.Fresh := by
  rcases hkind with ⟨lockers, e⟩ | ⟨a, i, l, e⟩
  · subst e
    simp only [Heap.step, Option.some.injEq] at hstep
    subst hstep
    obtain ⟨hv, hfa, _⟩ := alloc_view h hf lockers
    exact ⟨hv, hfa⟩
  · subst e
    simp only [Heap.step] at hstep
    split at hstep
    · simp only [Option.some.injEq] at hstep
      subst hstep
      simp only [Stmt.ownArray, List.all_eq_true, decide_eq_true_eq] at hown
      refine ⟨?_, hf⟩
      simp only [Heap.view]
      congr 1
      apply List.map_congr_left
      intro s hs
      have hne := hown s hs
      simp only [Heap.read, hne, if_false]
    · cases hstep

/-- The statement `finalize i` is the disposal number `i` in the lists view. -/
theorem heap_step_finalize (h : Heap) (i : Nat) :
    (h.step (Stmt.finalize i)).map Heap.view = h.view.step (Op.dispose i) := by
  simp only [Heap.step, World.step]
  have hget : h.view.live[i]? = (h.live[i]?).map (fun sl => (⟨h.read sl⟩ : T)) := by
    simp only [Heap.view, List.getElem?_map]
  have hreg : h.view.reg = h.reg := rfl
  rw [hget, hreg]
  cases hl : h.live[i]? with
  | none => rfl
  | some sl =>
    simp only [Option.map_some']
    cases hfin : T.finalizer ⟨h.read sl⟩ h.reg with
    | mk res rest =>
      obtain ⟨r, log⟩ := rest
      cases res with
      | error e => rfl
      | ok u =>
        simp only [Option.map_some', Heap.view, Option.some.injEq]
        congr 1
        rw [map_eraseIdx']
        rfl

theorem heap_step_finalize_fresh {h h1 : Heap} {i : Nat} (hf : h.Fresh)
    (hstep : h.step (Stmt.finalize i) = some h1) : h1.Fresh := by
  simp only [Heap.step] at hstep
  cases hl : h.live[i]? with
  | none => simp [hl] at hstep
  | some sl =>
    rw [hl] at hstep
    simp only at hstep
    cases hfin : T.finalizer ⟨h.read sl⟩ h.reg with
    | mk res rest =>
      obtain ⟨r, log⟩ := rest
      rw [hfin] at hstep
      cases res with
      | error e => simp at hstep
      | ok u =>
        simp only [Option.some.injEq] at hstep
        subst hstep
        intro s hs
        exact hf s (List.mem_of_mem_eraseIdx hs)

theorem stmtRegistrations_cons (st : Stmt) (prog : List Stmt) :
    stmtRegistrations (st :: prog) = st.registrations + stmtRegistrations prog := by
  simp only [stmtRegistrations, List.map_cons, List.sum_cons]

theorem heap_run_cons {h h1 : Heap} {st : Stmt} {prog : List Stmt}
    (hrun : h.run (st :: prog) = some h1) :
    ∃ h2, h.step st = some h2 ∧ h2.run prog = some h1 := by
  simp only [Heap.run] at hrun
  cases hstep : h.step st with
  | none => simp [hstep] at hrun
  | some h2 =>
    rw [hstep] at hrun
    exact ⟨h2, rfl, hrun⟩

theorem unshared_cons {h h2 : Heap} {st : Stmt} {prog : List Stmt}
    (hun : h.unshared (st :: prog) = true) (hstep : h.step st = some h2) :
    st.ownArray h = true ∧ h2.unshared prog = true := by
  simp only [Heap.unshared, hstep, Bool.and_eq_true] at hun
  exact hun

/-- Along a program whose statements leave the lists of the live multilockers
alone, the lists view keeps the invariant of the worlds. -/
theorem heap_worldInvariant_run (prog : List Stmt) :
    ∀ (n : Nat) (h h1 : Heap), h.Fresh → WorldInvariant n h.view →
      n + stmtRegistrations prog < uint32Size → h.unshared prog = true →
      h.run prog = some h1 → WorldInvariant (n + stmtRegistrations prog) h1.view := by
  induction prog with
  | nil =>
    intro n h h1 _ hinv _ _ hrun
    simp only [Heap.run, Option.some.injEq] at hrun
    subst hrun
    exact hinv
  | cons st prog ih =>
    intro n h h1 hf hinv hn hun hrun
    obtain ⟨h2, hstep, hrest⟩ := heap_run_cons hrun
    obtain ⟨hown, hun2⟩ := unshared_cons hun hstep
    rw [stmtRegistrations_cons] at hn ⊢
    rw [← Nat.add_assoc]
    cases st with
    | make lockers =>
      obtain ⟨hv, hf2⟩ := heap_step_make_store hf (Or.inl ⟨lockers, rfl⟩) hown hstep
      simp only [Stmt.registrations, Nat.add_zero] at hn ⊢
      exact ih n h2 h1 hf2 (by rw [hv]; exact hinv) (by omega) hun2 hrest
    | store a i l =>
      obtain ⟨hv, hf2⟩ := heap_step_make_store hf (Or.inr ⟨a, i, l, rfl⟩) hown hstep
      simp only [Stmt.registrations, Nat.add_zero] at hn ⊢
      exact ih n h2 h1 hf2 (by rw [hv]; exact hinv) (by omega) hun2 hrest
    | newOf lockers =>
      obtain ⟨h3, hstep3, hview, hf2⟩ := heap_step_newOf h hf lockers
      rw [hstep] at hstep3
      simp only [Option.some.injEq] at hstep3
      subst hstep3
      simp only [Stmt.registrations] at hn ⊢
      obtain ⟨w1, hw1, hinv1⟩ := worldInvariant_construct lockers hinv (by omega)
      rw [hview] at hw1
      simp only [Option.some.injEq] at hw1
      rw [← hw1] at hinv1
      exact ih (n + lockers.length) h2 h1 hf2 hinv1 (by omega) hun2 hrest
    | newSlice sl =>
      obtain ⟨hview, hf2, hlen⟩ := heap_step_newSlice hf hown hstep
      simp only [Stmt.registrations] at hn ⊢
      rw [← hlen] at hn ⊢
      obtain ⟨w1, hw1, hinv1⟩ := worldInvariant_construct (h.read sl) hinv (by omega)
      rw [hview] at hw1
      simp only [Option.some.injEq] at hw1
      rw [← hw1] at hinv1
      exact ih (n + (h.read sl).length) h2 h1 hf2 hinv1 (by omega) hun2 hrest
    | finalize i =>
      have hview := heap_step_finalize h i
      rw [hstep, Option.map_some'] at hview
      simp only [Stmt.registrations, Nat.add_zero] at hn ⊢
      exact ih n h2 h1 (heap_step_finalize_fresh hf hstep)
        (worldInvariant_dispose i hinv (by omega) hview.symm) (by omega) hun2 hrest

theorem fresh_init : Heap.init.Fresh := by
  intro s hs
  simp [Heap.init] at hs

/-- A program of constructions and disposals in the lists view is a program of
`New` calls on arguments given one by one, and finalizer runs. -/
theorem heap_run_ops (ops : List Op) :
    ∀ (h : Heap) (w1 : World), h.Fresh → h.view.run ops = some w1 →
      ∃ h1, h.run (ops.map Op.toStmt) = some h1 ∧ h1.view = w1 ∧
        h.unshared (ops.map Op.toStmt) = true ∧
        stmtRegistrations (ops.map Op.toStmt) = registrations ops := by
  induction ops with
  | nil =>
    intro h w1 _ hrun
    simp only [World.run, Option.some.injEq] at hrun
    exact ⟨h, rfl, hrun, rfl, rfl⟩
  | cons op ops ih =>
    intro h w1 hf hrun
    simp only [World.run] at hrun
    cases hstep : h.view.step op with
    | none => simp [hstep] at hrun
    | some w2 =>
      rw [hstep] at hrun
      simp only at hrun
      cases op with
      | construct lockers =>
        obtain ⟨h2, hs2, hview, hf2⟩ := heap_step_newOf h hf lockers
        rw [hstep] at hview
        simp only [Option.some.injEq] at hview
        rw [hview] at hrun
        obtain ⟨h1, hr1, hv1, hu1, hreg⟩ := ih h2 w1 hf2 hrun
        refine ⟨h1, ?_, hv1, ?_, ?_⟩
        · simp only [List.map_cons, Op.toStmt, Heap.run, hs2, hr1]
        · simp only [List.map_cons, Op.toStmt, Heap.unshared, hs2, hu1, Stmt.ownArray,
            Bool.and_self]
        · simp only [List.map_cons, Op.toStmt, stmtRegistrations_cons, Stmt.registrations,
            registrations, hreg]
      | dispose i =>
        have hview := heap_step_finalize h i
        rw [hstep] at hview
        obtain ⟨h2, hs2, hv2⟩ := Option.map_eq_some'.1 hview
        rw [← hv2] at hrun
        obtain ⟨h1, hr1, hv1, hu1, hreg⟩ := ih h2 w1 (heap_step_finalize_fresh hf hs2) hrun
        refine ⟨h1, ?_, hv1, ?_, ?_⟩
        · simp only [List.map_cons, Op.toStmt, Heap.run, hs2, hr1]
        · simp only [List.map_cons, Op.toStmt, Heap.unshared, hs2, hu1, Stmt.ownArray,
            Bool.and_self]
        · simp only [List.map_cons, Op.toStmt, stmtRegistrations_cons, Stmt.registrations,
            registrations, hreg, Nat.zero_add]

/-! ## The registry along a program, whatever it does with its slices -/

theorem New_registry (ls : List Locker) (s : Registry) : (New ls s).2 = takeAll ls s := by
  by_cases hne : ls = []
  · subst hne
    rfl
  · obtain ⟨list, hnew, _, _⟩ := New_spec ls s hne
    rw [hnew]

theorem takesInvariant_finalizerLoop (ls : List Locker) :
    ∀ (n : Nat) (s s1 : Registry) (log : List Locker), TakesInvariant n s → n < uint32Size →
      finalizerLoop ls s = (.ok (), s1, log) → TakesInvariant n s1 := by
  induction ls with
  | nil =>
    intro n s s1 log h _ hfin
    simp only [finalizerLoop, Prod.mk.injEq, true_and] at hfin
    rw [← hfin.1]
    exact h
  | cons l ls ih =>
    intro n s s1 log h hn hfin
    cases hput : put l s with
    | mk res s2 =>
      cases res with
      | error e => simp [finalizerLoop, hput] at hfin
      | ok u =>
        simp only [finalizerLoop, hput, Prod.mk.injEq] at hfin
        have h2 := takesInvariant_put l h hn hput
        exact ih n s2 s1 (finalizerLoop ls s2).2.2 h2 hn (by
          rw [← hfin.1, ← hfin.2.1])

theorem callNew_reg (h : Heap) (sl : Slice) :
    (h.callNew sl).reg = takeAll (h.read sl) h.reg := by
  rw [← New_registry]
  cases hnew : New (h.read sl) h.reg with
  | mk res r =>
    cases res with
    | error e => simp only [Heap.callNew, hnew]
    | ok t => simp only [Heap.callNew, hnew]

/-- Along every program the registry keeps the invariant of the `take` and `put`
calls, as long as fewer than `2^32` registrations are made. -/
theorem heap_takesInvariant_run (prog : List Stmt) :
    ∀ (n : Nat) (h h1 : Heap), TakesInvariant n h.reg →
      n + stmtRegistrations prog < uint32Size →
      h.run prog = some h1 → TakesInvariant (n + stmtRegistrations prog) h1.reg := by
  induction prog with
  | nil =>
    intro n h h1 hinv _ hrun
    simp only [Heap.run, Option.some.injEq] at hrun
    subst hrun
    exact hinv
  | cons st prog ih =>
    intro n h h1 hinv hn hrun
    obtain ⟨h2, hstep, hrest⟩ := heap_run_cons hrun
    rw [stmtRegistrations_cons] at hn ⊢
    rw [← Nat.add_assoc]
    cases st with
    | make lockers =>
      simp only [Heap.step, Option.some.injEq] at hstep
      have hreg : h2.reg = h.reg := by
        rw [← hstep]
        rfl
      simp only [Stmt.registrations, Nat.add_zero] at hn ⊢
      exact ih n h2 h1 (by rw [hreg]; exact hinv) (by omega) hrest
    | store a i l =>
      simp only [Heap.step] at hstep
      split at hstep
      · simp only [Option.some.injEq] at hstep
        have hreg : h2.reg = h.reg := by
          rw [← hstep]
        simp only [Stmt.registrations, Nat.add_zero] at hn ⊢
        exact ih n h2 h1 (by rw [hreg]; exact hinv) (by omega) hrest
      · cases hstep
    | newOf lockers =>
      simp only [Heap.step, Option.some.injEq] at hstep
      subst hstep
      simp only [Stmt.registrations] at hn ⊢
      have hread : (h.alloc lockers).read ⟨h.allocated, 0, lockers.length⟩ = lockers := by
        simp only [Heap.read, Heap.alloc, if_true, List.drop_zero, Nat.sub_zero, List.take_length]
      have hinv1 : TakesInvariant (n + lockers.length)
          ((h.alloc lockers).callNew ⟨h.allocated, 0, lockers.length⟩).reg := by
        rw [callNew_reg, hread]
        exact takesInvariant_takeAll lockers n h.reg hinv (by omega)
      exact ih (n + lockers.length) _ h1 hinv1 (by omega) hrest
    | newSlice sl =>
      simp only [Heap.step] at hstep
      split at hstep
      · rename_i hb
        simp only [Option.some.injEq] at hstep
        subst hstep
        simp only [Stmt.registrations] at hn ⊢
        have hlen := read_length h sl hb.2.1 hb.2.2
        have hinv1 : TakesInvariant (n + (sl.hi - sl.lo)) (h.callNew sl).reg := by
          rw [callNew_reg, ← hlen]
          exact takesInvariant_takeAll (h.read sl) n h.reg hinv (by omega)
        exact ih (n + (sl.hi - sl.lo)) _ h1 hinv1 (by omega) hrest
      · cases hstep
    | finalize i =>
      simp only [Heap.step] at hstep
      simp only [Stmt.registrations, Nat.add_zero] at hn ⊢
      cases hl : h.live[i]? with
      | none => simp [hl] at hstep
      | some sl =>
        rw [hl] at hstep
        simp only at hstep
        cases hfin : T.finalizer ⟨h.read sl⟩ h.reg with
        | mk res rest =>
          obtain ⟨r, log⟩ := rest
          rw [hfin] at hstep
          cases res with
          | error e => simp at hstep
          | ok u =>
            simp only [Option.some.injEq] at hstep
            subst hstep
            exact ih n _ h1
              (takesInvariant_finalizerLoop _ n h.reg r log hinv (by omega) hfin) (by omega) hrest

theorem putsNeverWrap_of_takesInvariant (ls : List Locker) :
    ∀ (n : Nat) (s : Registry), TakesInvariant n s → n < uint32Size → putsNeverWrap ls s := by
  induction ls with
  | nil =>
    intro n s _ _
    exact True.intro
  | cons l ls ih =>
    intro n s h hn
    refine ⟨fun item hitem => (h.2.1 l item hitem).1, ?_⟩
    intro hok
    have hput : put l s = (.ok (), (put l s).2) := by
      rw [← hok]
    exact ih n (put l s).2 (takesInvariant_put l h hn hput) hn

/-! ## Programs that reach a wrapped counter or refcount -/

theorem world_run_saturated :
    World.init.run (List.replicate 4294967296 (Op.construct [0]))
      = some ⟨setItem (take 0 emptyRegistry) 0 (some ⟨0, (1 + 4294967295) % uint32Size⟩),
          List.replicate 4294967295 ⟨[0]⟩ ++ [⟨[0]⟩]⟩ := by
  have h1 := world_run_replicate_construct 0 4294967295 ⟨take 0 emptyRegistry, [⟨[0]⟩]⟩ 0 1
    rfl (by unfold uint32Size; omega)
  show World.init.run (List.replicate (4294967295 + 1) (Op.construct [0])) = _
  rw [List.replicate_succ, world_run_cons]
  show (some (World.mk (take 0 emptyRegistry) [⟨[0]⟩])).bind _ = _
  rw [Option.some_bind, h1]

/-- A program of constructions and disposals, run from the start with its memory. -/
theorem heap_run_ops_init (ops : List Op) (w : World) (hw : World.init.run ops = some w) :
    ∃ h, Heap.init.run (ops.map Op.toStmt) = some h ∧ h.view = w ∧
      Heap.init.unshared (ops.map Op.toStmt) = true ∧
      stmtRegistrations (ops.map Op.toStmt) = registrations ops :=
  heap_run_ops ops Heap.init w fresh_init hw

theorem heap_worldInvariant (prog : List Stmt) (h : Heap) (hrun : Heap.init.run prog = some h)
    (hn : stmtRegistrations prog < uint32Size) (hown : Heap.init.unshared prog = true) :
    WorldInvariant (0 + stmtRegistrations prog) h.view :=
  heap_worldInvariant_run prog 0 Heap.init h fresh_init worldInvariant_init (by omega) hown hrun

theorem mem_view_live {h : Heap} {sl : Slice} (hs : sl ∈ h.live) :
    (⟨h.read sl⟩ : T) ∈ h.view.live :=
  List.mem_map_of_mem (fun sl => (⟨h.read sl⟩ : T)) hs

theorem mem_view_live_iff {h : Heap} {l : Locker} :
    (∃ t ∈ h.view.live, l ∈ t.list) ↔ ∃ sl ∈ h.live, l ∈ h.read sl := by
  constructor
  · rintro ⟨t, ht, hl⟩
    simp only [Heap.view, List.mem_map] at ht
    obtain ⟨sl, hs, e⟩ := ht
    rw [← e] at hl
    exact ⟨sl, hs, hl⟩
  · rintro ⟨sl, hs, hl⟩
    exact ⟨⟨h.read sl⟩, mem_view_live hs, hl⟩

/-! ## Ids after a registration -/

/-- Distinct arguments have distinct ids after the registration, when they had
before, all present ids are below the counter, and the counter does not wrap
around. -/
theorem takeAll_ids_distinct (ls : List Locker) (s : Registry)
    (hdistinct : ∀ a b ia ib, s.order a = some ia → s.order b = some ib → ia.id = ib.id → a = b)
    (hinv : ∀ l item, s.order l = some item → item.id < s.nextOrderID)
    (hnw : s.nextOrderID + (newHandles s ls).card < uint32Size) :
    ∀ a ∈ ls, ∀ b ∈ ls, idOf (takeAll ls s) a = idOf (takeAll ls s) b → a = b := by
  obtain ⟨h1, h2⟩ := takeAll_new_ids ls s hinv hnw
  have old : ∀ a item, s.order a = some item → idOf (takeAll ls s) a = item.id := by
    intro a item ha
    have e := (takeAll_idOf_present ls (by rw [ha]; rfl : (s.order a).isSome = true)).2
    rw [e]
    simp only [idOf, ha]
  intro a ha b hb hab
  cases hsa : s.order a with
  | some ia =>
    cases hsb : s.order b with
    | some ib =>
      rw [old a ia hsa, old b ib hsb] at hab
      exact hdistinct a b ia ib hsa hsb hab
    | none =>
      have e1 := hinv a ia hsa
      have e2 := h1 b hb hsb
      rw [old a ia hsa] at hab
      omega
  | none =>
    cases hsb : s.order b with
    | some ib =>
      have e1 := hinv b ib hsb
      have e2 := h1 a ha hsa
      rw [old b ib hsb] at hab
      omega
    | none =>
      by_contra hne
      have hidx : ls.indexOf a ≠ ls.indexOf b := by
        intro e
        exact hne ((List.indexOf_inj ha hb).1 e)
      rcases Nat.lt_or_gt_of_ne hidx with hlt | hgt
      · have := h2 a ha b hb hsa hsb hlt
        omega
      · have := h2 b hb a ha hsb hsa hgt
        omega

/-! ## Why one goroutine has to make the put calls -/

/-- Two `put` calls on a handle that overlap, which the package does not make
(its only caller of `put` is the finalizer, and finalizers run one after the
other), would defeat the re-check: it reads the refcount of the item that `put`
fetched under the shared lock, not of the entry stored for the handle when it
holds the exclusive lock. Goroutine `0`
registers handle `0` and starts `put 0`, which drops the refcount to `0`;
goroutine `1` registers the handle and releases it, which removes the entry;
goroutine `2` registers the handle, which creates a new entry with id `1` and
refcount `1`. Goroutine `0` now takes the exclusive lock, finds refcount `0` in
the old item and removes the new entry, which goroutine `2` still references. -/
theorem overlapping_puts_remove_new_entry :
    ((Machine.start emptyPtrRegistry
        [[RegOp.take 0, RegOp.put 0], [RegOp.take 0, RegOp.put 0], [RegOp.take 0]]).run
      [0, 0, 0, 1, 1, 1, 2, 2]).map (fun m => (m.reg.view.order 0, m.goroutines))
      = some (some ⟨1, 1⟩, [⟨Pc.putLocked 0 0, []⟩, ⟨Pc.idle, []⟩, ⟨Pc.idle, []⟩]) ∧
    ((Machine.start emptyPtrRegistry
        [[RegOp.take 0, RegOp.put 0], [RegOp.take 0, RegOp.put 0], [RegOp.take 0]]).run
      [0, 0, 0, 1, 1, 1, 2, 2, 0]).map (fun m => (m.reg.view.order 0, m.goroutines))
      = some (none, [⟨Pc.idle, []⟩, ⟨Pc.idle, []⟩, ⟨Pc.idle, []⟩]) := by
  constructor <;> decide

/-! # The claims -/

/-! ## C1: Empty construction -/

/-- C1: `New` called with zero lockers panics instead of returning a multilocker,
and the registry after the panic is the registry before the call: the order map
is the same and `nextOrderID` is not advanced. -/
theorem New_no_args_panics (s : Registry) :
    (New [] s).1 = .error "need at least one argument" ∧
    (∀ t : T, (New [] s).1 ≠ .ok t) ∧
    (New [] s).2.order = s.order ∧
    (New [] s).2.nextOrderID = s.nextOrderID := by
  refine ⟨rfl, ?_, rfl, rfl⟩
  intro t h
  simp [New] at h

/-! ## C2: Mirror order of Lock and Unlock -/

/-- C2: `Lock` calls `Lock` on the stored list front to back, once per position,
`Unlock` calls `Unlock` on the stored list back to front, once per position, and
the handles unlocked are the handles locked in reverse order. -/
theorem Lock_Unlock_mirror_order (t : T) :
    t.Lock = t.list.map Event.lock ∧
    t.Unlock = t.list.reverse.map Event.unlock ∧
    t.Lock.length = t.list.length ∧
    t.Unlock.length = t.list.length ∧
    t.Unlock.map Event.handle = (t.Lock.map Event.handle).reverse := by
  have h1 : t.Lock = t.list.map Event.lock := lockLoop_eq_map t.list
  have h2 : t.Unlock = t.list.reverse.map Event.unlock := by
    have := unlockLoop_eq t.list t.list.length (Nat.le_refl _)
    simpa [T.Unlock] using this
  refine ⟨h1, h2, ?_, ?_, ?_⟩
  · simp [h1]
  · simp [h2]
  · rw [h1, h2]
    simp [List.map_reverse, Function.comp_def, Event.handle]

/-! ## C3: The stored list is a sorted permutation -/

/-- C3: for every non-empty argument list, `New` returns a multilocker whose list
is a permutation of the arguments (same length, every handle with the same
multiplicity), all of whose handles have an entry in the registry, and which is
sorted ascending by the ids of the registry left by the call: for all positions
`i < j`, the id of `list[i]` is at most the id of `list[j]`. -/
theorem New_list_sorted_permutation (lockers : List Locker) (s : Registry)
    (h : lockers ≠ []) :
    ∃ t : T, (New lockers s).1 = .ok t ∧
      t.list.Perm lockers ∧
      t.list.length = lockers.length ∧
      (∀ l, t.list.count l = lockers.count l) ∧
      (∀ l ∈ t.list, ((New lockers s).2.order l).isSome = true) ∧
      (∀ i j : Fin t.list.length, i < j →
        idOf (New lockers s).2 (t.list.get i) ≤ idOf (New lockers s).2 (t.list.get j)) := by
  obtain ⟨list, hl, hperm, hsorted⟩ := New_spec lockers s h
  refine ⟨⟨list⟩, by rw [hl], hperm, hperm.length_eq, fun l => hperm.count_eq l, ?_, ?_⟩
  · intro l hmem
    obtain ⟨item, hitem⟩ := takeAll_mem_present lockers s (hperm.subset hmem)
    rw [hl]
    simp [hitem]
  · rw [hl]
    intro i j hij
    exact List.pairwise_iff_get.1 hsorted i j hij

/-- Witness for C3: the arguments `3, 1, 2` on the empty registry. -/
theorem New_list_sorted_permutation_witness :
    ([3, 1, 2] : List Locker) ≠ [] ∧
    ∃ t : T, (New [3, 1, 2] emptyRegistry).1 = .ok t ∧
      t.list.Perm [3, 1, 2] ∧
      t.list.length = ([3, 1, 2] : List Locker).length ∧
      (∀ l, t.list.count l = ([3, 1, 2] : List Locker).count l) ∧
      (∀ l ∈ t.list, ((New [3, 1, 2] emptyRegistry).2.order l).isSome = true) ∧
      (∀ i j : Fin t.list.length, i < j →
        idOf (New [3, 1, 2] emptyRegistry).2 (t.list.get i) ≤
          idOf (New [3, 1, 2] emptyRegistry).2 (t.list.get j)) :=
  ⟨by decide, New_list_sorted_permutation [3, 1, 2] emptyRegistry (by decide)⟩

/-! ## C4: The sub-sequence law -/

/-- C4, amended: let the distinct handles `hs` be sorted by `optimizeSequence`
into `S`, and let them hold pairwise distinct ids in the registry left by that
call. Then in every registry `s2` in which the handles of `hs` still have their
entries with these ids, `optimizeSequence` sorts every duplicate-free list `ts`
of handles taken from `hs`, in whatever order they are given, into a sublist of
`S` (an order-preserving subsequence), and it returns every sublist of `S`
unchanged. -/
theorem optimizeSequence_subsequence_law (hs ts S : List Locker) (s s2 : Registry)
    (hnd : hs.Nodup)
    (hS : (optimizeSequence hs s).1 = .ok S)
    (hinj : ∀ a ∈ hs, ∀ b ∈ hs,
      idOf (optimizeSequence hs s).2 a = idOf (optimizeSequence hs s).2 b → a = b)
    (hstill : ∀ h ∈ hs,
      (s2.order h).isSome = true ∧ idOf s2 h = idOf (optimizeSequence hs s).2 h)
    (htnd : ts.Nodup) (hsub : ∀ h ∈ ts, h ∈ hs) :
    (∃ R, (optimizeSequence ts s2).1 = .ok R ∧ R.Perm ts ∧ R.Sublist S) ∧
    (∀ R, R.Sublist S → (optimizeSequence R s2).1 = .ok R) := by
  obtain ⟨S0, hS0, hperm, hsorted⟩ := optimizeSequence_spec hs s
  have hs1 : (optimizeSequence hs s).2 = takeAll hs s := by rw [hS0]
  rw [hS0] at hS
  have hSeq : S0 = S := by
    simpa using hS
  subst hSeq
  rw [hs1] at hinj hstill
  have hSnd : S0.Nodup := hperm.nodup_iff.2 hnd
  constructor
  · have h := optimizeSequence_of_sublist_ids hs ts S0 (takeAll hs s) s2 hperm hsorted hnd
      hinj hstill htnd hsub
    refine ⟨_, h, ?_, List.filter_sublist S0⟩
    obtain ⟨R, hR, hRperm, _⟩ := optimizeSequence_spec ts s2
    rw [hR] at h
    have : R = S0.filter (fun h => decide (h ∈ ts)) := by simpa using h
    rw [← this]
    exact hRperm
  · intro R hRS
    have hRnd : R.Nodup := hSnd.sublist hRS
    have hRsub : ∀ h ∈ R, h ∈ hs := fun h hh => hperm.subset (hRS.subset hh)
    obtain ⟨R1, hR1, hR1perm, hR1sorted⟩ := optimizeSequence_spec R s2
    rw [hR1]
    have hid : ∀ h ∈ hs, idOf (takeAll R s2) h = idOf (takeAll hs s) h := by
      intro h hh
      rw [(takeAll_idOf_present R (hstill h hh).1).2, (hstill h hh).2]
    have h1 : R1.Pairwise (fun a b => idOf (takeAll hs s) a ≤ idOf (takeAll hs s) b) := by
      refine List.Pairwise.imp_of_mem ?_ hR1sorted
      intro a b ha hb hab
      rw [← hid a (hRsub a (hR1perm.subset ha)), ← hid b (hRsub b (hR1perm.subset hb))]
      exact hab
    have h2 : R.Pairwise (fun a b => idOf (takeAll hs s) a ≤ idOf (takeAll hs s) b) :=
      List.Pairwise.sublist hRS hsorted
    have := sorted_perm_unique (idOf (takeAll hs s)) hR1perm h1 h2
      (fun a ha b hb hab =>
        hinj a (hRsub a (hR1perm.subset ha)) b (hRsub b (hR1perm.subset hb)) hab)
    rw [this]

/-- Witness for C4: the handles `3, 1, 2` registered on the empty registry, and
the subset `2, 3`. -/
theorem optimizeSequence_subsequence_law_witness :
    (∃ R, (optimizeSequence [2, 3] (optimizeSequence [3, 1, 2] emptyRegistry).2).1 = .ok R ∧
      R.Perm [2, 3] ∧ R.Sublist [3, 1, 2]) ∧
    (∀ R, R.Sublist [3, 1, 2] →
      (optimizeSequence R (optimizeSequence [3, 1, 2] emptyRegistry).2).1 = .ok R) :=
  optimizeSequence_subsequence_law [3, 1, 2] [2, 3] [3, 1, 2] emptyRegistry
    (optimizeSequence [3, 1, 2] emptyRegistry).2
    (by decide) (by decide) (by decide) (by decide) (by decide) (by decide)

/-- C4 as stated fails once `nextOrderID` has wrapped around. After `take 0`
and `2^32 - 1` rounds of `take 1; put 1` the counter is back at `0` while handle
`0` still holds id `0`. `optimizeSequence` on the distinct handles `1, 0` then
gives handle `1` the id `0` as well and returns `1, 0`; on the subset given as
`0, 1` it returns `0, 1`, which is not a subsequence of `1, 0`. -/
theorem optimizeSequence_subsequence_law_counterexample :
    emptyRegistry.run (RegOp.take 0 :: takePutCycles 1 4294967295) = some wrappedRegistry ∧
    ([1, 0] : List Locker).Nodup ∧
    (optimizeSequence [1, 0] wrappedRegistry).1 = .ok [1, 0] ∧
    (optimizeSequence [0, 1] (optimizeSequence [1, 0] wrappedRegistry).2).1 = .ok [0, 1] ∧
    ¬ ([0, 1] : List Locker).Sublist [1, 0] :=
  ⟨wrappedRegistry_reachable, by decide, by decide, by decide, by decide⟩

/-! ## C5: Shared handles are walked in the same order -/

/-- C7, amended: in every state reached from the empty registry by `take` and
`put` calls (a `put` on a handle without an entry faults and reaches no state),
fewer than `2^32` of them `take` calls, every entry of the order map has
refcount at least `1`, two different handles never have the same id, and every
id is a `uint32` value below `nextOrderID`. -/
theorem registry_invariant (ops : List RegOp) (s : Registry)
    (hrun : emptyRegistry.run ops = some s) (hn : takeCount ops < uint32Size) :
    (∀ l item, s.order l = some item → 1 ≤ item.refcount) ∧
    (∀ l1 l2 i1 i2, s.order l1 = some i1 → s.order l2 = some i2 → l1 ≠ l2 → i1.id ≠ i2.id) ∧
    (∀ l item, s.order l = some item → item.id < s.nextOrderID ∧ s.nextOrderID < uint32Size) := by
  have h := takesInvariant_run ops 0 emptyRegistry s takesInvariant_empty (by omega) hrun
  obtain ⟨hnext, hent, hinj⟩ := h
  refine ⟨fun l item hl => (hent l item hl).1, ?_, ?_⟩
  · intro l1 l2 i1 i2 h1 h2 hne hid
    exact hne (hinj l1 l2 i1 i2 h1 h2 hid)
  · intro l item hl
    exact ⟨(hent l item hl).2.2, by omega⟩

/-- Witness for C7: handles `3` and `5` are registered, `3` twice, then `3` is
released once. -/
theorem registry_invariant_witness :
    (∀ l item, (put 3 (take 3 (take 5 (take 3 emptyRegistry)))).2.order l = some item →
      1 ≤ item.refcount) ∧
    (∀ l1 l2 i1 i2, (put 3 (take 3 (take 5 (take 3 emptyRegistry)))).2.order l1 = some i1 →
      (put 3 (take 3 (take 5 (take 3 emptyRegistry)))).2.order l2 = some i2 →
      l1 ≠ l2 → i1.id ≠ i2.id) ∧
    (∀ l item, (put 3 (take 3 (take 5 (take 3 emptyRegistry)))).2.order l = some item →
      item.id < (put 3 (take 3 (take 5 (take 3 emptyRegistry)))).2.nextOrderID ∧
      (put 3 (take 3 (take 5 (take 3 emptyRegistry)))).2.nextOrderID < uint32Size) :=
  registry_invariant [RegOp.take 3, RegOp.take 5, RegOp.take 3, RegOp.put 3]
    (put 3 (take 3 (take 5 (take 3 emptyRegistry)))).2 rfl (by decide)

/-- C7 as stated fails after `2^32` `take` calls. Registering handle `0` `2^32`
times wraps its refcount around to `0` while its entry stays in the map. And
after `take 0` and `2^32 - 1` rounds of `take 1; put 1` the counter is back at
`0`, so `take 2` gives handle `2` the id `0` that handle `0` still holds. -/
theorem registry_invariant_counterexample :
    (∃ s, emptyRegistry.run (List.replicate 4294967296 (RegOp.take 0)) = some s ∧
      s.order 0 = some ⟨0, 0⟩) ∧
    (∃ s, emptyRegistry.run ((RegOp.take 0 :: takePutCycles 1 4294967295) ++ [RegOp.take 2])
        = some s ∧
      s.order 0 = some ⟨0, 1⟩ ∧ s.order 2 = some ⟨0, 1⟩) := by
  constructor
  · have h0 : emptyRegistry.step (RegOp.take 0) = some (take 0 emptyRegistry) := rfl
    have h1 := run_replicate_take 0 4294967295 (take 0 emptyRegistry) 0 1 rfl
      (by unfold uint32Size; omega)
    refine ⟨setItem (take 0 emptyRegistry) 0 (some ⟨0, (1 + 4294967295) % uint32Size⟩), ?_, ?_⟩
    · show emptyRegistry.run (List.replicate (4294967295 + 1) (RegOp.take 0)) = _
      rw [List.replicate_succ, run_cons, h0, Option.some_bind, h1]
    · rfl
  · refine ⟨take 2 wrappedRegistry, ?_, rfl, rfl⟩
    rw [run_append, wrappedRegistry_reachable]
    rfl

/-! ## C8: Ids in creation order -/

/-- C8, amended: as long as `nextOrderID` does not wrap around (from a registry
whose counter stands at `n`, at most `2^32 - n` entries are created), the ids of
the entries created by `take` are strictly increasing in creation order: of any
two entries created, the later one has the strictly larger id. This covers a
handle whose entry was removed by `put` and that is registered again: its new
entry is a later creation, and its id is strictly larger than the previous one. -/
theorem created_ids_strictly_increasing (ops : List RegOp) (s : Registry)
    (h : s.nextOrderID + (createdEntries s ops).length ≤ uint32Size) :
    (createdEntries s ops).Pairwise (fun a b => a.2 < b.2) ∧
    (∀ l i j, [(l, i), (l, j)].Sublist (createdEntries s ops) → i < j) := by
  have h1 := (createdEntries_bounds ops s h).1
  refine ⟨h1, ?_⟩
  intro l i j hsub
  have := List.Pairwise.sublist hsub h1
  simpa using this

/-- Witness for C8: from the empty registry, handle `7` is registered, handle
`4` is registered, released and registered again. -/
theorem created_ids_strictly_increasing_witness :
    createdEntries emptyRegistry [RegOp.take 7, RegOp.take 4, RegOp.put 4, RegOp.take 4]
      = [(7, 0), (4, 1), (4, 2)] ∧
    (createdEntries emptyRegistry
      [RegOp.take 7, RegOp.take 4, RegOp.put 4, RegOp.take 4]).Pairwise
        (fun a b => a.2 < b.2) ∧
    (∀ l i j, [(l, i), (l, j)].Sublist (createdEntries emptyRegistry
      [RegOp.take 7, RegOp.take 4, RegOp.put 4, RegOp.take 4]) → i < j) :=
  ⟨by decide, created_ids_strictly_increasing
    [RegOp.take 7, RegOp.take 4, RegOp.put 4, RegOp.take 4] emptyRegistry (by decide)⟩

/-- C8 as stated fails when `nextOrderID` wraps around. After `2^32 - 1` rounds
of `take 0; put 0` the registry is empty and the counter stands at `2^32 - 1`.
The next `take 0` creates an entry with id `2^32 - 1`; once `put 0` has removed
it, `take 0` creates the entry of the same handle again, now with id `0`. -/
theorem created_ids_strictly_increasing_counterexample :
    emptyRegistry.run (takePutCycles 0 4294967295) = some lastIdRegistry ∧
    createdEntries lastIdRegistry [RegOp.take 0, RegOp.put 0, RegOp.take 0]
      = [(0, 4294967295), (0, 0)] ∧
    ¬ (createdEntries lastIdRegistry [RegOp.take 0, RegOp.put 0, RegOp.take 0]).Pairwise
        (fun a b => a.2 < b.2) := by
  exact ⟨lastIdRegistry_reachable, by decide, by decide⟩

/-! ## C9: Disposal undoes construction -/

/-- C9, amended: take a registry and a non-empty argument list such that every
argument that has an entry has refcount at least `1` and no refcount wraps
around during the call (previous refcount plus number of occurrences among the
arguments stays below `2^32`). Then `New` returns a multilocker, its finalizer
runs without fault and calls `put` once for each position of the multilocker's
list, in list order, and afterwards the order map is exactly the one before the
construction; `nextOrderID` has advanced, modulo `2^32`, by the number of
distinct arguments that had no entry. -/
theorem construct_then_dispose (lockers : List Locker) (s : Registry)
    (h : lockers ≠ []) (hnext : s.nextOrderID < uint32Size)
    (hpos : ∀ l ∈ lockers, (s.order l).isSome = true → 1 ≤ refcountOf s l)
    (hnowrap : ∀ l ∈ lockers, refcountOf s l + lockers.count l < uint32Size) :
    ∃ t s1 s2, New lockers s = (.ok t, s1) ∧ t.list.Perm lockers ∧
      t.finalizer s1 = (.ok (), s2, t.list) ∧
      s2.order = s.order ∧
      s2.nextOrderID = (s.nextOrderID + (newHandles s lockers).card) % uint32Size := by
  obtain ⟨list, hnew, hperm, _⟩ := New_spec lockers s h
  have hrc : ∀ k ∈ lockers, refcountOf (takeAll lockers s) k = refcountOf s k + lockers.count k := by
    intro k hk
    rw [takeAll_refcountOf lockers s k (by have := hnowrap k hk; omega),
      Nat.mod_eq_of_lt (hnowrap k hk)]
  obtain ⟨s2, hfin, hn2, hord⟩ := finalizerLoop_spec list (takeAll lockers s)
    (fun k hk => by
      rw [hperm.count_eq, hrc k (hperm.subset hk)]
      omega)
    (fun k hk => by
      rw [hrc k (hperm.subset hk)]
      exact hnowrap k (hperm.subset hk))
  refine ⟨⟨list⟩, takeAll lockers s, s2, hnew, hperm, hfin, ?_, ?_⟩
  · funext k
    rw [hord k, hperm.count_eq]
    by_cases hc : lockers.count k = 0
    · rw [if_pos hc, takeAll_order_not_mem lockers s (List.count_eq_zero.1 hc)]
    · have hk : k ∈ lockers := by
        by_contra hk
        exact hc (List.count_eq_zero.2 hk)
      rw [if_neg hc, hrc k hk]
      cases hsk : s.order k with
      | none =>
        have : refcountOf s k = 0 := by simp only [refcountOf, hsk]
        rw [if_pos (by omega)]
      | some item =>
        have h2 : refcountOf s k = item.refcount := by simp only [refcountOf, hsk]
        have h1 : 1 ≤ item.refcount := by
          rw [← h2]
          exact hpos k hk (by rw [hsk]; rfl)
        rw [if_neg (by omega)]
        obtain ⟨item1, hi1, hid⟩ := takeAll_present lockers hsk
        have h3 := hrc k hk
        simp only [refcountOf, hi1, hsk] at h3
        rw [hi1]
        simp only [Option.map_some', Option.some.injEq]
        cases item1
        cases item
        simp only [orderItem.mk.injEq] at hid h3 ⊢
        exact ⟨hid, by omega⟩
  · rw [hn2, takeAll_nextOrderID lockers s hnext]

/-- Witness for C9: handle `1` is registered; a multilocker over `3, 1, 3` is
constructed and disposed of. -/
theorem construct_then_dispose_witness :
    ∃ t s1 s2, New [3, 1, 3] (take 1 emptyRegistry) = (.ok t, s1) ∧ t.list.Perm [3, 1, 3] ∧
      t.finalizer s1 = (.ok (), s2, t.list) ∧
      s2.order = (take 1 emptyRegistry).order ∧
      s2.nextOrderID = ((take 1 emptyRegistry).nextOrderID +
        (newHandles (take 1 emptyRegistry) [3, 1, 3]).card) % uint32Size :=
  construct_then_dispose [3, 1, 3] (take 1 emptyRegistry) (by decide) (by decide)
    (by decide) (by decide)

/-- C9 as stated fails on registries whose counters are about to wrap around.
After `2^32 - 1` registrations of handle `0` its refcount stands at `2^32 - 1`.
`New` on `0, 0` wraps it around to `1`; the finalizer's first `put` brings it to
`0` and deletes the entry, the second `put` finds no entry and faults: the entry
that was there before the construction is gone. And on the empty registry
reached by `2^32 - 1` rounds of `take 0; put 0`, constructing and disposing a
multilocker over handle `0` takes `nextOrderID` from `2^32 - 1` to `0`. -/
theorem construct_then_dispose_counterexample :
    emptyRegistry.run (List.replicate 4294967295 (RegOp.take 0)) = some saturatedRegistry ∧
    saturatedRegistry.order 0 = some ⟨0, 4294967295⟩ ∧
    (New [0, 0] saturatedRegistry).1 = .ok ⟨[0, 0]⟩ ∧
    (T.finalizer ⟨[0, 0]⟩ (New [0, 0] saturatedRegistry).2).1
      = .error "invalid memory address or nil pointer dereference" ∧
    (T.finalizer ⟨[0, 0]⟩ (New [0, 0] saturatedRegistry).2).2.1.order 0 = none ∧
    emptyRegistry.run (takePutCycles 0 4294967295) = some lastIdRegistry ∧
    lastIdRegistry.nextOrderID = 4294967295 ∧
    (New [0] lastIdRegistry).1 = .ok ⟨[0]⟩ ∧
    (T.finalizer ⟨[0]⟩ (New [0] lastIdRegistry).2).1 = .ok () ∧
    (T.finalizer ⟨[0]⟩ (New [0] lastIdRegistry).2).2.1.nextOrderID = 0 :=
  ⟨saturatedRegistry_reachable, by decide, by decide, by decide, by decide,
    lastIdRegistry_reachable, by decide, by decide, by decide, by decide⟩

/-! ## C10: No deduplication -/

/-- C10, amended: let a handle `l` be passed `k ≥ 2` times to `New`, and let the
distinct handles among the arguments hold distinct ids in the registry left by
the call. Then `l` is registered `k` times (its refcount after the call is its
previous refcount, `0` if it had no entry, plus `k`, modulo `2^32`), it is stored
`k` times in the multilocker's list, these `k` occurrences occupy consecutive
positions, and `Lock` calls `Lock` on `l` twice in a row. -/
theorem no_deduplication (lockers : List Locker) (s : Registry) (l : Locker)
    (hk : 2 ≤ lockers.count l)
    (hinj : ∀ a ∈ lockers, ∀ b ∈ lockers,
      idOf (New lockers s).2 a = idOf (New lockers s).2 b → a = b) :
    ∃ t : T, (New lockers s).1 = .ok t ∧
      refcountOf (New lockers s).2 l = (refcountOf s l + lockers.count l) % uint32Size ∧
      t.list.count l = lockers.count l ∧
      (∃ front back, t.list = front ++ List.replicate (lockers.count l) l ++ back ∧
        l ∉ front ∧ l ∉ back) ∧
      [Event.lock l, Event.lock l] <:+: t.Lock := by
  have hmem : l ∈ lockers := by
    by_contra hc
    rw [List.count_eq_zero.2 hc] at hk
    omega
  have hne : lockers ≠ [] := List.ne_nil_of_mem hmem
  obtain ⟨list, hnew, hperm, hsorted⟩ := New_spec lockers s hne
  rw [hnew] at hinj ⊢
  simp only at hinj
  have hsplit := sorted_split (idOf (takeAll lockers s)) (idOf (takeAll lockers s) l) list hsorted
  have hmid : list.filter (fun a => decide (idOf (takeAll lockers s) a = idOf (takeAll lockers s) l))
      = List.replicate (lockers.count l) l := by
    rw [← hperm.count_eq, ← List.filter_eq]
    refine List.filter_congr ?_
    intro a ha
    by_cases hal : a = l
    · simp [hal]
    · have : idOf (takeAll lockers s) a ≠ idOf (takeAll lockers s) l :=
        fun e => hal (hinj a (hperm.subset ha) l hmem e)
      simp [hal, this]
  rw [hmid] at hsplit
  refine ⟨⟨list⟩, rfl, takeAll_refcountOf_mem lockers s l hmem, hperm.count_eq l,
    ⟨_, _, hsplit, ?_, ?_⟩, ?_⟩
  · simp only [List.mem_filter, decide_eq_true_eq, not_and]
    intro _ h
    exact Nat.lt_irrefl _ h
  · simp only [List.mem_filter, decide_eq_true_eq, not_and]
    intro _ h
    exact Nat.lt_irrefl _ h
  · show [Event.lock l, Event.lock l] <:+: lockLoop list
    rw [lockLoop_eq_map, hsplit]
    obtain ⟨n, hn⟩ : ∃ n, lockers.count l = n + 2 := ⟨lockers.count l - 2, by omega⟩
    rw [hn]
    simp only [List.replicate_succ, List.map_append, List.map_cons, List.append_assoc,
      List.cons_append]
    exact ⟨_, _, by simp only [List.append_assoc, List.cons_append, List.nil_append]; rfl⟩

/-- Witness for C10: handle `5` passed twice, between and around other handles. -/
theorem no_deduplication_witness :
    ∃ t : T, (New [5, 2, 5, 9] (take 9 emptyRegistry)).1 = .ok t ∧
      refcountOf (New [5, 2, 5, 9] (take 9 emptyRegistry)).2 5
        = (refcountOf (take 9 emptyRegistry) 5 + ([5, 2, 5, 9] : List Locker).count 5)
            % uint32Size ∧
      t.list.count 5 = ([5, 2, 5, 9] : List Locker).count 5 ∧
      (∃ front back,
        t.list = front ++ List.replicate (([5, 2, 5, 9] : List Locker).count 5) 5 ++ back ∧
        5 ∉ front ∧ 5 ∉ back) ∧
      [Event.lock 5, Event.lock 5] <:+: t.Lock :=
  no_deduplication [5, 2, 5, 9] (take 9 emptyRegistry) 5 (by decide) (by decide)

/-- C10 as stated fails on registries whose counters have wrapped around. In the
registry reached by `take 0` and `2^32 - 1` rounds of `take 1; put 1`, handle
`0` holds id `0` and the counter is back at `0`: `New` on `0, 1, 0` gives handle
`1` the id `0` as well, the sort leaves the list `0, 1, 0`, and `Lock` locks
handle `1` between the two locks of handle `0`. And in the registry reached by
`2^32 - 1` registrations of handle `0`, whose refcount stands at `2^32 - 1`,
`New` on `0, 0` leaves the refcount `1`, not `2^32 + 1`. -/
theorem no_deduplication_counterexample :
    emptyRegistry.run (RegOp.take 0 :: takePutCycles 1 4294967295) = some wrappedRegistry ∧
    (New [0, 1, 0] wrappedRegistry).1 = .ok ⟨[0, 1, 0]⟩ ∧
    T.Lock ⟨[0, 1, 0]⟩ = [Event.lock 0, Event.lock 1, Event.lock 0] ∧
    ¬ [Event.lock 0, Event.lock 0] <:+: T.Lock ⟨[0, 1, 0]⟩ ∧
    emptyRegistry.run (List.replicate 4294967295 (RegOp.take 0)) = some saturatedRegistry ∧
    refcountOf saturatedRegistry 0 = 4294967295 ∧
    refcountOf (New [0, 0] saturatedRegistry).2 0 = 1 :=
  ⟨wrappedRegistry_reachable, by decide, by decide, by decide,
    saturatedRegistry_reachable, by decide, by decide⟩

/-! ## C11: No deadlock -/

/-- C12, amended: if `l` has no entry, `take` creates an entry for `l` with id
equal to the value of `nextOrderID` before the call and refcount `1`, and
increments `nextOrderID` by one modulo `2^32`; if `l` already has an entry,
`take` increments that entry's refcount by one modulo `2^32` and leaves its id
and `nextOrderID` unchanged. In both cases the entries of all handles other than
`l` are unchanged, and `nextOrderID` does not decrease unless it wraps around
from `2^32 - 1` to `0`. -/
theorem take_postcondition (l : Locker) (s : Registry) :
    (s.order l = none →
      (take l s).order l = some ⟨s.nextOrderID, 1⟩ ∧
      (take l s).nextOrderID = (s.nextOrderID + 1) % uint32Size) ∧
    (∀ item, s.order l = some item →
      (take l s).order l = some ⟨item.id, (item.refcount + 1) % uint32Size⟩ ∧
      (take l s).nextOrderID = s.nextOrderID) ∧
    (∀ k, k ≠ l → (take l s).order k = s.order k) ∧
    (s.nextOrderID + 1 < uint32Size → s.nextOrderID ≤ (take l s).nextOrderID) := by
  refine ⟨?_, ?_, ?_, ?_⟩
  · intro h
    rw [take_of_none h]
    simp only [if_true, and_self]
  · intro item h
    rw [take_of_some h]
    simp only [setItem, if_true, and_self]
  · intro k hk
    exact take_order_ne s hk
  · intro hlt
    cases h : s.order l with
    | none =>
      rw [take_of_none h]
      show s.nextOrderID ≤ (s.nextOrderID + 1) % uint32Size
      rw [Nat.mod_eq_of_lt hlt]
      exact Nat.le_succ _
    | some item =>
      rw [take_of_some h]
      exact Nat.le_refl _

/-- C12 as stated fails at the end of the `uint32` range. In the empty registry
reached by `2^32 - 1` rounds of `take 0; put 0` the counter stands at
`2^32 - 1`, and `take 0` brings it down to `0`. In the registry reached by
`2^32 - 1` registrations of handle `0`, one more `take 0` takes the refcount
from `2^32 - 1` to `0`. -/
theorem take_postcondition_counterexample :
    emptyRegistry.run (takePutCycles 0 4294967295) = some lastIdRegistry ∧
    lastIdRegistry.order 0 = none ∧
    lastIdRegistry.nextOrderID = 4294967295 ∧
    (take 0 lastIdRegistry).nextOrderID = 0 ∧
    emptyRegistry.run (List.replicate 4294967295 (RegOp.take 0)) = some saturatedRegistry ∧
    saturatedRegistry.order 0 = some ⟨0, 4294967295⟩ ∧
    (take 0 saturatedRegistry).order 0 = some ⟨0, 0⟩ :=
  ⟨lastIdRegistry_reachable, by decide, by decide, by decide,
    saturatedRegistry_reachable, by decide, by decide⟩

/-! ## C13: Postcondition of put -/

/-- C13: for a handle `l` whose entry has refcount `r ≥ 1` (a `uint32` value),
`put` returns normally; if `r > 1` the entry stays in the order map with the
same id and refcount `r - 1`; if `r = 1` the entry is removed; the entry is
removed exactly when the refcount goes to `0`; the entries of all other handles
and `nextOrderID` are unchanged. -/
theorem put_postcondition (l : Locker) (s : Registry) (item : orderItem)
    (h : s.order l = some item) (h1 : 1 ≤ item.refcount)
    (h2 : item.refcount < uint32Size) :
    (put l s).1 = .ok () ∧
    (1 < item.refcount → (put l s).2.order l = some ⟨item.id, item.refcount - 1⟩) ∧
    (item.refcount = 1 → (put l s).2.order l = none) ∧
    ((put l s).2.order l = none ↔ item.refcount - 1 = 0) ∧
    (∀ k, k ≠ l → (put l s).2.order k = s.order k) ∧
    (put l s).2.nextOrderID = s.nextOrderID := by
  have hmod : (item.refcount + maxUint32) % uint32Size = item.refcount - 1 := by
    unfold maxUint32 uint32Size at *
    omega
  by_cases hz : (item.refcount + maxUint32) % uint32Size = 0
  · rw [put_of_some_zero h hz]
    rw [hmod] at hz
    refine ⟨rfl, ?_, ?_, ?_, ?_, rfl⟩
    · intro hgt
      omega
    · intro _
      simp only [setItem, if_true]
    · simp only [setItem, if_true, true_iff]
      exact hz
    · intro k hk
      simp only [setItem, hk, if_false]
  · rw [put_of_some_pos h hz, hmod]
    rw [hmod] at hz
    refine ⟨rfl, ?_, ?_, ?_, ?_, rfl⟩
    · intro _
      simp only [setItem, if_true]
    · intro he
      omega
    · simp only [setItem, if_true]
      constructor
      · intro hc
        cases hc
      · intro hc
        exact absurd hc hz
    · intro k hk
      simp only [setItem, hk, if_false]

/-- Witness for C13: handle `3` registered twice, so that its entry has
refcount `2`. -/
theorem put_postcondition_witness :
    (put 3 (take 3 (take 3 emptyRegistry))).1 = .ok () ∧
    (1 < 2 → (put 3 (take 3 (take 3 emptyRegistry))).2.order 3 = some ⟨0, 2 - 1⟩) ∧
    (2 = 1 → (put 3 (take 3 (take 3 emptyRegistry))).2.order 3 = none) ∧
    ((put 3 (take 3 (take 3 emptyRegistry))).2.order 3 = none ↔ 2 - 1 = 0) ∧
    (∀ k, k ≠ 3 → (put 3 (take 3 (take 3 emptyRegistry))).2.order k
      = (take 3 (take 3 emptyRegistry)).order k) ∧
    (put 3 (take 3 (take 3 emptyRegistry))).2.nextOrderID
      = (take 3 (take 3 emptyRegistry)).nextOrderID :=
  put_postcondition 3 (take 3 (take 3 emptyRegistry)) ⟨0, 2⟩ (by decide) (by decide) (by decide)

/-! ## C14: The stored list is the stable sort -/

/-- C14, amended: for every non-empty argument list, duplicates allowed, and
every registry state in which distinct handles have distinct ids, all ids are
below `nextOrderID`, and the registration of the arguments does not wrap the
counter around, the list stored by `New` is the stable sort of the argument list
by id ascending, and every permutation of the arguments that is sorted by id is
this same list: the result does not depend on how the sorting algorithm breaks
ties. (The ids are those the sort reads, after the registration.) -/
theorem New_list_is_stable_sort (lockers : List Locker) (s : Registry)
    (h : lockers ≠ [])
    (hdistinct : ∀ a b ia ib, s.order a = some ia → s.order b = some ib → ia.id = ib.id → a = b)
    (hinv : ∀ l item, s.order l = some item → item.id < s.nextOrderID)
    (hnowrap : s.nextOrderID + (newHandles s lockers).card < uint32Size) :
    (New lockers s).1 = .ok ⟨stableSortByRank (idOf (New lockers s).2) lockers⟩ ∧
    (∀ R : List Locker, R.Perm lockers →
      R.Pairwise (fun a b => idOf (New lockers s).2 a ≤ idOf (New lockers s).2 b) →
      R = stableSortByRank (idOf (New lockers s).2) lockers) := by
  obtain ⟨list, hnew, hperm, hsorted⟩ := New_spec lockers s h
  have hinj := takeAll_ids_distinct lockers s hdistinct hinv hnowrap
  rw [hnew]
  simp only
  have uniq : ∀ R : List Locker, R.Perm lockers →
      R.Pairwise (fun a b => idOf (takeAll lockers s) a ≤ idOf (takeAll lockers s) b) →
      R = stableSortByRank (idOf (takeAll lockers s)) lockers := by
    intro R hR hRs
    exact sorted_perm_unique (idOf (takeAll lockers s))
      (hR.trans (stableSortByRank_perm _ lockers).symm) hRs
      (stableSortByRank_sorted _ lockers)
      (fun a ha b hb hab => hinj a (hR.subset ha) b (hR.subset hb) hab)
  refine ⟨?_, uniq⟩
  rw [uniq list hperm hsorted]

/-- Witness for C14: the arguments `5, 2, 5, 9`, handle `9` registered before;
the stable sort is `9, 5, 5, 2`. -/
theorem New_list_is_stable_sort_witness :
    stableSortByRank (idOf (New [5, 2, 5, 9] (take 9 emptyRegistry)).2) [5, 2, 5, 9]
      = [9, 5, 5, 2] ∧
    (New [5, 2, 5, 9] (take 9 emptyRegistry)).1
      = .ok ⟨stableSortByRank (idOf (New [5, 2, 5, 9] (take 9 emptyRegistry)).2) [5, 2, 5, 9]⟩ ∧
    (∀ R : List Locker, R.Perm [5, 2, 5, 9] →
      R.Pairwise (fun a b => idOf (New [5, 2, 5, 9] (take 9 emptyRegistry)).2 a
        ≤ idOf (New [5, 2, 5, 9] (take 9 emptyRegistry)).2 b) →
      R = stableSortByRank (idOf (New [5, 2, 5, 9] (take 9 emptyRegistry)).2) [5, 2, 5, 9]) :=
  ⟨by decide,
    New_list_is_stable_sort [5, 2, 5, 9] (take 9 emptyRegistry) (by decide)
      (by
        intro a b ia ib ha hb _
        by_cases e1 : a = 9
        · by_cases e2 : b = 9
          · rw [e1, e2]
          · rw [take_order_ne _ e2] at hb
            cases hb
        · rw [take_order_ne _ e1] at ha
          cases ha)
      (by
        intro l item hl
        by_cases e1 : l = 9
        · rw [e1] at hl
          have : item = ⟨0, 1⟩ := by
            have h0 : (take 9 emptyRegistry).order 9 = some ⟨0, 1⟩ := rfl
            rw [h0] at hl
            exact (Option.some.inj hl).symm
          rw [this]
          decide
        · rw [take_order_ne _ e1] at hl
          cases hl)
      (by decide)⟩

/-- C14 as stated fails once `nextOrderID` has wrapped around. In the registry
reached by registering handle `0` and then registering and releasing handle `1`
`2^32 - 1` times, handle `0` is the only entry (so distinct handles have
distinct ids) and the counter is back at `0`. `New` on the arguments `1, 0`
gives handle `1` the id `0`, the id of handle `0`: the permutations `1, 0` and
`0, 1` of the arguments are both sorted by id, and they are not the same list. -/
theorem New_list_is_stable_sort_counterexample :
    emptyRegistry.run (RegOp.take 0 :: takePutCycles 1 4294967295) = some wrappedRegistry ∧
    (∀ a b ia ib, wrappedRegistry.order a = some ia → wrappedRegistry.order b = some ib →
      ia.id = ib.id → a = b) ∧
    idOf (New [1, 0] wrappedRegistry).2 1 = 0 ∧ idOf (New [1, 0] wrappedRegistry).2 0 = 0 ∧
    ¬ (∀ R : List Locker, R.Perm [1, 0] →
      R.Pairwise (fun a b => idOf (New [1, 0] wrappedRegistry).2 a
        ≤ idOf (New [1, 0] wrappedRegistry).2 b) →
      R = stableSortByRank (idOf (New [1, 0] wrappedRegistry).2) [1, 0]) := by
  refine ⟨wrappedRegistry_reachable, ?_, by decide, by decide, ?_⟩
  · intro a b ia ib ha hb _
    have key : ∀ k item, wrappedRegistry.order k = some item → k = 0 := by
      intro k item hk
      by_contra hne
      simp [wrappedRegistry, hne] at hk
    rw [key a ia ha, key b ib hb]
  · intro hall
    have h1 := hall [1, 0] (List.Perm.refl _) (by decide)
    have h2 := hall [0, 1] (List.Perm.swap 1 0 []) (by decide)
    rw [← h1] at h2
    exact absurd h2 (by decide)

/-! ## C15: Releasing an unregistered handle, and refcounts below zero -/

/-- C15, amended: `put` on a handle that has no entry faults, and the registry
after the fault is the registry before the call: no entry is created for the
handle, no other entry and not `nextOrderID` is changed. And in every state
reached by a program that makes fewer than `2^32` handle registrations in total,
whatever it does with its slices, every entry has refcount at least `1`, and no
`put` made by the finalizer of a live multilocker finds an entry with refcount
`0`: no refcount goes from `0` to `2^32 - 1`. -/
theorem put_absent_faults_and_never_wraps (prog : List Stmt) (h : Heap)
    (hrun : Heap.init.run prog = some h) (hn : stmtRegistrations prog < uint32Size) :
    (∀ (l : Locker) (s : Registry), s.order l = none →
      (put l s).1 = .error "invalid memory address or nil pointer dereference" ∧
      (∀ t : Unit, (put l s).1 ≠ .ok t) ∧
      (put l s).2.order = s.order ∧ (put l s).2.nextOrderID = s.nextOrderID) ∧
    (∀ l item, h.reg.order l = some item → 1 ≤ item.refcount) ∧
    (∀ sl ∈ h.live, putsNeverWrap (h.read sl) h.reg) := by
  have hinv := heap_takesInvariant_run prog 0 Heap.init h takesInvariant_empty (by omega) hrun
  refine ⟨?_, ?_, ?_⟩
  · intro l s hl
    have hp := put_of_none hl
    rw [hp]
    refine ⟨rfl, ?_, rfl, rfl⟩
    intro t ht
    cases ht
  · intro l item hl
    exact (hinv.2.1 l item hl).1
  · intro sl _
    exact putsNeverWrap_of_takesInvariant (h.read sl) _ h.reg hinv (by omega)

/-- Witness for C15: a program whose `New` calls share a backing array. After
`New(0)` and `buf := [1, 0]`, the calls `New(buf[0:1]...)` and `New(buf[0:2]...)`
leave the lists `0`, `0` and `0, 1`. The finalizers of the first two multilockers
release handle `0` twice and remove its entry; the finalizer of the third would
fault on handle `0`, and no `put` finds an entry with refcount `0`. -/
theorem put_absent_faults_and_never_wraps_witness :
    ∃ h, Heap.init.run [Stmt.newOf [0], Stmt.make [1, 0], Stmt.newSlice ⟨1, 0, 1⟩,
        Stmt.newSlice ⟨1, 0, 2⟩, Stmt.finalize 2, Stmt.finalize 1] = some h ∧
      h.live = [⟨1, 0, 2⟩] ∧ h.read ⟨1, 0, 2⟩ = [0, 1] ∧
      h.reg.order 0 = none ∧ h.reg.order 1 = some ⟨1, 2⟩ ∧
      (T.finalizer ⟨h.read ⟨1, 0, 2⟩⟩ h.reg).1
        = .error "invalid memory address or nil pointer dereference" ∧
      ((∀ (l : Locker) (s : Registry), s.order l = none →
        (put l s).1 = .error "invalid memory address or nil pointer dereference" ∧
        (∀ t : Unit, (put l s).1 ≠ .ok t) ∧
        (put l s).2.order = s.order ∧ (put l s).2.nextOrderID = s.nextOrderID) ∧
       (∀ l item, h.reg.order l = some item → 1 ≤ item.refcount) ∧
       (∀ sl ∈ h.live, putsNeverWrap (h.read sl) h.reg)) :=
  ⟨_, rfl, by decide, by decide, by decide, by decide, by decide,
    put_absent_faults_and_never_wraps [Stmt.newOf [0], Stmt.make [1, 0],
      Stmt.newSlice ⟨1, 0, 1⟩, Stmt.newSlice ⟨1, 0, 2⟩, Stmt.finalize 2, Stmt.finalize 1] _
      rfl (by decide)⟩

/-- C15 as stated fails when a refcount has wrapped around. After `2^32`
multilockers over handle `0` were constructed, all of them live, the refcount of
handle `0` is `0`; the finalizer of one of them calls `put 0`, which returns
normally and leaves the refcount `2^32 - 1`. -/
theorem put_absent_faults_and_never_wraps_counterexample :
    ∃ h, Heap.init.run ((List.replicate 4294967296 (Op.construct [0])).map Op.toStmt)
        = some h ∧
      (⟨[0]⟩ : T) ∈ h.view.live ∧
      h.reg.order 0 = some ⟨0, 0⟩ ∧
      (put 0 h.reg).1 = .ok () ∧
      (put 0 h.reg).2.order 0 = some ⟨0, 4294967295⟩ ∧
      ¬ putsNeverWrap [0] h.reg := by
  obtain ⟨h, hrun, hview, _, _⟩ := heap_run_ops_init _ _ world_run_saturated
  have hreg : h.reg = setItem (take 0 emptyRegistry) 0
      (some ⟨0, (1 + 4294967295) % uint32Size⟩) := by
    have : h.reg = h.view.reg := rfl
    rw [this, hview]
  refine ⟨h, hrun, ?_, ?_, ?_, ?_, ?_⟩
  · rw [hview]
    exact List.mem_append_right _ (List.mem_singleton_self _)
  · rw [hreg]
    rfl
  · rw [hreg]
    rfl
  · rw [hreg]
    rfl
  · rw [hreg]
    intro hp
    have := hp.1 ⟨0, 0⟩ rfl
    exact absurd this (by decide)

/-! ## C16: The first-registration race -/

/-- C16: two goroutines register the argument lists `ls1` and `ls2`, each of
which holds the handle `l` once, on a registry in which `l` has no entry. Take
any interleaving of the phases of their `take` calls, cut at any point into
`sched1` and `sched2`, that ends with both goroutines done. Then the registry
ends with the entry of `l` at refcount `2`, `nextOrderID` has advanced by one per
distinct handle that was new (one entry was created for `l`, not two), and at the
cut, as soon as one goroutine is done and may sort, the entry of `l` is there
with the id it has at the end: both multilockers sort `l` by the same id. -/
theorem first_registration_race (r0 : PtrRegistry) (l : Locker) (ls1 ls2 : List Locker)
    (sched1 sched2 : List Nat) (m1 m2 : Machine)
    (hwf : r0.WellFormed) (hnext : r0.nextOrderID < uint32Size)
    (habs : r0.order l = none)
    (h1 : ls1.count l = 1) (h2 : ls2.count l = 1)
    (hrun1 : (Machine.start r0 [registerCalls ls1, registerCalls ls2]).run sched1 = some m1)
    (hrun2 : m1.run sched2 = some m2)
    (hfin : ∀ g ∈ m2.goroutines, g.finished) :
    ∃ id, m2.reg.view.order l = some ⟨id, 2⟩ ∧
      m2.reg.view.nextOrderID
        = (r0.nextOrderID + (newHandles r0.view (ls1 ++ ls2)).card) % uint32Size ∧
      ((∃ g ∈ m1.goroutines, g.finished) → ∃ rc, m1.reg.view.order l = some ⟨id, rc⟩) := by
  have hstart : ∀ g ∈ (Machine.start r0 [registerCalls ls1, registerCalls ls2]).goroutines,
      g.TakeOnly := by
    intro g hg
    simp only [Machine.start, List.map_cons, List.map_nil, List.mem_cons, List.mem_singleton,
      List.not_mem_nil, or_false] at hg
    rcases hg with e | e
    · rw [e]; exact takeOnly_registerCalls ls1
    · rw [e]; exact takeOnly_registerCalls ls2
  have hpstart : ∀ k, (Machine.start r0 [registerCalls ls1, registerCalls ls2]).pendingTakes k
      = ls1.count k + ls2.count k := by
    intro k
    simp only [Machine.pendingTakes, Machine.start, List.map_cons, List.map_nil, List.sum_cons,
      List.sum_nil, Goroutine.pendingTakes, count_registerCalls]
    omega
  obtain ⟨hg1, hwf1, L1, hL1, hc1⟩ := takeOnly_run sched1 _ m1 hstart hwf hrun1
  obtain ⟨_, _, L2, hL2, hc2⟩ := takeOnly_run sched2 m1 m2 hg1 hwf1 hrun2
  have hview0 : (Machine.start r0 [registerCalls ls1, registerCalls ls2]).reg.view = r0.view := rfl
  rw [hview0] at hL1
  have habs0 : r0.view.order l = none := view_order_none habs
  have hp2 := pendingTakes_finished hfin
  -- the completed calls at the end
  have hcount : ∀ k, (L1 ++ L2).count k = (ls1 ++ ls2).count k := by
    intro k
    have a := hc1 k
    have b := hc2 k
    rw [hpstart k] at a
    rw [hp2 k] at b
    rw [List.count_append, List.count_append]
    omega
  have hview2 : m2.reg.view = takeAll (L1 ++ L2) r0.view := by
    rw [takeAll_append, ← hL1, hL2]
  have hmem : ∀ k, k ∈ L1 ++ L2 ↔ k ∈ ls1 ++ ls2 := by
    intro k
    rw [← List.count_pos_iff, ← List.count_pos_iff, hcount k]
  have hl2 : l ∈ L1 ++ L2 := by
    rw [← List.count_pos_iff, hcount l, List.count_append]
    omega
  obtain ⟨item, hitem⟩ := takeAll_mem_present (L1 ++ L2) r0.view hl2
  have hrc := takeAll_refcountOf_mem (L1 ++ L2) r0.view l hl2
  rw [hcount l, List.count_append, h1, h2] at hrc
  simp only [refcountOf, hitem, habs0] at hrc
  have hrc2 : item.refcount = 2 := by
    rw [hrc]
    unfold uint32Size
    rfl
  refine ⟨item.id, ?_, ?_, ?_⟩
  · rw [hview2, hitem]
    cases item
    simp only at hrc2
    rw [hrc2]
  · rw [hview2, takeAll_nextOrderID (L1 ++ L2) r0.view hnext, newHandles_congr r0.view hmem]
    rfl
  · rintro ⟨g, hgm, hgf⟩
    -- the goroutine that is done has completed its `take l`
    have hb := takeOnly_run_pending_le sched1 _ m1
      [fun k => ls1.count k, fun k => ls2.count k] hstart hwf
      (by
        simp only [Machine.start, List.map_cons, List.map_nil]
        refine List.Forall₂.cons ?_ (List.Forall₂.cons ?_ List.Forall₂.nil)
        · intro k
          simp only [Goroutine.pendingTakes, count_registerCalls, Nat.zero_add]
          exact Nat.le_refl _
        · intro k
          simp only [Goroutine.pendingTakes, count_registerCalls, Nat.zero_add]
          exact Nat.le_refl _)
      hrun1
    have hpend : m1.pendingTakes l ≤ 1 := by
      obtain ⟨r, gs⟩ := m1
      simp only [Machine.pendingTakes]
      simp only at hb hgm
      cases hb with
      | cons ha hrest =>
        cases hrest with
        | cons hb2 hnil =>
          cases hnil
          have a : _ ≤ ls1.count l := ha l
          have b : _ ≤ ls2.count l := hb2 l
          rw [h1] at a
          rw [h2] at b
          have hg0 : g.pendingTakes l = 0 := by
            obtain ⟨hpc, htodo⟩ := hgf
            simp only [Goroutine.pendingTakes, hpc, htodo, List.count_nil]
          simp only [List.map_cons, List.map_nil, List.sum_cons, List.sum_nil, Nat.add_zero]
          simp only [List.mem_cons, List.mem_singleton, List.not_mem_nil, or_false] at hgm
          rcases hgm with e | e
          · rw [← e, hg0]
            omega
          · rw [← e, hg0]
            omega
    have hl1 : l ∈ L1 := by
      rw [← List.count_pos_iff]
      have a := hc1 l
      rw [hpstart l, h1, h2] at a
      omega
    obtain ⟨item1, hitem1⟩ := takeAll_mem_present L1 r0.view hl1
    rw [← hL1] at hitem1
    obtain ⟨item2, hitem2, hid⟩ := takeAll_present L2 hitem1
    rw [← hL2, hview2, hitem] at hitem2
    simp only [Option.some.injEq] at hitem2
    refine ⟨item1.refcount, ?_⟩
    rw [hitem1, hitem2, hid]

/-- Witness for C16: on the empty registry one goroutine registers `7`, the
other `3, 7`. Both find no entry for `7` in the read-locked phase; the first one
creates it, the second one finds it under the write lock. -/
theorem first_registration_race_witness :
    ∃ id,
      (takeWrite 7 (takeWrite 7 (takeWrite 3 emptyPtrRegistry))).view.order 7 = some ⟨id, 2⟩ ∧
      (takeWrite 7 (takeWrite 7 (takeWrite 3 emptyPtrRegistry))).view.nextOrderID
        = (emptyPtrRegistry.nextOrderID
            + (newHandles emptyPtrRegistry.view ([7] ++ [3, 7])).card) % uint32Size ∧
      ((∃ g ∈ [Goroutine.mk Pc.idle [], Goroutine.mk (Pc.takeLocked 7) []], g.finished) →
        ∃ rc, (takeWrite 7 (takeWrite 3 emptyPtrRegistry)).view.order 7 = some ⟨id, rc⟩) :=
  first_registration_race emptyPtrRegistry 7 [7] [3, 7] [0, 1, 1, 1, 0] [1]
    ⟨takeWrite 7 (takeWrite 3 emptyPtrRegistry), [⟨Pc.idle, []⟩, ⟨Pc.takeLocked 7, []⟩]⟩
    ⟨takeWrite 7 (takeWrite 7 (takeWrite 3 emptyPtrRegistry)), [⟨Pc.idle, []⟩, ⟨Pc.idle, []⟩]⟩
    wellFormed_empty (by decide) rfl rfl rfl rfl rfl (by decide)

/-! ## C17: The re-check in put -/

/-- C17: the only caller of `put` is the finalizer closure (`setFinalizer`), and
the runtime runs the finalizers of a program on one goroutine, one after the
other. So goroutine number `f` makes all the `put` calls (and any `take` calls),
and every other goroutine makes `take` calls only. Then, in every state `m`
that an interleaving of the phases reaches and for every next phase, an entry
that the phase removes from the order map has refcount `0`, and an entry with
refcount at least `1` is still stored for its handle afterwards, under the same
id. -/
theorem put_recheck_protects_revived_entry (r0 : PtrRegistry) (programs : List (List RegOp))
    (f : Nat) (sched : List Nat) (i : Nat) (m m1 : Machine)
    (hwf : r0.WellFormed)
    (hone : ∀ j prog, programs[j]? = some prog → j ≠ f → ∀ op ∈ prog, ∃ l, op = RegOp.take l)
    (hrun : (Machine.start r0 programs).run sched = some m)
    (hstep : m.step i = some m1) :
    (∀ k item, m.reg.view.order k = some item → m1.reg.view.order k = none →
        item.refcount = 0) ∧
    (∀ k item, m.reg.view.order k = some item → 1 ≤ item.refcount →
        ∃ item1, m1.reg.view.order k = some item1 ∧ item1.id = item.id) := by
  have hinv := onePutter_run sched _ m (onePutter_start f r0 programs hwf hone) hrun
  obtain ⟨g, g1, hgi, hgs, _⟩ := machine_step_inv hstep
  obtain ⟨hwfm, hothers, hitem⟩ := hinv
  have key : ∀ k p, m.reg.order k = some p →
      (m1.reg.order k = some p ∧ (m1.reg.items p).id = (m.reg.items p).id) ∨
      (m1.reg.order k = none ∧ (m.reg.items p).refcount = 0) := by
    intro k p hk
    rcases goroutine_step_order hgs k p hk with hkeep | ⟨hgone, item, hpc, hzero⟩
    · exact Or.inl ⟨hkeep, goroutine_step_items_id hgs p (hwfm.1 k p hk)⟩
    · right
      refine ⟨hgone, ?_⟩
      have hif : i = f := by
        by_contra hne
        exact takeOnly_pc_ne_putLocked (hothers i g hgi hne) k item hpc
      subst hif
      have hcur := hitem g k item hgi hpc
      rw [hk] at hcur
      simp only [Option.some.injEq] at hcur
      rw [hcur]
      exact hzero
  constructor
  · intro k item hk hnone
    simp only [PtrRegistry.view] at hk hnone
    cases hp : m.reg.order k with
    | none => simp [hp] at hk
    | some p =>
      simp only [hp, Option.map_some', Option.some.injEq] at hk
      rcases key k p hp with ⟨hkeep, _⟩ | ⟨_, hzero⟩
      · simp [hkeep] at hnone
      · rw [← hk]
        exact hzero
  · intro k item hk hpos
    simp only [PtrRegistry.view] at hk ⊢
    cases hp : m.reg.order k with
    | none => simp [hp] at hk
    | some p =>
      simp only [hp, Option.map_some', Option.some.injEq] at hk
      rcases key k p hp with ⟨hkeep, hid⟩ | ⟨_, hzero⟩
      · refine ⟨m1.reg.items p, ?_, ?_⟩
        · simp only [hkeep, Option.map_some']
        · rw [hid, hk]
      · rw [hk] at hzero
        omega

/-- C17, an instance: handle `0` is registered once; goroutine `0` starts
`put 0` and drops the refcount to `0`, goroutine `1` revives the entry with
`take 0` before goroutine `0` takes the exclusive lock. The re-check then finds
refcount `1` and the entry stays, with its id. -/
theorem put_recheck_protects_revived_entry_witness :
    ∃ m m1 : Machine,
      (Machine.start (takeWrite 0 emptyPtrRegistry) [[RegOp.put 0], [RegOp.take 0]]).run [0, 1]
        = some m ∧
      m.step 0 = some m1 ∧
      m.reg.view.order 0 = some ⟨0, 1⟩ ∧
      m1.reg.view.order 0 = some ⟨0, 1⟩ ∧
      ((∀ k item, m.reg.view.order k = some item → m1.reg.view.order k = none →
          item.refcount = 0) ∧
       (∀ k item, m.reg.view.order k = some item → 1 ≤ item.refcount →
          ∃ item1, m1.reg.view.order k = some item1 ∧ item1.id = item.id)) := by
  refine ⟨_, _, rfl, rfl, by decide, by decide,
    put_recheck_protects_revived_entry (takeWrite 0 emptyPtrRegistry)
      [[RegOp.put 0], [RegOp.take 0]] 0 [0, 1] 0 _ _
      (takeWrite_view 0 wellFormed_empty).2 ?_ rfl rfl⟩
  intro j prog hj hne
  match j, hj, hne with
  | 0, _, hne => exact absurd rfl hne
  | 1, hj, _ =>
    simp only [List.getElem?_cons_succ, List.getElem?_cons_zero, Option.some.injEq] at hj
    subst hj
    intro op hop
    exact ⟨0, List.mem_singleton.mp hop⟩
  | (n + 2), hj, _ => simp at hj

/-! ## C18: The comparator finds every entry -/

/-- C18: for every registry state and every argument list, after the loop that
calls `take` on each argument every argument has an entry in the order map; the
comparator therefore finds both entries whenever it is called on two arguments
and returns the comparison of their ids, and the sort, which faults as soon as
one comparison faults, returns a list. -/
theorem comparator_never_faults (lockers : List Locker) (s : Registry) :
    (∀ l ∈ lockers, ((takeAll lockers s).order l).isSome = true) ∧
    (∀ a ∈ lockers, ∀ b ∈ lockers,
      less (takeAll lockers s) a b
        = .ok (decide (idOf (takeAll lockers s) a < idOf (takeAll lockers s) b))) ∧
    (∃ list, optimizeSequence lockers s = (.ok list, takeAll lockers s)) := by
  refine ⟨?_, ?_, ?_⟩
  · intro l hl
    obtain ⟨item, hitem⟩ := takeAll_mem_present lockers s hl
    rw [hitem]
    rfl
  · intro a ha b hb
    exact less_of_present (takeAll_mem_present lockers s ha) (takeAll_mem_present lockers s hb)
  · obtain ⟨list, hlist, _, _⟩ := optimizeSequence_spec lockers s
    exact ⟨list, hlist⟩

/-! ## C19: Placement of handles seen for the first time -/

/-- C19: for every registry state in which all present ids are below
`nextOrderID` and every non-empty argument list whose registration does not wrap
the counter around, in the list stored by `New` every argument that had no entry
before the call comes after every argument that already had an entry, and the
arguments that had no entry appear in the order of their first occurrence in the
argument list. (`a` comes before `b` and `b` does not come before `a`: all
occurrences of `a` are in front of all occurrences of `b`.) -/
theorem new_handles_placement (lockers : List Locker) (s : Registry)
    (h : lockers ≠ [])
    (hinv : ∀ l item, s.order l = some item → item.id < s.nextOrderID)
    (hnowrap : s.nextOrderID + (newHandles s lockers).card < uint32Size) :
    ∃ t : T, (New lockers s).1 = .ok t ∧
      (∀ a ∈ lockers, ∀ b ∈ lockers, (s.order a).isSome = true → s.order b = none →
        precedes a b t.list ∧ ¬ precedes b a t.list) ∧
      (∀ a ∈ lockers, ∀ b ∈ lockers, s.order a = none → s.order b = none →
        lockers.indexOf a < lockers.indexOf b →
        precedes a b t.list ∧ ¬ precedes b a t.list) := by
  obtain ⟨list, hnew, hperm, hsorted⟩ := New_spec lockers s h
  obtain ⟨h1, h2⟩ := takeAll_new_ids lockers s hinv hnowrap
  refine ⟨⟨list⟩, by rw [hnew], ?_, ?_⟩
  · intro a ha b hb hsome hnone
    refine precedes_of_sorted_lt (idOf (takeAll lockers s)) hsorted
      (hperm.symm.subset ha) (hperm.symm.subset hb) ?_
    obtain ⟨item, hitem⟩ := Option.isSome_iff_exists.1 hsome
    have e1 := (takeAll_idOf_present lockers hsome).2
    have e2 : idOf s a = item.id := by simp only [idOf, hitem]
    have e3 := hinv a item hitem
    have e4 := h1 b hb hnone
    omega
  · intro a ha b hb hna hnb hidx
    exact precedes_of_sorted_lt (idOf (takeAll lockers s)) hsorted
      (hperm.symm.subset ha) (hperm.symm.subset hb) (h2 a ha b hb hna hnb hidx)

/-- Witness for C19: handle `9` is registered; the arguments are `5, 9, 2, 5`. -/
theorem new_handles_placement_witness :
    (New [5, 9, 2, 5] (take 9 emptyRegistry)).1 = .ok ⟨[9, 5, 5, 2]⟩ ∧
    ∃ t : T, (New [5, 9, 2, 5] (take 9 emptyRegistry)).1 = .ok t ∧
      (∀ a ∈ ([5, 9, 2, 5] : List Locker), ∀ b ∈ ([5, 9, 2, 5] : List Locker),
        ((take 9 emptyRegistry).order a).isSome = true → (take 9 emptyRegistry).order b = none →
        precedes a b t.list ∧ ¬ precedes b a t.list) ∧
      (∀ a ∈ ([5, 9, 2, 5] : List Locker), ∀ b ∈ ([5, 9, 2, 5] : List Locker),
        (take 9 emptyRegistry).order a = none → (take 9 emptyRegistry).order b = none →
        ([5, 9, 2, 5] : List Locker).indexOf a < ([5, 9, 2, 5] : List Locker).indexOf b →
        precedes a b t.list ∧ ¬ precedes b a t.list) :=
  ⟨by decide,
    new_handles_placement [5, 9, 2, 5] (take 9 emptyRegistry) (by decide)
      (fun l item hl =>
        ((takesInvariant_take 9 takesInvariant_empty (by decide)).2.1 l item hl).2.2)
      (by decide)⟩

end Multilocker
